import Mathlib

/-!
Verification development for the mahjong tile-acceptance calculator.

The Lean definitions below are shallow embeddings of the Python sources:
`mahjong_objects.py`, `tiles_utils.py`, `group_finder.py`,
`pattern_generator.py` and `tile_acceptance_calculator.py`.
Python lists become Lean lists, Python sets become `Finset`,
Python dicts keyed by `Constraint` become total functions
`Constraint → _` (a `defaultdict(list)` is exactly a total function with
default `[]`), exceptions become `Except`, and the mutable memo set that
the search threads by reference becomes explicit state passing.
-/

/-- `Family` enum from `mahjong_objects.py` (values "s", "m", "p", "z"). -/
inductive Family where
  | BAMBOO
  | CHARACTER
  | CIRCLE
  | HONOR
deriving DecidableEq, Repr

/-- The one-letter value of a family (`Family.value` in the source). -/
def Family.value : Family → Char
  | .BAMBOO => 's'
  | .CHARACTER => 'm'
  | .CIRCLE => 'p'
  | .HONOR => 'z'

/-- `Constraint` enum from `mahjong_objects.py`. -/
inductive Constraint where
  | NONE
  | ORDINARY
  | NO_HONOR
  | FULL_TERMINALS
  | FULL_HONORS
  | FULL_TERMINALS_OR_HONORS
  | CONTAINS_TERMINALS_OR_HONORS
  | FIRST_FOUR
  | LAST_FOUR
  | FIRST_THREE
  | MIDDLE_THREE
  | LAST_THREE
  | EVEN
  | SYMMETRIC
  | GREEN
  | CONTAINS_FIVE
  | FLUSH_BAMBOO
  | FLUSH_CIRCLE
  | FLUSH_CHARACTER
deriving DecidableEq, Repr

/-- `MahjongTile` from `mahjong_objects.py`: a number and a family. -/
structure MahjongTile where
  number : Nat
  family : Family
deriving DecidableEq, Repr

abbrev MahjongTiles := List MahjongTile

abbrev MahjongGroup := List MahjongTile

abbrev MahjongGroups := List MahjongGroup

abbrev MahjongCombination := MahjongGroups × MahjongTiles

/-- A yielded (proto-group, residue, satisfied constraints) triple
(`MahjongGroupAndResidue` in the source). -/
abbrev MahjongGroupAndResidue := MahjongGroup × MahjongTiles × List Constraint

/-- `MahjongTile.__lt__`: order by family letter (string comparison of the
one-character enum values), then by number. -/
def MahjongTile.lt (a b : MahjongTile) : Bool :=
  a.family.value < b.family.value || (a.family = b.family && a.number < b.number)

/-- `MahjongTile.is_wind`. -/
def MahjongTile.is_wind (t : MahjongTile) : Bool :=
  t.family = Family.HONOR && 1 ≤ t.number && t.number ≤ 4

/-- `MahjongTile.is_dragon`. -/
def MahjongTile.is_dragon (t : MahjongTile) : Bool :=
  t.family = Family.HONOR && 5 ≤ t.number && t.number ≤ 7

/-- `MahjongTile.is_honor`. -/
def MahjongTile.is_honor (t : MahjongTile) : Bool :=
  t.family = Family.HONOR

/-- `MahjongTile.is_compatible_with_half_flush`. -/
def MahjongTile.is_compatible_with_half_flush (t : MahjongTile) (family : Family) : Bool :=
  t.family = family || t.family = Family.HONOR

/-- The fixed set of symmetric tiles
`{"5z", "1p", "2p", "3p", "4p", "5p", "8p", "9p", "2s", "4s", "5s", "6s", "8s", "9s"}`
from `MahjongTile.is_symmetric` (string membership on `str(self)`, which is
injective on tiles, so tile-list membership is an equivalent model). -/
def symmetricTileSet : List MahjongTile :=
  [⟨5, .HONOR⟩, ⟨1, .CIRCLE⟩, ⟨2, .CIRCLE⟩, ⟨3, .CIRCLE⟩, ⟨4, .CIRCLE⟩, ⟨5, .CIRCLE⟩,
   ⟨8, .CIRCLE⟩, ⟨9, .CIRCLE⟩, ⟨2, .BAMBOO⟩, ⟨4, .BAMBOO⟩, ⟨5, .BAMBOO⟩, ⟨6, .BAMBOO⟩,
   ⟨8, .BAMBOO⟩, ⟨9, .BAMBOO⟩]

/-- `MahjongTile.is_symmetric`. -/
def MahjongTile.is_symmetric (t : MahjongTile) : Bool :=
  t ∈ symmetricTileSet

/-- The fixed set of green tiles `{"6z", "2s", "3s", "4s", "6s", "8s"}`. -/
def greenTileSet : List MahjongTile :=
  [⟨6, .HONOR⟩, ⟨2, .BAMBOO⟩, ⟨3, .BAMBOO⟩, ⟨4, .BAMBOO⟩, ⟨6, .BAMBOO⟩, ⟨8, .BAMBOO⟩]

/-- `MahjongTile.is_green`. -/
def MahjongTile.is_green (t : MahjongTile) : Bool :=
  t ∈ greenTileSet

/-- `MahjongTile.is_even`. -/
def MahjongTile.is_even (t : MahjongTile) : Bool :=
  !(t.family = Family.HONOR) && t.number % 2 = 0

/-- `MahjongTile.is_terminal`. -/
def MahjongTile.is_terminal (t : MahjongTile) : Bool :=
  !(t.family = Family.HONOR) && (t.number = 1 || t.number = 9)

/-- `MahjongTile.is_ordinary`. -/
def MahjongTile.is_ordinary (t : MahjongTile) : Bool :=
  !(t.family = Family.HONOR) && 2 ≤ t.number && t.number ≤ 8

/-- `get_tiles_from_family`: filter tiles, keeping those of the family. -/
def get_tiles_from_family (tiles : MahjongTiles) (family : Family) : MahjongTiles :=
  tiles.filter (fun tile => tile.family = family)

/-- `_get_group_residue`: remove one occurrence of each group tile from the
tiles (Python `list.remove` removes the first occurrence; the groups this
program builds always draw from `tiles`, so the missing-element `ValueError`
path of `remove` is unreachable and `List.erase`'s no-op is equivalent). -/
def get_group_residue (group : MahjongGroup) (tiles : MahjongTiles) : MahjongTiles :=
  group.foldl (fun leftover group_tile => leftover.erase group_tile) tiles

/-- Python `min(group)` for a two-element tuple under `MahjongTile.__lt__`:
`min` keeps the earlier element on ties. -/
def twoTileMin (a b : MahjongTile) : MahjongTile :=
  if MahjongTile.lt b a then b else a

/-- Python `max(group)` for a two-element tuple: `max` replaces only when the
later element is strictly greater (`b > a` is `a < b` via the reflected
`__lt__`). -/
def twoTileMax (a b : MahjongTile) : MahjongTile :=
  if MahjongTile.lt a b then b else a

/-- `find_simple_waits_for_two_tiles` from `group_finder.py`. -/
def find_simple_waits_for_two_tiles (group : MahjongGroup) : Finset MahjongTile :=
  match group with
  | [a, b] =>
    let tile1 := twoTileMin a b
    let tile2 := twoTileMax a b
    if tile1 = tile2 then
      {tile1}
    else if (tile2.number : Int) - (tile1.number : Int) = 1 then
      (if 1 < tile1.number then {(⟨tile1.number - 1, tile1.family⟩ : MahjongTile)} else ∅) ∪
      (if tile2.number < 9 then {(⟨tile2.number + 1, tile1.family⟩ : MahjongTile)} else ∅)
    else if (tile2.number : Int) - (tile1.number : Int) = 2 then
      {(⟨(tile1.number + tile2.number) / 2, tile1.family⟩ : MahjongTile)}
    else ∅
  | _ => ∅

/-- The removal condition of one `match` arm of `_get_respected_constraints`:
`violates c group` is true exactly when the arm for `c` executes its
`respected_constraints.remove(c)`.  Constraints without an arm
(NONE, ORDINARY, NO_HONOR, CONTAINS_TERMINALS_OR_HONORS, CONTAINS_FIVE)
are never removed. -/
def violates (constraint : Constraint) (group : MahjongGroup) : Bool :=
  match constraint with
  | .FLUSH_BAMBOO =>
      group.any (fun tile => !tile.is_compatible_with_half_flush Family.BAMBOO)
  | .FLUSH_CIRCLE =>
      group.any (fun tile => !tile.is_compatible_with_half_flush Family.CIRCLE)
  | .FLUSH_CHARACTER =>
      group.any (fun tile => !tile.is_compatible_with_half_flush Family.CHARACTER)
  | .FIRST_FOUR =>
      group.any (fun tile => 4 < tile.number || tile.is_honor)
  | .LAST_FOUR =>
      group.any (fun tile => tile.number < 6 || tile.is_honor)
  | .FIRST_THREE =>
      group.any (fun tile => 3 < tile.number || tile.is_honor)
  | .MIDDLE_THREE =>
      group.any (fun tile => !(4 ≤ tile.number && tile.number ≤ 6) || tile.is_honor)
  | .LAST_THREE =>
      group.any (fun tile => tile.number < 7 || tile.is_honor)
  | .SYMMETRIC =>
      group.any (fun tile => !tile.is_symmetric) ||
        (let waits := find_simple_waits_for_two_tiles group
         !(waits = ∅) && decide (∀ tile ∈ waits, tile.is_symmetric = false))
  | .FULL_TERMINALS_OR_HONORS =>
      group.any (fun tile => !tile.is_honor && !tile.is_terminal)
  | .FULL_HONORS =>
      group.any (fun tile => !tile.is_honor)
  | .FULL_TERMINALS =>
      group.any (fun tile => !tile.is_terminal)
  | .EVEN =>
      group.any (fun tile => !tile.is_even)
  | .GREEN =>
      group.any (fun tile => !tile.is_green)
  | _ => false

/-- `_get_respected_constraints`: the source copies the constraint list and,
for each listed constraint whose arm fires, removes its first occurrence from
the copy; since each occurrence triggers one removal, this is exactly a
filter.  (On an empty list the source's early `return []` coincides with the
filter.) -/
def get_respected_constraints (group : MahjongGroup) (constraints : List Constraint) :
    List Constraint :=
  constraints.filter (fun constraint => !violates constraint group)

/-- The `yield` bodies shared by the three enumerators: build the group,
narrow the constraints, and yield `(group, residue, respected)` when the
narrowed list is non-empty. -/
def yield_group (group : MahjongGroup) (tiles : MahjongTiles)
    (constraints : List Constraint) : List MahjongGroupAndResidue :=
  let respected_constraints := get_respected_constraints group constraints
  if respected_constraints.isEmpty then []
  else [(group, get_group_residue group tiles, respected_constraints)]

/-- Counter keys in first-occurrence order (Python `Counter` iterates its
keys in insertion order). -/
def counterKeys (seen : List Nat) : List Nat → List Nat
  | [] => []
  | x :: xs => if x ∈ seen then counterKeys seen xs else x :: counterKeys (x :: seen) xs

/-- The inner loop of `find_sequences` over the sorted number list
(`for current_tile in family_tiles_num`, with the `break` at `> 7`). -/
def seq_candidates (family : Family) (nums : List Nat) (tiles : MahjongTiles)
    (constraints : List Constraint) : List Nat → List MahjongGroupAndResidue
  | [] => []
  | current :: rest =>
    if 7 < current then []
    else
      (if current + 1 ∈ nums && current + 2 ∈ nums then
        yield_group [⟨current, family⟩, ⟨current + 1, family⟩, ⟨current + 2, family⟩]
          tiles constraints
      else []) ++
      (if current + 1 ∈ nums then
        yield_group [⟨current, family⟩, ⟨current + 1, family⟩] tiles constraints
      else []) ++
      (if current + 2 ∈ nums then
        yield_group [⟨current, family⟩, ⟨current + 2, family⟩] tiles constraints
      else []) ++
      yield_group [⟨current, family⟩] tiles constraints ++
      seq_candidates family nums tiles constraints rest

/-- `find_sequences` from `group_finder.py` (families iterated in the
source's explicit order BAMBOO, CIRCLE, CHARACTER). -/
def find_sequences (tiles : MahjongTiles) (constraints : List Constraint) :
    List MahjongGroupAndResidue :=
  [Family.BAMBOO, Family.CIRCLE, Family.CHARACTER].flatMap (fun family =>
    let family_tiles := get_tiles_from_family tiles family
    let family_tiles_num := List.insertionSort (· ≤ ·) (family_tiles.map (·.number))
    seq_candidates family family_tiles_num tiles constraints family_tiles_num)

/-- `find_three_of_a_kind` (families iterated in enum definition order). -/
def find_three_of_a_kind (tiles : MahjongTiles) (constraints : List Constraint) :
    List MahjongGroupAndResidue :=
  [Family.BAMBOO, Family.CHARACTER, Family.CIRCLE, Family.HONOR].flatMap (fun family =>
    let family_tiles := get_tiles_from_family tiles family
    let nums := family_tiles.map (·.number)
    (counterKeys [] nums).flatMap (fun current =>
      let tile_count := nums.count current
      (if 3 ≤ tile_count then
        yield_group [⟨current, family⟩, ⟨current, family⟩, ⟨current, family⟩]
          tiles constraints
      else []) ++
      (if 2 ≤ tile_count then
        yield_group [⟨current, family⟩, ⟨current, family⟩] tiles constraints
      else []) ++
      yield_group [⟨current, family⟩] tiles constraints))

/-- `find_pair` (pair when at least two copies are present, otherwise the
lone candidate). -/
def find_pair (tiles : MahjongTiles) (constraints : List Constraint) :
    List MahjongGroupAndResidue :=
  [Family.BAMBOO, Family.CHARACTER, Family.CIRCLE, Family.HONOR].flatMap (fun family =>
    let family_tiles := get_tiles_from_family tiles family
    let nums := family_tiles.map (·.number)
    (counterKeys [] nums).flatMap (fun current =>
      let tile_count := nums.count current
      if 2 ≤ tile_count then
        yield_group [⟨current, family⟩, ⟨current, family⟩] tiles constraints
      else
        yield_group [⟨current, family⟩] tiles constraints))

/-- Python tuple comparison of two groups: lexicographic on tiles, using
`==` and then `__lt__`; a strict prefix is smaller. -/
def MahjongGroup.lt : MahjongGroup → MahjongGroup → Bool
  | [], [] => false
  | [], _ :: _ => true
  | _ :: _, [] => false
  | x :: xs, y :: ys => if x = y then MahjongGroup.lt xs ys else MahjongTile.lt x y

/-- `merge_group_tuple`: append the new group and sort
(`tuple(sorted(list(group_tuple) + [new_group]))`).  Group comparison is a
strict linear order whose equivalence is equality, so every sorting
algorithm yields Python's `sorted` output; we use insertion sort with the
reflexive closure `¬(b < a)`. -/
def merge_group_tuple (group_tuple : MahjongGroups) (new_group : MahjongGroup) :
    MahjongGroups :=
  List.insertionSort (fun a b => MahjongGroup.lt b a = false) (group_tuple ++ [new_group])

/-- Errors of the decomposition engine: `AttributeError('Not enough tiles…')`,
the `KeyError` of the `[Constraint.NONE]` lookup in `all_groups_for`, the
`AttributeError('Constraints cannot be None or empty')`, and an out-of-fuel
marker for the structural-recursion fuel (never reached: the entry points
supply fuel equal to the number of requested groups, which is exactly the
recursion depth). -/
inductive GFError where
  | notEnoughTiles
  | keyNotFound
  | invalidConstraints
  | outOfFuel
deriving DecidableEq, Repr

/-- Per-constraint result buckets: `defaultdict(list)` keyed by constraint is
modelled as a total function defaulting to `[]`.  (In the source every
materialised key holds a non-empty list — each defaultdict access is
immediately followed by an append — so the dict is recovered from the
function as its support.) -/
abbrev CResult := Constraint → List MahjongCombination

/-- The memo of already-explored combined group-sets (a Python `set`,
modelled as a list used as a set). -/
abbrev GFCache := List MahjongGroups

/-- The loop state of `_find_group_and_recurse`: the two defaultdicts
`possible_combinations` (default `[]`) and `smallest_leftovers`
(default 14) share their keys, so they are modelled as one total function
to a (bucket, running smallest) pair. -/
abbrev GFState := Constraint → List MahjongCombination × Nat

/-- The base-case append of `_find_group_and_recurse`:
`for constraint in respected_constraints: possible_combinations[constraint].append(entry)`. -/
def append_base_case (st : GFState) (respected_constraints : List Constraint)
    (entry : MahjongCombination) : GFState :=
  respected_constraints.foldl
    (fun acc constraint =>
      fun c => if c = constraint then ((acc c).1 ++ [entry], (acc c).2) else acc c) st

/-- The inner filtering loop of `_find_group_and_recurse` for one constraint
bucket: walk the recursive combinations, skip those with residue larger than
the running smallest, restart the bucket on a strictly smaller residue, and
append ties. -/
def process_combinations (bucket : List MahjongCombination) (smallest : Nat)
    (combinations : List MahjongCombination) (found_group : MahjongGroup) :
    List MahjongCombination × Nat :=
  combinations.foldl
    (fun state br =>
      let residue_size := br.2.length
      if state.2 < residue_size then state
      else if residue_size < state.2 then
        ([(merge_group_tuple br.1 found_group, br.2)], residue_size)
      else (state.1 ++ [(merge_group_tuple br.1 found_group, br.2)], state.2))
    (bucket, smallest)

/-- The `for constraint, combinations in _find_all_groups_for(...).items()`
loop: each constraint's bucket and running smallest are updated
independently from `r`'s bucket for that constraint, so iterating the
dict's keys is the pointwise update below (constraints absent from the
dict have an empty bucket, for which the update is the identity). -/
def merge_recursive_results (st : GFState) (r : CResult)
    (found_group : MahjongGroup) : GFState :=
  fun c => process_combinations (st c).1 (st c).2 (r c) found_group

/-- The `for found_group, residue, respected_constraints in found_groups`
loop of `_find_group_and_recurse`.  `recurse` is
`_find_all_groups_for(·, new_sequence, new_three_same, new_pair, ·, ·, ·)`
with the decremented counts already applied; the cache is threaded through
exactly as the source mutates its shared set. -/
def fgar_loop
    (recurse : MahjongTiles → List Constraint → GFCache → MahjongGroups →
      Except GFError (CResult × GFCache))
    (new_sequence new_three_same new_pair : Nat) (previous_context : MahjongGroups) :
    List MahjongGroupAndResidue → GFState → GFCache →
      Except GFError (GFState × GFCache)
  | [], st, cache => .ok (st, cache)
  | (found_group, residue, respected_constraints) :: rest, st, cache =>
    let new_match := merge_group_tuple previous_context found_group
    if new_match ∈ cache then
      fgar_loop recurse new_sequence new_three_same new_pair previous_context
        rest st cache
    else
      let cache' := new_match :: cache
      if new_sequence = 0 ∧ new_three_same = 0 ∧ new_pair = 0 then
        fgar_loop recurse new_sequence new_three_same new_pair previous_context
          rest (append_base_case st respected_constraints ([found_group], residue))
          cache'
      else
        match recurse residue respected_constraints cache' new_match with
        | .error e => .error e
        | .ok (r, cache'') =>
          fgar_loop recurse new_sequence new_three_same new_pair previous_context
            rest (merge_recursive_results st r found_group) cache''

/-- `_find_group_and_recurse`: run the loop starting from empty buckets and
the defaultdict default smallest leftover of 14, and return
`dict(possible_combinations)` (the buckets). -/
def find_group_and_recurse
    (recurse : MahjongTiles → List Constraint → GFCache → MahjongGroups →
      Except GFError (CResult × GFCache))
    (found_groups : List MahjongGroupAndResidue)
    (new_sequence new_three_same new_pair : Nat) (cache : GFCache)
    (previous_context : MahjongGroups) : Except GFError (CResult × GFCache) :=
  match fgar_loop recurse new_sequence new_three_same new_pair previous_context
      found_groups (fun _ => ([], 14)) cache with
  | .error e => .error e
  | .ok (st, cache') => .ok (fun c => (st c).1, cache')

/-- `_find_all_groups_for`, made structurally recursive on a fuel argument;
the recursion consumes one requested group per level, so the entry points
pass `sequence + three_same + pair` as fuel and the `outOfFuel` branch is
unreachable from them. -/
def find_all_groups_for_fuel :
    Nat → MahjongTiles → Nat → Nat → Nat → List Constraint → GFCache →
      MahjongGroups → Except GFError (CResult × GFCache)
  | 0, tiles, sequence, three_same, pair, _, cache, _ =>
    if tiles.length + 1 < 3 * (sequence + three_same) + 2 * pair then
      .error .notEnoughTiles
    else if 0 < pair ∨ 0 < sequence ∨ 0 < three_same then .error .outOfFuel
    else .ok (fun _ => [], cache)
  | fuel + 1, tiles, sequence, three_same, pair, constraints, cache, previous_context =>
    if tiles.length + 1 < 3 * (sequence + three_same) + 2 * pair then
      .error .notEnoughTiles
    else if 0 < pair then
      find_group_and_recurse
        (fun ti cs ca pr =>
          find_all_groups_for_fuel fuel ti sequence three_same (pair - 1) cs ca pr)
        (find_pair tiles constraints) sequence three_same (pair - 1) cache
        previous_context
    else if 0 < sequence then
      find_group_and_recurse
        (fun ti cs ca pr =>
          find_all_groups_for_fuel fuel ti (sequence - 1) three_same pair cs ca pr)
        (find_sequences tiles constraints) (sequence - 1) three_same pair cache
        previous_context
    else if 0 < three_same then
      find_group_and_recurse
        (fun ti cs ca pr =>
          find_all_groups_for_fuel fuel ti sequence (three_same - 1) pair cs ca pr)
        (find_three_of_a_kind tiles constraints) sequence (three_same - 1) pair cache
        previous_context
    else .ok (fun _ => [], cache)

/-- `_find_all_groups_for` at its natural fuel. -/
def find_all_groups_for (tiles : MahjongTiles) (sequence three_same pair : Nat)
    (constraints : List Constraint) (cache : GFCache)
    (previous_context : MahjongGroups) : Except GFError (CResult × GFCache) :=
  find_all_groups_for_fuel (sequence + three_same + pair) tiles sequence three_same
    pair constraints cache previous_context

/-- `all_groups_for`: the unconstrained entry point.  The source indexes the
returned dict at `Constraint.NONE`; a materialised key always holds a
non-empty bucket, so the `KeyError` of a missing key corresponds exactly to
an empty `NONE` bucket of the total-function model. -/
def all_groups_for (tiles : MahjongTiles) (sequence three_same pair : Nat) :
    Except GFError (List MahjongCombination) :=
  match find_all_groups_for tiles sequence three_same pair [Constraint.NONE] [] [] with
  | .error e => .error e
  | .ok (r, _) =>
    if (r Constraint.NONE).isEmpty then .error .keyNotFound
    else .ok (r Constraint.NONE)

/-- `all_groups_for_with_constraints`: raises on an empty (or absent, i.e.
falsy `None`) constraint list before any enumeration. -/
def all_groups_for_with_constraints (tiles : MahjongTiles)
    (sequence three_same pair : Nat) (constraints : List Constraint) :
    Except GFError CResult :=
  if constraints.isEmpty then .error .invalidConstraints
  else
    match find_all_groups_for tiles sequence three_same pair constraints [] [] with
    | .error e => .error e
    | .ok (r, _) => .ok r

/-- Parse errors of `parse_tiles` (both are `AttributeError` in the source). -/
inductive ParseError where
  | unknownCharacter
  | missingFamily
deriving DecidableEq, Repr

/-- Python `char in "123456789"`. -/
def isTileDigit (c : Char) : Bool :=
  '1' ≤ c && c ≤ '9'

/-- Python `char in Family` / `Family(char)`: the family whose one-letter
value is `c`, if any. -/
def familyOfChar (c : Char) : Option Family :=
  if c = 's' then some Family.BAMBOO
  else if c = 'm' then some Family.CHARACTER
  else if c = 'p' then some Family.CIRCLE
  else if c = 'z' then some Family.HONOR
  else none

/-- The character loop of `parse_tiles` with its two accumulators
(`current_numbers`, `parsed`). -/
def parse_tiles_go (current_numbers : List Nat) (parsed : MahjongTiles) :
    List Char → Except ParseError MahjongTiles
  | [] => if current_numbers.isEmpty then .ok parsed else .error .missingFamily
  | c :: rest =>
    if isTileDigit c then parse_tiles_go (current_numbers ++ [c.toNat - 48]) parsed rest
    else
      match familyOfChar c with
      | some family =>
        parse_tiles_go []
          (parsed ++ current_numbers.map (fun num => ⟨num, family⟩)) rest
      | none => .error .unknownCharacter

/-- `parse_tiles` from `tiles_utils.py` (strings are modelled as character
lists). -/
def parse_tiles (tiles : List Char) : Except ParseError MahjongTiles :=
  parse_tiles_go [] [] tiles

/-- The single digit character of a number 1–9 (Python `f"{number}"`). -/
def numberChar (n : Nat) : Char :=
  Char.ofNat (48 + n)

/-- `MahjongTile.__str__`: the digit followed by the family letter. -/
def MahjongTile.str (t : MahjongTile) : List Char :=
  [numberChar t.number, t.family.value]

/-- `MahjongHand.__str__`: for each family in enum order, the sorted digits
followed by the family letter, skipping empty families. -/
def hand_str (hand_tiles : MahjongTiles) : List Char :=
  [Family.BAMBOO, Family.CHARACTER, Family.CIRCLE, Family.HONOR].foldl
    (fun rep family =>
      let tiles := (get_tiles_from_family hand_tiles family).map (·.number)
      if tiles.isEmpty then rep
      else rep ++ (List.insertionSort (· ≤ ·) tiles).map numberChar ++ [family.value])
    []

/-- A tile the game can contain: suited numbers 1–9, honor numbers 1–7. -/
def valid_tile (t : MahjongTile) : Bool :=
  if t.family = Family.HONOR then 1 ≤ t.number && t.number ≤ 7
  else 1 ≤ t.number && t.number ≤ 9

/-- Modelled from the spec sentence behind claim C6 (the two-tile wait
rule), read literally: the wait on the low side is the lower tile's
number − 1 in the lower tile's family, the wait on the high side is the
higher tile's number + 1 in the higher tile's family, each kept only when
the resulting number lies within 1..9; identical tiles wait on themselves;
a gap of two waits on the middle number (the claim names no family for it;
the lower tile's family is used, which is the only reading under which the
middle-number case could match the code). -/
def claimed_two_tile_waits (a b : MahjongTile) : Finset MahjongTile :=
  let lo := twoTileMin a b
  let hi := twoTileMax a b
  if a = b then {a}
  else if (hi.number : Int) - (lo.number : Int) = 1 then
    (if 1 ≤ (lo.number : Int) - 1 ∧ (lo.number : Int) - 1 ≤ 9 then
      {(⟨lo.number - 1, lo.family⟩ : MahjongTile)} else ∅) ∪
    (if 1 ≤ (hi.number : Int) + 1 ∧ (hi.number : Int) + 1 ≤ 9 then
      {(⟨hi.number + 1, hi.family⟩ : MahjongTile)} else ∅)
  else if (hi.number : Int) - (lo.number : Int) = 2 then
    {(⟨lo.number + 1, lo.family⟩ : MahjongTile)}
  else ∅

/-- The nine suit tiles of a family (`FAMILY_TILES` entries for the three
suits, i.e. `parse_tiles("123456789m")` etc.). -/
def suit_tiles (f : Family) : MahjongTiles :=
  [⟨1, f⟩, ⟨2, f⟩, ⟨3, f⟩, ⟨4, f⟩, ⟨5, f⟩, ⟨6, f⟩, ⟨7, f⟩, ⟨8, f⟩, ⟨9, f⟩]

/-- `WINDS_TILES = parse_tiles("1234z")`. -/
def WINDS_TILES : MahjongTiles :=
  [⟨1, .HONOR⟩, ⟨2, .HONOR⟩, ⟨3, .HONOR⟩, ⟨4, .HONOR⟩]

/-- `DRAGONS_TILES = parse_tiles("567z")`. -/
def DRAGONS_TILES : MahjongTiles :=
  [⟨5, .HONOR⟩, ⟨6, .HONOR⟩, ⟨7, .HONOR⟩]

/-- `HONOR_TILES = WINDS_TILES + DRAGONS_TILES`. -/
def HONOR_TILES : MahjongTiles :=
  WINDS_TILES ++ DRAGONS_TILES

/-- `FAMILY_TILES` from `tiles_utils.py`. -/
def FAMILY_TILES : Family → MahjongTiles
  | .CHARACTER => suit_tiles .CHARACTER
  | .BAMBOO => suit_tiles .BAMBOO
  | .CIRCLE => suit_tiles .CIRCLE
  | .HONOR => HONOR_TILES

/-- `_is_pair` from `tile_acceptance_calculator.py`. -/
def is_pair_group (group : MahjongGroup) : Bool :=
  group.length = 2 &&
    match group with
    | a :: b :: _ => a = b
    | _ => false

/-- `_has_empty_group`. -/
def has_empty_group (groups : MahjongGroups) : Bool :=
  groups.any (fun group => group.isEmpty)

/-- The `range(-2, 3)` neighbour loop of `_get_tile_acceptance_of_groups`:
every tile within numeric distance 2 that stays within 1..9, in the lone
tile's family. -/
def neighbour_acceptance (tile_value : Nat) (tile_family : Family) : Finset MahjongTile :=
  ([-2, -1, 0, 1, 2] : List Int).foldl
    (fun acc neighbour =>
      if 1 ≤ (tile_value : Int) + neighbour ∧ (tile_value : Int) + neighbour ≤ 9 then
        insert (⟨((tile_value : Int) + neighbour).toNat, tile_family⟩ : MahjongTile) acc
      else acc) ∅

/-- One loop iteration of `_get_tile_acceptance_of_groups`: the tiles the
given group contributes to the acceptance set. -/
def tile_acceptance_of_group (number_of_pairs : Nat) (group : MahjongGroup) :
    Finset MahjongTile :=
  if group.length = 3 then ∅
  else if group.length = 2 then
    if is_pair_group group ∧ number_of_pairs = 1 then ∅
    else find_simple_waits_for_two_tiles group
  else
    match group with
    | [] => ∅
    | tile :: _ =>
      if 0 < number_of_pairs then
        if tile.family = Family.HONOR then {tile}
        else neighbour_acceptance tile.number tile.family
      else {tile}

/-- `_get_tile_acceptance_of_groups`. -/
def get_tile_acceptance_of_groups (groups : MahjongGroups) : Finset MahjongTile :=
  let number_of_pairs := (groups.filter is_pair_group).length
  groups.foldl (fun acc group => acc ∪ tile_acceptance_of_group number_of_pairs group) ∅

/-- `_get_full_tile_acceptance` (the optional `other_acceptance` / 
`allowed_tiles` arguments default to `None`, which Python's truthiness
conflates with the empty set / empty list, so they are modelled as a
possibly-empty `Finset` and list). -/
def get_full_tile_acceptance (tiles_in_hand : MahjongTiles)
    (combinations : List MahjongCombination) (other_acceptance : Finset MahjongTile)
    (allowed_tiles : MahjongTiles) : Finset MahjongTile :=
  let acceptance : Finset MahjongTile :=
    if other_acceptance.Nonempty then other_acceptance else ∅
  let acceptance :=
    combinations.foldl
      (fun acc combination => acc ∪ get_tile_acceptance_of_groups combination.1)
      acceptance
  let hasEmpty := combinations.any (fun combination => has_empty_group combination.1)
  let acceptance :=
    if !allowed_tiles.isEmpty && hasEmpty then
      let honor_tiles := get_tiles_from_family allowed_tiles Family.HONOR
      let acceptance :=
        honor_tiles.foldl
          (fun acc tile =>
            if tile ∉ acc ∧ tiles_in_hand.count tile < 2 then insert tile acc else acc)
          acceptance
      (allowed_tiles.filter (fun tile => !(tile.family = Family.HONOR))).foldl
        (fun acc tile =>
          if tile ∉ acc ∧ tiles_in_hand.count tile < 4 then insert tile acc else acc)
        acceptance
    else acceptance
  if !allowed_tiles.isEmpty then acceptance.filter (fun tile => tile ∈ allowed_tiles)
  else acceptance

/-- `_find_example_tile`: the first tile of the first non-empty group
(`None` models the `ValueError('All groups are empty')`). -/
def find_example_tile (combination : MahjongCombination) : Option MahjongTile :=
  combination.1.findSome? (fun group => group.head?)

/-- The per-combination minimum `min(len(residue) for ...)` over a
non-empty list (the `[]` value is never used: the caller guards with
`if not combinations: continue`). -/
def min_residue_length : List MahjongCombination → Nat
  | [] => 14
  | c :: rest => rest.foldl (fun m combination => min m combination.2.length) c.2.length

/-- `_get_best_groups_from_multiple_constraints`. -/
def best_groups_from_multiple_constraints (constraints : List Constraint)
    (precomputed : CResult) : List MahjongCombination :=
  (constraints.foldl
    (fun (state : List MahjongCombination × Nat) constraint =>
      let combinations := precomputed constraint
      if combinations.isEmpty then state
      else
        let real_shanten := min_residue_length combinations
        if state.2 < real_shanten then state
        else
          let state := if real_shanten < state.2 then ([], real_shanten) else state
          (state.1 ++ combinations.filter (fun c => c.2.length = state.2), state.2))
    ([], 14)).1

/-- `ValueError('All groups are empty')` from `_find_example_tile`. -/
inductive AcceptanceError where
  | allGroupsEmpty
deriving DecidableEq, Repr

/-- `_can_construct_half_flush_from_precomputed` (the hand argument is its
tile list; the "Too far away" print only accompanies the empty result). -/
def can_construct_half_flush_from_precomputed (hand_tiles : MahjongTiles)
    (precomputed : CResult) :
    Except AcceptanceError (List MahjongCombination × Finset MahjongTile) :=
  let best_groups := best_groups_from_multiple_constraints
    [Constraint.FLUSH_CHARACTER, Constraint.FLUSH_CIRCLE, Constraint.FLUSH_BAMBOO]
    precomputed
  match best_groups with
  | [] => .ok ([], ∅)
  | first :: _ =>
    match find_example_tile first with
    | none => .error .allGroupsEmpty
    | some tile =>
      .ok (best_groups,
        get_full_tile_acceptance hand_tiles best_groups ∅
          (FAMILY_TILES tile.family ++ HONOR_TILES))

/-- `AttributeError('Misplaced or unknown character …')` from the pattern
generator. -/
inductive PatternError where
  | misplacedCharacter
deriving DecidableEq, Repr

/-- Python `str.isupper()` for the ASCII letters patterns are made of. -/
def isUpperChar (c : Char) : Bool :=
  'A' ≤ c && c ≤ 'Z'

/-- Python `str.islower()` for the ASCII letters patterns are made of. -/
def isLowerChar (c : Char) : Bool :=
  'a' ≤ c && c ≤ 'z'

/-- The wildcard dictionaries of the pattern generator, as insertion-ordered
association lists. -/
abbrev FamilyWildcards := List (Char × Family)

abbrev NumberWildcards := List (Char × Int)

/-- Dict lookup. -/
def alistLookup (m : List (Char × α)) (k : Char) : Option α :=
  (m.find? (fun p => p.1 = k)).map (·.2)

/-- Dict assignment `m[k] = v` (replaces in place or appends). -/
def alistSet (m : List (Char × α)) (k : Char) (v : α) : List (Char × α) :=
  if m.any (fun p => p.1 = k) then
    m.map (fun p => if p.1 = k then (k, v) else p)
  else m ++ [(k, v)]

/-- Python `min` over a non-empty character list (the `[]` value is dead:
callers guard non-emptiness). -/
def charListMin : List Char → Char
  | [] => ' '
  | c :: rest => rest.foldl (fun a b => if b < a then b else a) c

/-- Python `max` over a non-empty character list. -/
def charListMax : List Char → Char
  | [] => ' '
  | c :: rest => rest.foldl (fun a b => if a < b then b else a) c

/-- `str(v)` for the resolved single-digit wildcard values. -/
def intDigitChar (v : Int) : Char :=
  Char.ofNat (48 + v.toNat)

/-- The shared `for wildcard in global_wildcard_parse` replacement loop of
`_pattern_resolve_number_wildcards`: fill missing bindings at their
alphabetic offset from the minimum letter and emit each binding's digit. -/
def resolveWildcardRun (global_wildcard_parse : List Char) (min_wildcard : Char)
    (shift : Int) (start : NumberWildcards) : List Char × NumberWildcards :=
  global_wildcard_parse.foldl
    (fun (acc : List Char × NumberWildcards) wildcard =>
      let nw :=
        if alistLookup acc.2 wildcard = none then
          alistSet acc.2 wildcard
            ((wildcard.toNat : Int) - (min_wildcard.toNat : Int) + shift)
        else acc.2
      (acc.1 ++ [intDigitChar ((alistLookup nw wildcard).getD 0)], nw))
    ([], start)

/-- `_pattern_resolve_number_wildcards`, with the recursive generator call
abstracted as `recur` (in the source it is `_pattern_generator`); the list
of returned iterators is consumed in order by `yield from`, which
concatenation models. -/
def pattern_resolve_number_wildcards
    (recur : List Char → List Char → FamilyWildcards → NumberWildcards →
      Except PatternError (List (List Char)))
    (parsed rest : List Char) (family_wildcards : FamilyWildcards)
    (number_wildcards : NumberWildcards) (global_wildcard_parse : List Char)
    (character : Char) : Except PatternError (List (List Char)) :=
  let min_wildcard := charListMin global_wildcard_parse
  let max_wildcard := charListMax global_wildcard_parse
  if number_wildcards.isEmpty then
    let max_range := (max_wildcard.toNat : Int) - (min_wildcard.toNat : Int)
    let max_shift := 10 - max_range
    let shifts := (List.range (max_shift - 1).toNat).map (fun n => (n : Int) + 1)
    shifts.foldlM
      (fun acc shift =>
        let run := resolveWildcardRun global_wildcard_parse min_wildcard shift []
        match recur (parsed ++ run.1 ++ [character]) rest family_wildcards run.2 with
        | .error e => .error e
        | .ok results => .ok (acc ++ results))
      []
  else
    let step :=
      if alistLookup number_wildcards min_wildcard = none then
        let given_min := charListMin (number_wildcards.map (·.1))
        let shift := (min_wildcard.toNat : Int) - (given_min.toNat : Int) +
          (alistLookup number_wildcards given_min).getD 0
        if shift < 1 ∨ 9 < shift then none
        else some (alistSet number_wildcards min_wildcard shift, shift)
      else
        some (number_wildcards, (alistLookup number_wildcards min_wildcard).getD 0)
    match step with
    | none => .ok []
    | some (new_number_wildcards, shift) =>
      let max_wildcard_value :=
        (max_wildcard.toNat : Int) - (min_wildcard.toNat : Int) + shift
      if 9 < max_wildcard_value then .ok []
      else
        let new_number_wildcards :=
          alistSet new_number_wildcards max_wildcard max_wildcard_value
        let run := resolveWildcardRun global_wildcard_parse min_wildcard shift
          new_number_wildcards
        recur (parsed ++ run.1 ++ [character]) rest family_wildcards run.2

/-- `_pattern_resolve_family_wildcard`, with the recursive generator call
abstracted as `recur`.  The unbound branch iterates a Python set of
families; its hash order is fixed here as CHARACTER, CIRCLE, BAMBOO (the
claims do not depend on the order of yielded patterns). -/
def pattern_resolve_family_wildcard
    (recur : List Char → List Char → FamilyWildcards → NumberWildcards →
      Except PatternError (List (List Char)))
    (parsed rest : List Char) (family_wildcards : FamilyWildcards)
    (number_wildcards : NumberWildcards) (currently_parsed : List Char)
    (global_wildcard_parse : List Char) (character : Char) :
    Except PatternError (List (List Char)) :=
  match alistLookup family_wildcards character with
  | some family =>
    let effectively_parsed :=
      if currently_parsed.isEmpty then parsed
      else parsed ++ currently_parsed ++ [family.value]
    let leftover :=
      if global_wildcard_parse.isEmpty then rest
      else global_wildcard_parse ++ [family.value] ++ rest
    recur effectively_parsed leftover family_wildcards number_wildcards
  | none =>
    let available_families :=
      [Family.CHARACTER, Family.CIRCLE, Family.BAMBOO].filter
        (fun f => !(family_wildcards.map (·.2)).contains f)
    available_families.foldlM
      (fun acc family =>
        let new_family_wildcards := alistSet family_wildcards character family
        let effectively_parsed :=
          if currently_parsed.isEmpty then parsed
          else parsed ++ currently_parsed ++ [family.value]
        let leftover :=
          if global_wildcard_parse.isEmpty then rest
          else global_wildcard_parse ++ [family.value] ++ rest
        match recur effectively_parsed leftover new_family_wildcards
            number_wildcards with
        | .error e => .error e
        | .ok results => .ok (acc ++ results))
      []

/-- The character loop of `_pattern_generator`, with `currently_parsed` and
`global_wildcard_parse` as accumulators and the recursive generator call
abstracted as `recur`. -/
def pattern_generator_go
    (recur : List Char → List Char → FamilyWildcards → NumberWildcards →
      Except PatternError (List (List Char)))
    (parsed : List Char) (family_wildcards : FamilyWildcards)
    (number_wildcards : NumberWildcards) :
    List Char → List Char → List Char → Except PatternError (List (List Char))
  | currently_parsed, _, [] =>
    if (parsed ++ currently_parsed).isEmpty then .ok []
    else .ok [parsed ++ currently_parsed]
  | currently_parsed, global_wildcard_parse, character :: rest =>
    if isTileDigit character then
      pattern_generator_go recur parsed family_wildcards number_wildcards
        (currently_parsed ++ [character]) global_wildcard_parse rest
    else if (familyOfChar character).isSome then
      if global_wildcard_parse.isEmpty then
        pattern_generator_go recur parsed family_wildcards number_wildcards
          (currently_parsed ++ [character]) global_wildcard_parse rest
      else
        pattern_resolve_number_wildcards recur parsed rest family_wildcards
          number_wildcards global_wildcard_parse character
    else if isUpperChar character then
      pattern_generator_go recur parsed family_wildcards number_wildcards
        currently_parsed (global_wildcard_parse ++ [character]) rest
    else if isLowerChar character then
      pattern_resolve_family_wildcard recur parsed rest family_wildcards
        number_wildcards currently_parsed global_wildcard_parse character
    else .error .misplacedCharacter

/-- The number of wildcard characters of a string; each recursive
`_pattern_generator` call resolves at least one, so this bounds the
recursion depth and serves as structural fuel. -/
def wildcardCount (s : List Char) : Nat :=
  (s.filter (fun c =>
    isUpperChar c || (isLowerChar c && !(familyOfChar c).isSome))).length

/-- `_pattern_generator`, structurally recursive on the wildcard-count
fuel (the `outOfFuel`-like dead branch returns no results; it is
unreachable from `pattern_generator`, whose fuel dominates the depth). -/
def pattern_generator_fuel :
    Nat → List Char → List Char → FamilyWildcards → NumberWildcards →
      Except PatternError (List (List Char))
  | 0, parsed, to_parse, family_wildcards, number_wildcards =>
    pattern_generator_go
      (fun _ _ _ _ => .ok [])
      parsed family_wildcards number_wildcards [] [] to_parse
  | fuel + 1, parsed, to_parse, family_wildcards, number_wildcards =>
    pattern_generator_go
      (pattern_generator_fuel fuel)
      parsed family_wildcards number_wildcards [] [] to_parse

/-- `pattern_generator`: expand a wildcard pattern into the list of
concrete patterns the Python generator yields, in order. -/
def pattern_generator (input_pattern : List Char) :
    Except PatternError (List (List Char)) :=
  pattern_generator_fuel (wildcardCount input_pattern) "".toList input_pattern [] []

/-- Modelled from the spec (claim C1's reference point): the loop of
`_find_group_and_recurse` with the per-call memo disabled — no
`new_match in cache` skip, no cache additions; everything else is
identical to `fgar_loop`. -/
def exhaustive_fgar_loop
    (recurse : MahjongTiles → List Constraint → Except GFError CResult)
    (new_sequence new_three_same new_pair : Nat) :
    List MahjongGroupAndResidue → GFState → Except GFError GFState
  | [], st => .ok st
  | (found_group, residue, respected_constraints) :: rest, st =>
    if new_sequence = 0 ∧ new_three_same = 0 ∧ new_pair = 0 then
      exhaustive_fgar_loop recurse new_sequence new_three_same new_pair
        rest (append_base_case st respected_constraints ([found_group], residue))
    else
      match recurse residue respected_constraints with
      | .error e => .error e
      | .ok r =>
        exhaustive_fgar_loop recurse new_sequence new_three_same new_pair
          rest (merge_recursive_results st r found_group)

/-- Modelled from the spec: `_find_group_and_recurse` with the memo
disabled. -/
def exhaustive_find_group_and_recurse
    (recurse : MahjongTiles → List Constraint → Except GFError CResult)
    (found_groups : List MahjongGroupAndResidue)
    (new_sequence new_three_same new_pair : Nat) : Except GFError CResult :=
  match exhaustive_fgar_loop recurse new_sequence new_three_same new_pair
      found_groups (fun _ => ([], 14)) with
  | .error e => .error e
  | .ok st => .ok (fun c => (st c).1)

/-- Modelled from the spec: `_find_all_groups_for` with the memo disabled
(same requirement order, same size check, same filtering). -/
def exhaustive_find_all_groups_for_fuel :
    Nat → MahjongTiles → Nat → Nat → Nat → List Constraint →
      Except GFError CResult
  | 0, tiles, sequence, three_same, pair, _ =>
    if tiles.length + 1 < 3 * (sequence + three_same) + 2 * pair then
      .error .notEnoughTiles
    else if 0 < pair ∨ 0 < sequence ∨ 0 < three_same then .error .outOfFuel
    else .ok (fun _ => [])
  | fuel + 1, tiles, sequence, three_same, pair, constraints =>
    if tiles.length + 1 < 3 * (sequence + three_same) + 2 * pair then
      .error .notEnoughTiles
    else if 0 < pair then
      exhaustive_find_group_and_recurse
        (fun ti cs =>
          exhaustive_find_all_groups_for_fuel fuel ti sequence three_same (pair - 1) cs)
        (find_pair tiles constraints) sequence three_same (pair - 1)
    else if 0 < sequence then
      exhaustive_find_group_and_recurse
        (fun ti cs =>
          exhaustive_find_all_groups_for_fuel fuel ti (sequence - 1) three_same pair cs)
        (find_sequences tiles constraints) (sequence - 1) three_same pair
    else if 0 < three_same then
      exhaustive_find_group_and_recurse
        (fun ti cs =>
          exhaustive_find_all_groups_for_fuel fuel ti sequence (three_same - 1) pair cs)
        (find_three_of_a_kind tiles constraints) sequence (three_same - 1) pair
    else .ok (fun _ => [])

/-- Modelled from the spec: the exhaustive search over the same input with
the memo disabled, at its natural fuel. -/
def exhaustive_find_all_groups_for (tiles : MahjongTiles)
    (sequence three_same pair : Nat) (constraints : List Constraint) :
    Except GFError CResult :=
  exhaustive_find_all_groups_for_fuel (sequence + three_same + pair) tiles sequence
    three_same pair constraints

/-- The candidate enumeration a `_find_all_groups_for` call hands to
`_find_group_and_recurse`, in the source's dispatch order: pairs while pair
requirements remain, then sequences, then triplets, and nothing once every
requirement is consumed. -/
def gf_candidates (tiles : MahjongTiles) (stp : Nat × Nat × Nat)
    (constraints : List Constraint) : List MahjongGroupAndResidue :=
  if 0 < stp.2.2 then find_pair tiles constraints
  else if 0 < stp.1 then find_sequences tiles constraints
  else if 0 < stp.2.1 then find_three_of_a_kind tiles constraints
  else []

/-- The requirement counts `(sequence, three_same, pair)` passed to the
recursive call, in the source's dispatch order. -/
def gf_next3 (stp : Nat × Nat × Nat) : Nat × Nat × Nat :=
  if 0 < stp.2.2 then (stp.1, stp.2.1, stp.2.2 - 1)
  else if 0 < stp.1 then (stp.1 - 1, stp.2.1, stp.2.2)
  else (stp.1, stp.2.1 - 1, stp.2.2)

/-- A (partial) chain of candidate choices as the recursion makes them:
each step picks an entry of the current candidate enumeration and continues
on its residue with its narrowed constraint scope. -/
def valid_chain : MahjongTiles → Nat × Nat × Nat → List Constraint →
    List MahjongGroupAndResidue → Prop
  | _, _, _, [] => True
  | tiles, stp, scope, e :: rest =>
    e ∈ gf_candidates tiles stp scope ∧
      valid_chain e.2.1 (gf_next3 stp) e.2.2 rest

/-- The combined sorted group tuple a chain reaches from a previous
context (each step merges the chosen group as `merge_group_tuple` does). -/
def chain_state (start : MahjongGroups) (es : List MahjongGroupAndResidue) :
    MahjongGroups :=
  es.foldl (fun acc e => merge_group_tuple acc e.1) start

/-- The tiles remaining at the end of a chain. -/
def chain_res (tiles : MahjongTiles) (es : List MahjongGroupAndResidue) :
    MahjongTiles :=
  es.foldl (fun _ e => e.2.1) tiles

/-- The constraint scope at the end of a chain. -/
def chain_scope (scope : List Constraint) (es : List MahjongGroupAndResidue) :
    List Constraint :=
  es.foldl (fun _ e => e.2.2) scope

/-- The decomposition a full chain denotes: its combined sorted groups and
its final residue. -/
def chain_combo (tiles : MahjongTiles) (es : List MahjongGroupAndResidue) :
    MahjongCombination :=
  (chain_state [] es, chain_res tiles es)

/-- A full chain of a call: a valid chain consuming every requirement. -/
def full_chain (tiles : MahjongTiles) (stp : Nat × Nat × Nat)
    (scope : List Constraint) (es : List MahjongGroupAndResidue) : Prop :=
  valid_chain tiles stp scope es ∧ es.length = stp.1 + stp.2.1 + stp.2.2

/-- The insufficient-tiles check fails somewhere in the search tree of a
call (the exhaustive search visits every candidate subtree). -/
def gf_danger : Nat → MahjongTiles → Nat × Nat × Nat → List Constraint → Prop
  | 0, tiles, stp, _ =>
    tiles.length + 1 < 3 * (stp.1 + stp.2.1) + 2 * stp.2.2
  | fuel + 1, tiles, stp, scope =>
    tiles.length + 1 < 3 * (stp.1 + stp.2.1) + 2 * stp.2.2 ∨
      ∃ e ∈ gf_candidates tiles stp scope, gf_danger fuel e.2.1 (gf_next3 stp) e.2.2

/-- `gf_danger` of the call data reached at the end of a chain. -/
def chain_end_danger : Nat → MahjongTiles → Nat × Nat × Nat → List Constraint →
    List MahjongGroupAndResidue → Prop
  | fuel, tiles, stp, scope, [] => gf_danger fuel tiles stp scope
  | fuel, _, stp, _, e :: rest =>
    chain_end_danger (fuel - 1) e.2.1 (gf_next3 stp) e.2.2 rest

/-- A decomposition reachable through a state recorded in the ambient memo:
some full chain realises it and has a non-trivial prefix whose combined
state is already in the memo. -/
def cached_via (tiles : MahjongTiles) (stp : Nat × Nat × Nat)
    (scope : List Constraint) (prev : MahjongGroups) (cache : GFCache)
    (c : Constraint) (x : MahjongCombination) : Prop :=
  ∃ es₁ es₂, es₁ ≠ [] ∧ full_chain tiles stp scope (es₁ ++ es₂) ∧
    chain_state prev es₁ ∈ cache ∧ c ∈ chain_scope scope (es₁ ++ es₂) ∧
    x = chain_combo tiles (es₁ ++ es₂)

/-- A full chain's decomposition is accounted for in a bucket list:
reachable through the ambient memo, present, or (when the call still merges
filtered recursive results, `guard`) beaten by a strictly smaller leftover
or larger than the 14-tile default the running-minimum filter starts from. -/
def handled (tiles : MahjongTiles) (stp : Nat × Nat × Nat)
    (scope : List Constraint) (prev : MahjongGroups) (cache : GFCache)
    (bucket : List MahjongCombination) (guard : Prop)
    (c : Constraint) (x : MahjongCombination) : Prop :=
  cached_via tiles stp scope prev cache c x ∨ x ∈ bucket ∨
    (guard ∧ ((∃ y ∈ bucket, y.2.length < x.2.length) ∨ 14 < x.2.length))

/-- The running-minimum invariant of a merging-level loop state: every
bucket entry has the bucket's running smallest leftover, the running
smallest never exceeds the 14 default, and an empty bucket still carries
the untouched default. -/
def gf_state_inv (st : GFState) : Prop :=
  ∀ c, (∀ x ∈ (st c).1, x.2.length = (st c).2) ∧ (st c).2 ≤ 14 ∧
    ((st c).1 = [] → (st c).2 = 14)

/-- Every chain leading from this call into a state recorded in the memo
is safe: the search below that state raises no insufficient-tiles error. -/
def cache_safe (fuel : Nat) (tiles : MahjongTiles) (stp : Nat × Nat × Nat)
    (scope : List Constraint) (prev : MahjongGroups) (cache : GFCache) : Prop :=
  ∀ es, valid_chain tiles stp scope es → es ≠ [] →
    chain_state prev es ∈ cache →
    ¬ chain_end_danger fuel tiles stp scope es

/-- The running-minimum invariant of one bucket of a merging-level loop
state (see `gf_state_inv`). -/
def bucket_inv (b : List MahjongCombination) (m : Nat) : Prop :=
  (∀ x ∈ b, x.2.length = m) ∧ m ≤ 14 ∧ (b = [] → m = 14)

/-- The facts claim C1 needs about a recursive call of the memoized search:
cache growth and chain witnesses, soundness, completeness (`handled`), and
the error/insufficient-tiles correspondence under a safe memo. -/
def recurse_post (fuelc : Nat) (stpc : Nat × Nat × Nat)
    (recurse : MahjongTiles → List Constraint → GFCache → MahjongGroups →
      Except GFError (CResult × GFCache)) : Prop :=
  ∀ ti cs ca pr,
    (∀ r ca2, recurse ti cs ca pr = .ok (r, ca2) →
      ((∀ m ∈ ca, m ∈ ca2) ∧
       (∀ m ∈ ca2, m ∉ ca → ∃ es, valid_chain ti stpc cs es ∧ es ≠ [] ∧
         m = chain_state pr es) ∧
       (∀ c x, x ∈ r c → ∃ es, valid_chain ti stpc cs es ∧ es ≠ [] ∧
         es.length = stpc.1 + stpc.2.1 + stpc.2.2 ∧ c ∈ chain_scope cs es ∧
         x = chain_combo ti es) ∧
       (∀ c es, valid_chain ti stpc cs es →
         es.length = stpc.1 + stpc.2.1 + stpc.2.2 → es ≠ [] →
         c ∈ chain_scope cs es →
         handled ti stpc cs pr ca (r c) (2 ≤ stpc.1 + stpc.2.1 + stpc.2.2) c
           (chain_combo ti es)) ∧
       (cache_safe fuelc ti stpc cs pr ca →
         ∀ es, valid_chain ti stpc cs es → es ≠ [] →
           chain_state pr es ∈ ca2 → chain_state pr es ∉ ca →
           ¬ chain_end_danger fuelc ti stpc cs es))) ∧
    (cache_safe fuelc ti stpc cs pr ca →
      ((gf_danger fuelc ti stpc cs → recurse ti cs ca pr = .error .notEnoughTiles) ∧
       (∀ err, recurse ti cs ca pr = .error err →
         err = GFError.notEnoughTiles ∧ gf_danger fuelc ti stpc cs)))

/-- `recurse_post` instantiated at `find_all_groups_for_fuel` itself, for
every call data: the induction hypothesis of claim C1 over the fuel. -/
def main_post (fuel : Nat) : Prop :=
  ∀ (tiles : MahjongTiles) (stp : Nat × Nat × Nat) (scope : List Constraint)
    (K0 : GFCache) (prev : MahjongGroups),
    stp.1 + stp.2.1 + stp.2.2 ≤ fuel →
    ((∀ r K2, find_all_groups_for_fuel fuel tiles stp.1 stp.2.1 stp.2.2 scope K0 prev
        = .ok (r, K2) →
      ((∀ m ∈ K0, m ∈ K2) ∧
       (∀ m ∈ K2, m ∉ K0 → ∃ es, valid_chain tiles stp scope es ∧ es ≠ [] ∧
         m = chain_state prev es) ∧
       (∀ c x, x ∈ r c → ∃ es, valid_chain tiles stp scope es ∧ es ≠ [] ∧
         es.length = stp.1 + stp.2.1 + stp.2.2 ∧ c ∈ chain_scope scope es ∧
         x = chain_combo tiles es) ∧
       (∀ c es, valid_chain tiles stp scope es →
         es.length = stp.1 + stp.2.1 + stp.2.2 → es ≠ [] →
         c ∈ chain_scope scope es →
         handled tiles stp scope prev K0 (r c) (2 ≤ stp.1 + stp.2.1 + stp.2.2) c
           (chain_combo tiles es)) ∧
       (cache_safe fuel tiles stp scope prev K0 →
         ∀ es, valid_chain tiles stp scope es → es ≠ [] →
           chain_state prev es ∈ K2 → chain_state prev es ∉ K0 →
           ¬ chain_end_danger fuel tiles stp scope es))) ∧
     (cache_safe fuel tiles stp scope prev K0 →
      ((gf_danger fuel tiles stp scope →
        find_all_groups_for_fuel fuel tiles stp.1 stp.2.1 stp.2.2 scope K0 prev =
          .error .notEnoughTiles) ∧
       (∀ err, find_all_groups_for_fuel fuel tiles stp.1 stp.2.1 stp.2.2 scope K0 prev
          = .error err → err = GFError.notEnoughTiles ∧
            gf_danger fuel tiles stp scope))))

/-- `handled` for the exhaustive memo-disabled search: no memo, so no
reachable-through-the-memo escape. -/
def e_handled (bucket : List MahjongCombination) (guard : Prop)
    (x : MahjongCombination) : Prop :=
  x ∈ bucket ∨ (guard ∧ ((∃ y ∈ bucket, y.2.length < x.2.length) ∨ 14 < x.2.length))

/-- The facts claim C1 needs about a recursive call of the exhaustive
memo-disabled search. -/
def exh_recurse_post (fuelc : Nat) (stpc : Nat × Nat × Nat)
    (recurse : MahjongTiles → List Constraint → Except GFError CResult) : Prop :=
  ∀ ti cs,
    (∀ r, recurse ti cs = .ok r →
      ((∀ c x, x ∈ r c → ∃ es, valid_chain ti stpc cs es ∧ es ≠ [] ∧
         es.length = stpc.1 + stpc.2.1 + stpc.2.2 ∧ c ∈ chain_scope cs es ∧
         x = chain_combo ti es) ∧
       (∀ c es, valid_chain ti stpc cs es →
         es.length = stpc.1 + stpc.2.1 + stpc.2.2 → es ≠ [] →
         c ∈ chain_scope cs es →
         e_handled (r c) (2 ≤ stpc.1 + stpc.2.1 + stpc.2.2)
           (chain_combo ti es)))) ∧
    ((gf_danger fuelc ti stpc cs → recurse ti cs = .error .notEnoughTiles) ∧
     (∀ err, recurse ti cs = .error err →
       err = GFError.notEnoughTiles ∧ gf_danger fuelc ti stpc cs))

/-- `exh_recurse_post` instantiated at
`exhaustive_find_all_groups_for_fuel` itself. -/
def exh_main_post (fuel : Nat) : Prop :=
  ∀ (tiles : MahjongTiles) (stp : Nat × Nat × Nat) (scope : List Constraint),
    stp.1 + stp.2.1 + stp.2.2 ≤ fuel →
    ((∀ r, exhaustive_find_all_groups_for_fuel fuel tiles stp.1 stp.2.1 stp.2.2 scope
        = .ok r →
      ((∀ c x, x ∈ r c → ∃ es, valid_chain tiles stp scope es ∧ es ≠ [] ∧
         es.length = stp.1 + stp.2.1 + stp.2.2 ∧ c ∈ chain_scope scope es ∧
         x = chain_combo tiles es) ∧
       (∀ c es, valid_chain tiles stp scope es →
         es.length = stp.1 + stp.2.1 + stp.2.2 → es ≠ [] →
         c ∈ chain_scope scope es →
         e_handled (r c) (2 ≤ stp.1 + stp.2.1 + stp.2.2)
           (chain_combo tiles es)))) ∧
     ((gf_danger fuel tiles stp scope →
       exhaustive_find_all_groups_for_fuel fuel tiles stp.1 stp.2.1 stp.2.2 scope =
         .error .notEnoughTiles) ∧
      (∀ err, exhaustive_find_all_groups_for_fuel fuel tiles stp.1 stp.2.1 stp.2.2
          scope = .error err →
        err = GFError.notEnoughTiles ∧ gf_danger fuel tiles stp scope)))

deriving instance DecidableEq for Except

/-- The tile multiset parsed from "134679s1222z". -/
def scenario_tiles : MahjongTiles :=
  [⟨1, .BAMBOO⟩, ⟨3, .BAMBOO⟩, ⟨4, .BAMBOO⟩, ⟨6, .BAMBOO⟩, ⟨7, .BAMBOO⟩, ⟨9, .BAMBOO⟩,
   ⟨1, .HONOR⟩, ⟨2, .HONOR⟩, ⟨2, .HONOR⟩, ⟨2, .HONOR⟩]

/-- The single combination `all_groups_for` returns for "134679s1222z" with
3 requested runs: three two-tile partial runs and the four honor tiles as
leftover. -/
def scenario_result : List MahjongCombination :=
  [([[⟨1, .BAMBOO⟩, ⟨3, .BAMBOO⟩], [⟨4, .BAMBOO⟩, ⟨6, .BAMBOO⟩],
     [⟨7, .BAMBOO⟩, ⟨9, .BAMBOO⟩]],
    [⟨1, .HONOR⟩, ⟨2, .HONOR⟩, ⟨2, .HONOR⟩, ⟨2, .HONOR⟩])]

/-- The bucket `all_groups_for` returns for "123s" with 1 requested run:
the last-requirement base case appends every enumerated candidate without
any leftover filtering. -/
def single_run_bucket : List MahjongCombination :=
  [([[⟨1, .BAMBOO⟩, ⟨2, .BAMBOO⟩, ⟨3, .BAMBOO⟩]], []),
   ([[⟨1, .BAMBOO⟩, ⟨2, .BAMBOO⟩]], [⟨3, .BAMBOO⟩]),
   ([[⟨1, .BAMBOO⟩, ⟨3, .BAMBOO⟩]], [⟨2, .BAMBOO⟩]),
   ([[⟨1, .BAMBOO⟩]], [⟨2, .BAMBOO⟩, ⟨3, .BAMBOO⟩]),
   ([[⟨2, .BAMBOO⟩, ⟨3, .BAMBOO⟩]], [⟨1, .BAMBOO⟩]),
   ([[⟨2, .BAMBOO⟩]], [⟨1, .BAMBOO⟩, ⟨3, .BAMBOO⟩]),
   ([[⟨3, .BAMBOO⟩]], [⟨1, .BAMBOO⟩, ⟨2, .BAMBOO⟩])]

/-! ### Theorems -/

theorem tile_lt_self (a : MahjongTile) : MahjongTile.lt a a = false := by
  simp [MahjongTile.lt]

theorem twoTileMin_eq_or (a b : MahjongTile) : twoTileMin a b = a ∨ twoTileMin a b = b := by
  unfold twoTileMin; split <;> simp

theorem twoTileMax_eq_or (a b : MahjongTile) : twoTileMax a b = a ∨ twoTileMax a b = b := by
  unfold twoTileMax; split <;> simp

theorem valid_tile_bounds (t : MahjongTile) (h : valid_tile t = true) :
    1 ≤ t.number ∧ t.number ≤ 9 := by
  unfold valid_tile at h
  split at h <;> simp only [Bool.and_eq_true, decide_eq_true_eq] at h <;> omega

/-- C6 (counterexample): the claim read literally — the high-side exterior
neighbour belongs to the higher tile's family — fails on the two-tile group
[3-character, 4-circle]: the code computes both exterior neighbours in the
lower tile's family, yielding {2m, 5m} where the claim predicts {2m, 5p}. -/
theorem c6_counterexample :
    find_simple_waits_for_two_tiles [⟨3, .CHARACTER⟩, ⟨4, .CIRCLE⟩] ≠
      claimed_two_tile_waits ⟨3, .CHARACTER⟩ ⟨4, .CIRCLE⟩ ∧
    find_simple_waits_for_two_tiles [⟨3, .CHARACTER⟩, ⟨4, .CIRCLE⟩] =
      {⟨2, .CHARACTER⟩, ⟨5, .CHARACTER⟩} ∧
    claimed_two_tile_waits ⟨3, .CHARACTER⟩ ⟨4, .CIRCLE⟩ =
      {⟨2, .CHARACTER⟩, ⟨5, .CIRCLE⟩} := by
  refine ⟨by decide, by decide, by decide⟩

/-- C6 (amended): for every two-tile group of valid tiles, with both
exterior waits (and the middle wait) taken in the lower tile's family: the
wait set is the tile itself when the tiles are identical; the exterior
neighbour numbers, each kept only when it lies within 1..9, when the
numbers differ by 1; and the single middle number when the numbers differ
by 2.  In particular two bamboo-5 tiles wait only on bamboo-5,
[bamboo-3, bamboo-4] waits on {bamboo-2, bamboo-5}, [bamboo-3, bamboo-5]
waits only on {bamboo-4}, and [bamboo-1, bamboo-2] waits only on
{bamboo-3}. -/
theorem c6_amended_two_tile_wait_rule :
    (∀ a b : MahjongTile, a = b →
      find_simple_waits_for_two_tiles [a, b] = {a}) ∧
    (∀ a b : MahjongTile, valid_tile a = true → valid_tile b = true →
      (twoTileMax a b).number = (twoTileMin a b).number + 1 →
      find_simple_waits_for_two_tiles [a, b] =
        (if 1 ≤ (twoTileMin a b).number - 1 ∧ (twoTileMin a b).number - 1 ≤ 9 then
          {(⟨(twoTileMin a b).number - 1, (twoTileMin a b).family⟩ : MahjongTile)}
        else ∅) ∪
        (if 1 ≤ (twoTileMax a b).number + 1 ∧ (twoTileMax a b).number + 1 ≤ 9 then
          {(⟨(twoTileMax a b).number + 1, (twoTileMin a b).family⟩ : MahjongTile)}
        else ∅)) ∧
    (∀ a b : MahjongTile, valid_tile a = true → valid_tile b = true →
      (twoTileMax a b).number = (twoTileMin a b).number + 2 →
      find_simple_waits_for_two_tiles [a, b] =
        {(⟨(twoTileMin a b).number + 1, (twoTileMin a b).family⟩ : MahjongTile)}) ∧
    find_simple_waits_for_two_tiles [⟨5, .BAMBOO⟩, ⟨5, .BAMBOO⟩] = {⟨5, .BAMBOO⟩} ∧
    find_simple_waits_for_two_tiles [⟨3, .BAMBOO⟩, ⟨4, .BAMBOO⟩] =
      {⟨2, .BAMBOO⟩, ⟨5, .BAMBOO⟩} ∧
    find_simple_waits_for_two_tiles [⟨3, .BAMBOO⟩, ⟨5, .BAMBOO⟩] = {⟨4, .BAMBOO⟩} ∧
    find_simple_waits_for_two_tiles [⟨1, .BAMBOO⟩, ⟨2, .BAMBOO⟩] = {⟨3, .BAMBOO⟩} := by
  refine ⟨?_, ?_, ?_, by decide, by decide, by decide, by decide⟩
  · intro a b h
    subst h
    simp [find_simple_waits_for_two_tiles, twoTileMin, twoTileMax]
  · intro a b hva hvb hnum
    have hlo : 1 ≤ (twoTileMin a b).number ∧ (twoTileMin a b).number ≤ 9 := by
      rcases twoTileMin_eq_or a b with h | h <;> rw [h] <;>
        exact valid_tile_bounds _ (by assumption)
    have hne : ¬ twoTileMin a b = twoTileMax a b := by
      intro h
      rw [h] at hnum
      omega
    have hd1 : ((twoTileMax a b).number : Int) - ((twoTileMin a b).number : Int) = 1 := by
      omega
    have e1 : (1 ≤ (twoTileMin a b).number - 1 ∧ (twoTileMin a b).number - 1 ≤ 9) ↔
        1 < (twoTileMin a b).number := by omega
    have e2 : (1 ≤ (twoTileMax a b).number + 1 ∧ (twoTileMax a b).number + 1 ≤ 9) ↔
        (twoTileMax a b).number < 9 := by omega
    show (if twoTileMin a b = twoTileMax a b then _ else _) = _
    rw [if_neg hne, if_pos hd1]
    simp only [e1, e2]
  · intro a b hva hvb hnum
    have hne : ¬ twoTileMin a b = twoTileMax a b := by
      intro h
      rw [h] at hnum
      omega
    have hd1 : ¬ ((twoTileMax a b).number : Int) - ((twoTileMin a b).number : Int) = 1 := by
      omega
    have hd2 : ((twoTileMax a b).number : Int) - ((twoTileMin a b).number : Int) = 2 := by
      omega
    have hmid : ((twoTileMin a b).number + (twoTileMax a b).number) / 2 =
        (twoTileMin a b).number + 1 := by omega
    show (if twoTileMin a b = twoTileMax a b then _ else _) = _
    rw [if_neg hne, if_neg hd1, if_pos hd2, hmid]

theorem c6_amended_witness :
    find_simple_waits_for_two_tiles [⟨3, .BAMBOO⟩, ⟨4, .BAMBOO⟩] =
      (if 1 ≤ (twoTileMin (⟨3, .BAMBOO⟩ : MahjongTile) ⟨4, .BAMBOO⟩).number - 1 ∧
          (twoTileMin (⟨3, .BAMBOO⟩ : MahjongTile) ⟨4, .BAMBOO⟩).number - 1 ≤ 9 then
        {(⟨(twoTileMin (⟨3, .BAMBOO⟩ : MahjongTile) ⟨4, .BAMBOO⟩).number - 1,
          (twoTileMin (⟨3, .BAMBOO⟩ : MahjongTile) ⟨4, .BAMBOO⟩).family⟩ : MahjongTile)}
      else ∅) ∪
      (if 1 ≤ (twoTileMax (⟨3, .BAMBOO⟩ : MahjongTile) ⟨4, .BAMBOO⟩).number + 1 ∧
          (twoTileMax (⟨3, .BAMBOO⟩ : MahjongTile) ⟨4, .BAMBOO⟩).number + 1 ≤ 9 then
        {(⟨(twoTileMax (⟨3, .BAMBOO⟩ : MahjongTile) ⟨4, .BAMBOO⟩).number + 1,
          (twoTileMin (⟨3, .BAMBOO⟩ : MahjongTile) ⟨4, .BAMBOO⟩).family⟩ : MahjongTile)}
      else ∅) :=
  c6_amended_two_tile_wait_rule.2.1 ⟨3, .BAMBOO⟩ ⟨4, .BAMBOO⟩ (by decide) (by decide)
    (by decide)

/-- C9: calling the constrained decomposition entry point with an empty (or
absent, i.e. falsy `None`) constraint list fails immediately with the
invalid-constraint-request error, whatever the tiles and target counts —
by definition the check precedes any enumeration or recursion. -/
theorem c9_empty_constraints_error (tiles : MahjongTiles) (sequence three_same pair : Nat) :
    all_groups_for_with_constraints tiles sequence three_same pair [] =
      .error .invalidConstraints := rfl

/-- On a wildcard-free suffix the generator loop just accumulates the
characters and yields the accumulated pattern once (when non-empty). -/
theorem pattern_generator_go_literal
    (recur : List Char → List Char → FamilyWildcards → NumberWildcards →
      Except PatternError (List (List Char)))
    (family_wildcards : FamilyWildcards) (number_wildcards : NumberWildcards)
    (rest : List Char) :
    ∀ currently_parsed parsed : List Char,
      (∀ c ∈ rest, isTileDigit c = true ∨ (familyOfChar c).isSome = true) →
      pattern_generator_go recur parsed family_wildcards number_wildcards
        currently_parsed [] rest =
        if (parsed ++ currently_parsed ++ rest).isEmpty then .ok []
        else .ok [parsed ++ currently_parsed ++ rest] := by
  induction rest with
  | nil =>
    intro currently_parsed parsed _
    simp [pattern_generator_go]
  | cons c rest ih =>
    intro currently_parsed parsed h
    have hrest : ∀ x ∈ rest, isTileDigit x = true ∨ (familyOfChar x).isSome = true :=
      fun x hx => h x (List.mem_cons_of_mem _ hx)
    by_cases hd : isTileDigit c = true
    · rw [show pattern_generator_go recur parsed family_wildcards number_wildcards
          currently_parsed [] (c :: rest) =
          pattern_generator_go recur parsed family_wildcards number_wildcards
            (currently_parsed ++ [c]) [] rest by
        simp [pattern_generator_go, hd]]
      rw [ih (currently_parsed ++ [c]) parsed hrest]
      simp
    · have hf : (familyOfChar c).isSome = true := (h c (List.mem_cons_self c rest)).resolve_left hd
      rw [show pattern_generator_go recur parsed family_wildcards number_wildcards
          currently_parsed [] (c :: rest) =
          pattern_generator_go recur parsed family_wildcards number_wildcards
            (currently_parsed ++ [c]) [] rest by
        simp [pattern_generator_go, hd, hf]]
      rw [ih (currently_parsed ++ [c]) parsed hrest]
      simp

/-- C8 (counterexample): the empty pattern contains only literal digits and
family letters (vacuously), yet the generator yields no result at all
rather than exactly one result equal to the input. -/
theorem c8_counterexample :
    pattern_generator [] = .ok [] ∧
    pattern_generator [] ≠ .ok [[]] := by
  exact ⟨rfl, by decide⟩

/-- C8 (amended): for every NON-EMPTY pattern containing only literal
digits 1-9 and literal family letters, the pattern generator yields exactly
one result, equal to the input; in particular it maps "123s456p789m" to
exactly that one pattern.  (The empty literal pattern yields nothing.) -/
theorem c8_amended_literal_pattern :
    (∀ s : List Char, s ≠ [] →
      (∀ c ∈ s, isTileDigit c = true ∨ (familyOfChar c).isSome = true) →
      pattern_generator s = .ok [s]) ∧
    pattern_generator ['1', '2', '3', 's', '4', '5', '6', 'p', '7', '8', '9', 'm'] =
      .ok [['1', '2', '3', 's', '4', '5', '6', 'p', '7', '8', '9', 'm']] := by
  constructor
  · intro s hne hlit
    unfold pattern_generator
    cases hwc : wildcardCount s with
    | zero =>
      rw [pattern_generator_fuel, pattern_generator_go_literal _ _ _ s [] _ hlit]
      simp [hne]
    | succ n =>
      rw [pattern_generator_fuel, pattern_generator_go_literal _ _ _ s [] _ hlit]
      simp [hne]
  · decide

theorem c8_amended_witness :
    pattern_generator ['1', '2', 's'] = .ok [['1', '2', 's']] :=
  c8_amended_literal_pattern.1 ['1', '2', 's'] (by decide) (by decide)

/-- C4 (counterexample): decomposing the tiles parsed from "134679s1222z"
with 3 requested runs returns exactly one combination, whose groups use
only 6 of the 10 tiles with 4 tiles leftover; no returned combination uses
9 tiles leaving 1 leftover (three complete runs cannot be formed, and run
proto-groups never exceed the six bamboo tiles). -/
theorem c4_counterexample :
    parse_tiles ['1', '3', '4', '6', '7', '9', 's', '1', '2', '2', '2', 'z'] =
      .ok scenario_tiles ∧
    all_groups_for scenario_tiles 3 0 0 = .ok scenario_result ∧
    ∀ combo ∈ scenario_result,
      ¬ ((combo.1.map List.length).sum = 9 ∧ combo.2.length = 1) := by
  refine ⟨by decide, by decide, by decide⟩

/-- C4 (amended): decomposing the tile multiset parsed from "134679s1222z"
with a target of 3 runs and 0 triplets and 0 pairs returns at least one
combination whose groups collectively use 6 of the 10 input tiles, leaving
exactly 4 tiles as leftover. -/
theorem c4_amended_scenario :
    parse_tiles ['1', '3', '4', '6', '7', '9', 's', '1', '2', '2', '2', 'z'] =
      .ok scenario_tiles ∧
    all_groups_for scenario_tiles 3 0 0 = .ok scenario_result ∧
    ∃ combo ∈ scenario_result,
      (combo.1.map List.length).sum = 6 ∧ combo.2.length = 4 := by
  refine ⟨by decide, by decide, by decide⟩

/-- C2 (counterexample): for the single-requirement request of 1 run from
"123s", the returned bucket retains the complete run with empty leftover
alongside candidates with leftovers of size 1 and 2 — a retained
decomposition has a strictly larger leftover than another retained one,
and not every retained decomposition attains the minimum. -/
theorem c2_counterexample :
    all_groups_for [⟨1, .BAMBOO⟩, ⟨2, .BAMBOO⟩, ⟨3, .BAMBOO⟩] 1 0 0 =
      .ok single_run_bucket ∧
    ∃ x ∈ single_run_bucket, ∃ y ∈ single_run_bucket,
      y.2.length < x.2.length := by
  refine ⟨by decide, by decide⟩

theorem residue_count_perm (group : MahjongGroup) :
    ∀ tiles : MahjongTiles, (∀ a, group.count a ≤ tiles.count a) →
      (group ++ get_group_residue group tiles).Perm tiles := by
  induction group with
  | nil => intro tiles _; simp [get_group_residue]
  | cons x g ih =>
    intro tiles h
    have hx : x ∈ tiles := by
      have hh := h x
      rw [List.count_cons_self] at hh
      exact List.count_pos_iff.mp (by omega)
    have hstep : get_group_residue (x :: g) tiles = get_group_residue g (tiles.erase x) := rfl
    have hcount : ∀ a, g.count a ≤ (tiles.erase x).count a := by
      intro a
      have hh := h a
      rw [List.count_cons] at hh
      rw [List.count_erase]
      rcases eq_or_ne x a with rfl | hxa
      · simp at hh ⊢
        omega
      · simp [hxa] at hh ⊢
        omega
    have hmain : (g ++ get_group_residue g (tiles.erase x)).Perm (tiles.erase x) :=
      ih _ hcount
    have heq : ((x :: g) ++ get_group_residue (x :: g) tiles) =
        x :: (g ++ get_group_residue g (tiles.erase x)) := by rw [hstep]; rfl
    rw [heq]
    exact (hmain.cons x).trans (List.perm_cons_erase hx).symm

theorem count_family_number (f : Family) (c : Nat) :
    ∀ tiles : MahjongTiles,
      ((get_tiles_from_family tiles f).map (·.number)).count c =
        tiles.count ⟨c, f⟩ := by
  intro tiles
  induction tiles with
  | nil => simp [get_tiles_from_family]
  | cons t rest ih =>
    obtain ⟨tn, tf⟩ := t
    by_cases hf : tf = f
    · subst hf
      by_cases hn : tn = c
      · subst hn
        simp [get_tiles_from_family, List.count_cons] at ih ⊢
        omega
      · have hne : (⟨tn, tf⟩ : MahjongTile) ≠ ⟨c, tf⟩ := by
          simp [MahjongTile.mk.injEq, hn]
        simp [get_tiles_from_family, List.count_cons, hn, hne] at ih ⊢
        omega
    · have hne : (⟨tn, tf⟩ : MahjongTile) ≠ ⟨c, f⟩ := by
        simp [MahjongTile.mk.injEq]
        intro _ hc
        exact hf hc
      simp [get_tiles_from_family, hf, List.count_cons, hne] at ih ⊢
      omega

theorem mem_nums_mem_tiles {tiles : MahjongTiles} {f : Family} {c : Nat}
    (h : c ∈ (get_tiles_from_family tiles f).map (·.number)) :
    (⟨c, f⟩ : MahjongTile) ∈ tiles := by
  rw [← List.count_pos_iff] at h ⊢
  rw [count_family_number] at h
  exact h

theorem yield_group_mem {group : MahjongGroup} {tiles : MahjongTiles}
    {constraints : List Constraint} {x : MahjongGroupAndResidue}
    (h : x ∈ yield_group group tiles constraints) :
    x.1 = group ∧ x.2.1 = get_group_residue group tiles := by
  simp only [yield_group] at h
  split at h
  · simp at h
  · simp at h
    rw [h]
    exact ⟨rfl, rfl⟩

theorem counterKeys_subset {c : Nat} :
    ∀ (seen l : List Nat), c ∈ counterKeys seen l → c ∈ l := by
  intro seen l
  induction l generalizing seen with
  | nil => simp [counterKeys]
  | cons x xs ih =>
    intro h
    rw [counterKeys] at h
    split at h
    · exact List.mem_cons_of_mem _ (ih _ h)
    · rcases List.mem_cons.mp h with h | h
      · exact h ▸ List.mem_cons_self _ _
      · exact List.mem_cons_of_mem _ (ih _ h)

theorem count_single_le {t : MahjongTile} {tiles : MahjongTiles} (h : t ∈ tiles) :
    ∀ a, List.count a [t] ≤ tiles.count a := by
  intro a
  rcases eq_or_ne a t with rfl | hat
  · simp [List.count_cons, h]
  · simp [List.count_cons, Ne.symm hat]

theorem count_two_distinct_le {t1 t2 : MahjongTile} {tiles : MahjongTiles}
    (h1 : t1 ∈ tiles) (h2 : t2 ∈ tiles) (d : t1 ≠ t2) :
    ∀ a, List.count a [t1, t2] ≤ tiles.count a := by
  intro a
  rcases eq_or_ne a t1 with rfl | ha1
  · simp [List.count_cons, d, h1]
  · rcases eq_or_ne a t2 with rfl | ha2
    · simp [List.count_cons, Ne.symm d, h2]
    · simp [List.count_cons, Ne.symm ha1, Ne.symm ha2]

theorem count_three_distinct_le {t1 t2 t3 : MahjongTile} {tiles : MahjongTiles}
    (h1 : t1 ∈ tiles) (h2 : t2 ∈ tiles) (h3 : t3 ∈ tiles)
    (d12 : t1 ≠ t2) (d13 : t1 ≠ t3) (d23 : t2 ≠ t3) :
    ∀ a, List.count a [t1, t2, t3] ≤ tiles.count a := by
  intro a
  rcases eq_or_ne a t1 with rfl | ha1
  · simp [List.count_cons, d12, d13, h1]
  · rcases eq_or_ne a t2 with rfl | ha2
    · simp [List.count_cons, Ne.symm d12, d23, h2]
    · rcases eq_or_ne a t3 with rfl | ha3
      · simp [List.count_cons, Ne.symm d13, Ne.symm d23, h3]
      · simp [List.count_cons, Ne.symm ha1, Ne.symm ha2, Ne.symm ha3]

theorem count_replicate_le {t : MahjongTile} {tiles : MahjongTiles} {k : Nat}
    (h : k ≤ tiles.count t) :
    ∀ a, List.count a (List.replicate k t) ≤ tiles.count a := by
  intro a
  rcases eq_or_ne a t with rfl | hat
  · simpa using h
  · simp [List.count_replicate, Ne.symm hat]

theorem yield_group_sound {group : MahjongGroup} {tiles : MahjongTiles}
    {constraints : List Constraint} {x : MahjongGroupAndResidue}
    (h : x ∈ yield_group group tiles constraints)
    (hc : ∀ a, group.count a ≤ tiles.count a) :
    (x.1 ++ x.2.1).Perm tiles ∧ x.1.length = group.length := by
  obtain ⟨h1, h2⟩ := yield_group_mem h
  rw [h1, h2]
  exact ⟨residue_count_perm group tiles hc, rfl⟩

theorem tile_ne_of_number_ne {n m : Nat} {f : Family} (h : n ≠ m) :
    (⟨n, f⟩ : MahjongTile) ≠ ⟨m, f⟩ := by
  intro hh
  simp [MahjongTile.mk.injEq] at hh
  exact h hh

theorem seq_candidates_sound {f : Family} {nums : List Nat} {tiles : MahjongTiles}
    {constraints : List Constraint}
    (hmem : ∀ c ∈ nums, (⟨c, f⟩ : MahjongTile) ∈ tiles) :
    ∀ l : List Nat, (∀ c ∈ l, c ∈ nums) →
      ∀ x ∈ seq_candidates f nums tiles constraints l,
        (x.1 ++ x.2.1).Perm tiles ∧ 1 ≤ x.1.length ∧ x.1.length ≤ 3 := by
  intro l
  induction l with
  | nil => intro _ x hx; simp [seq_candidates] at hx
  | cons current rest ih =>
    intro hl x hx
    rw [seq_candidates] at hx
    split at hx
    · simp at hx
    · have hcur : (⟨current, f⟩ : MahjongTile) ∈ tiles :=
        hmem current (hl current (List.mem_cons_self _ _))
      rcases List.mem_append.mp hx with hx | hxrec
      swap
      · exact ih (fun c hc => hl c (List.mem_cons_of_mem _ hc)) x hxrec
      rcases List.mem_append.mp hx with hx | hxone
      swap
      · have hs := yield_group_sound hxone (count_single_le hcur)
        refine ⟨hs.1, ?_, ?_⟩ <;> simp [hs.2]
      rcases List.mem_append.mp hx with hx | hxskip
      swap
      · split at hxskip
        · rename_i hcond
          have h2 : (⟨current + 2, f⟩ : MahjongTile) ∈ tiles := hmem _ hcond
          have hd : (⟨current, f⟩ : MahjongTile) ≠ ⟨current + 2, f⟩ :=
            tile_ne_of_number_ne (by omega)
          have hs := yield_group_sound hxskip (count_two_distinct_le hcur h2 hd)
          refine ⟨hs.1, ?_, ?_⟩ <;> simp [hs.2]
        · cases hxskip
      rcases List.mem_append.mp hx with hxfull | hxnext
      swap
      · split at hxnext
        · rename_i hcond
          have h1 : (⟨current + 1, f⟩ : MahjongTile) ∈ tiles := hmem _ hcond
          have hd : (⟨current, f⟩ : MahjongTile) ≠ ⟨current + 1, f⟩ :=
            tile_ne_of_number_ne (by omega)
          have hs := yield_group_sound hxnext (count_two_distinct_le hcur h1 hd)
          refine ⟨hs.1, ?_, ?_⟩ <;> simp [hs.2]
        · cases hxnext
      · split at hxfull
        · rename_i hcond
          simp only [Bool.and_eq_true, decide_eq_true_eq] at hcond
          have h1 : (⟨current + 1, f⟩ : MahjongTile) ∈ tiles := hmem _ hcond.1
          have h2 : (⟨current + 2, f⟩ : MahjongTile) ∈ tiles := hmem _ hcond.2
          have d12 : (⟨current, f⟩ : MahjongTile) ≠ ⟨current + 1, f⟩ :=
            tile_ne_of_number_ne (by omega)
          have d13 : (⟨current, f⟩ : MahjongTile) ≠ ⟨current + 2, f⟩ :=
            tile_ne_of_number_ne (by omega)
          have d23 : (⟨current + 1, f⟩ : MahjongTile) ≠ ⟨current + 2, f⟩ :=
            tile_ne_of_number_ne (by omega)
          have hs := yield_group_sound hxfull
            (count_three_distinct_le hcur h1 h2 d12 d13 d23)
          refine ⟨hs.1, ?_, ?_⟩ <;> simp [hs.2]
        · cases hxfull

theorem find_sequences_sound {tiles : MahjongTiles} {constraints : List Constraint} :
    ∀ x ∈ find_sequences tiles constraints,
      (x.1 ++ x.2.1).Perm tiles ∧ 1 ≤ x.1.length ∧ x.1.length ≤ 3 := by
  intro x hx
  simp only [find_sequences, List.mem_flatMap] at hx
  obtain ⟨f, _, hx⟩ := hx
  have hmem : ∀ c ∈ List.insertionSort (· ≤ ·)
      ((get_tiles_from_family tiles f).map (·.number)),
      (⟨c, f⟩ : MahjongTile) ∈ tiles := by
    intro c hc
    exact mem_nums_mem_tiles ((List.perm_insertionSort _ _).mem_iff.mp hc)
  exact seq_candidates_sound hmem _ (fun c hc => hc) x hx

theorem find_three_of_a_kind_sound {tiles : MahjongTiles}
    {constraints : List Constraint} :
    ∀ x ∈ find_three_of_a_kind tiles constraints,
      (x.1 ++ x.2.1).Perm tiles ∧ 1 ≤ x.1.length ∧ x.1.length ≤ 3 := by
  intro x hx
  simp only [find_three_of_a_kind, List.mem_flatMap] at hx
  obtain ⟨f, _, c, hc, hx⟩ := hx
  have hcmem : (⟨c, f⟩ : MahjongTile) ∈ tiles :=
    mem_nums_mem_tiles (counterKeys_subset _ _ hc)
  have hcount : ((get_tiles_from_family tiles f).map (·.number)).count c =
      tiles.count ⟨c, f⟩ := count_family_number f c tiles
  rcases List.mem_append.mp hx with hx | hxone
  swap
  · have hs := yield_group_sound hxone (count_single_le hcmem)
    refine ⟨hs.1, ?_, ?_⟩ <;> simp [hs.2]
  rcases List.mem_append.mp hx with hxtrip | hxpair
  swap
  · split at hxpair
    · rename_i hcond
      have hk : 2 ≤ tiles.count ⟨c, f⟩ := by omega
      have hs := yield_group_sound hxpair
        (show ∀ a, List.count a [(⟨c, f⟩ : MahjongTile), ⟨c, f⟩] ≤ tiles.count a from
          count_replicate_le hk)
      refine ⟨hs.1, ?_, ?_⟩ <;> simp [hs.2]
    · cases hxpair
  · split at hxtrip
    · rename_i hcond
      have hk : 3 ≤ tiles.count ⟨c, f⟩ := by omega
      have hs := yield_group_sound hxtrip
        (show ∀ a, List.count a [(⟨c, f⟩ : MahjongTile), ⟨c, f⟩, ⟨c, f⟩] ≤ tiles.count a
          from count_replicate_le hk)
      refine ⟨hs.1, ?_, ?_⟩ <;> simp [hs.2]
    · cases hxtrip

theorem find_pair_sound {tiles : MahjongTiles} {constraints : List Constraint} :
    ∀ x ∈ find_pair tiles constraints,
      (x.1 ++ x.2.1).Perm tiles ∧ 1 ≤ x.1.length ∧ x.1.length ≤ 2 := by
  intro x hx
  simp only [find_pair, List.mem_flatMap] at hx
  obtain ⟨f, _, c, hc, hx⟩ := hx
  have hcmem : (⟨c, f⟩ : MahjongTile) ∈ tiles :=
    mem_nums_mem_tiles (counterKeys_subset _ _ hc)
  have hcount : ((get_tiles_from_family tiles f).map (·.number)).count c =
      tiles.count ⟨c, f⟩ := count_family_number f c tiles
  split at hx
  · rename_i hcond
    have hk : 2 ≤ tiles.count ⟨c, f⟩ := by omega
    have hs := yield_group_sound hx
      (show ∀ a, List.count a [(⟨c, f⟩ : MahjongTile), ⟨c, f⟩] ≤ tiles.count a from
        count_replicate_le hk)
    refine ⟨hs.1, ?_, ?_⟩ <;> simp [hs.2]
  · have hs := yield_group_sound hx (count_single_le hcmem)
    refine ⟨hs.1, ?_, ?_⟩ <;> simp [hs.2]

theorem merge_group_tuple_flatten_perm (group_tuple : MahjongGroups)
    (new_group : MahjongGroup) :
    (merge_group_tuple group_tuple new_group).flatten.Perm
      (group_tuple.flatten ++ new_group) := by
  have h1 : (merge_group_tuple group_tuple new_group).Perm (group_tuple ++ [new_group]) :=
    List.perm_insertionSort _ _
  refine h1.flatten.trans ?_
  rw [List.flatten_append]
  simp

theorem process_combinations_mem {found_group : MahjongGroup}
    {x : MahjongCombination} :
    ∀ (combinations : List MahjongCombination)
      (bucket : List MahjongCombination) (smallest : Nat),
      x ∈ (process_combinations bucket smallest combinations found_group).1 →
      x ∈ bucket ∨
        ∃ br ∈ combinations, x = (merge_group_tuple br.1 found_group, br.2) := by
  intro combinations
  induction combinations with
  | nil => intro bucket smallest hx; exact Or.inl hx
  | cons br rest ih =>
    intro bucket smallest hx
    simp only [process_combinations, List.foldl_cons] at hx
    rcases hcase : (if smallest < br.2.length then (bucket, smallest)
        else if br.2.length < smallest then
          ([(merge_group_tuple br.1 found_group, br.2)], br.2.length)
        else (bucket ++ [(merge_group_tuple br.1 found_group, br.2)], smallest))
      with ⟨bucket', smallest'⟩
    rw [hcase] at hx
    have hx' := ih bucket' smallest' (by rw [process_combinations]; exact hx)
    rcases hx' with hx' | ⟨br', hbr', hxeq⟩
    · split at hcase
      · injection hcase with e1 e2
        subst e1
        exact Or.inl hx'
      · split at hcase
        · injection hcase with e1 e2
          subst e1
          simp at hx'
          exact Or.inr ⟨br, List.mem_cons_self _ _, hx'⟩
        · injection hcase with e1 e2
          subst e1
          rcases List.mem_append.mp hx' with h | h
          · exact Or.inl h
          · simp at h
            exact Or.inr ⟨br, List.mem_cons_self _ _, h⟩
    · exact Or.inr ⟨br', List.mem_cons_of_mem _ hbr', hxeq⟩

theorem append_base_case_mem {entry : MahjongCombination} {c : Constraint}
    {x : MahjongCombination} :
    ∀ (respected_constraints : List Constraint) (st : GFState),
      x ∈ ((append_base_case st respected_constraints entry) c).1 →
      x ∈ (st c).1 ∨ x = entry := by
  intro respected_constraints
  induction respected_constraints with
  | nil => intro st hx; exact Or.inl hx
  | cons con rest ih =>
    intro st hx
    rw [append_base_case, List.foldl_cons] at hx
    have hx' := ih
      (fun c' => if c' = con then ((st c').1 ++ [entry], (st c').2) else st c')
      (by rw [append_base_case]; exact hx)
    rcases hx' with hx' | hx'
    · by_cases hc : c = con
      · simp only [hc, if_true] at hx'
        rcases List.mem_append.mp hx' with h | h
        · exact Or.inl (hc ▸ h)
        · simp at h
          exact Or.inr h
      · simp only [if_neg hc] at hx'
        exact Or.inl hx'
    · exact Or.inr hx'

theorem fgar_loop_perm
    {recurse : MahjongTiles → List Constraint → GFCache → MahjongGroups →
      Except GFError (CResult × GFCache)}
    {new_sequence new_three_same new_pair : Nat} {previous_context : MahjongGroups}
    {tiles : MahjongTiles}
    (hrec : ∀ ti cs ca pr r ca', recurse ti cs ca pr = .ok (r, ca') →
      ∀ c, ∀ combo ∈ r c, (combo.1.flatten ++ combo.2).Perm ti) :
    ∀ (found : List MahjongGroupAndResidue) (st : GFState) (cache : GFCache)
      (st' : GFState) (cache' : GFCache),
      (∀ x ∈ found, (x.1 ++ x.2.1).Perm tiles) →
      (∀ c, ∀ combo ∈ (st c).1, (combo.1.flatten ++ combo.2).Perm tiles) →
      fgar_loop recurse new_sequence new_three_same new_pair previous_context
        found st cache = .ok (st', cache') →
      ∀ c, ∀ combo ∈ (st' c).1, (combo.1.flatten ++ combo.2).Perm tiles := by
  intro found
  induction found with
  | nil =>
    intro st cache st' cache' _ hst hloop
    rw [fgar_loop] at hloop
    injection hloop with hloop
    injection hloop with h1 h2
    subst h1
    exact hst
  | cons fg rest ih =>
    obtain ⟨found_group, residue, respected_constraints⟩ := fg
    intro st cache st' cache' hfound hst hloop
    have hhead : (found_group ++ residue).Perm tiles :=
      hfound _ (List.mem_cons_self _ _)
    have hrest : ∀ x ∈ rest, (x.1 ++ x.2.1).Perm tiles :=
      fun x hx => hfound x (List.mem_cons_of_mem _ hx)
    simp only [fgar_loop] at hloop
    split at hloop
    · exact ih st cache st' cache' hrest hst hloop
    · split at hloop
      · refine ih _ _ st' cache' hrest ?_ hloop
        intro c combo hcombo
        rcases append_base_case_mem _ _ hcombo with h | h
        · exact hst c combo h
        · subst h
          simpa using hhead
      · rcases hr : recurse residue respected_constraints
            (merge_group_tuple previous_context found_group :: cache)
            (merge_group_tuple previous_context found_group) with e | ⟨r, cache2⟩
        · rw [hr] at hloop
          cases hloop
        · rw [hr] at hloop
          refine ih _ _ st' cache' hrest ?_ hloop
          intro c combo hcombo
          rcases process_combinations_mem (r c) (st c).1 (st c).2 hcombo
            with h | ⟨br, hbr, hxeq⟩
          · exact hst c combo h
          · subst hxeq
            have hbrperm : (br.1.flatten ++ br.2).Perm residue :=
              hrec _ _ _ _ _ _ hr c br hbr
            have h1 : ((merge_group_tuple br.1 found_group).flatten ++ br.2).Perm
                ((br.1.flatten ++ found_group) ++ br.2) :=
              (merge_group_tuple_flatten_perm br.1 found_group).append_right br.2
            refine h1.trans ?_
            have h2 : ((br.1.flatten ++ found_group) ++ br.2).Perm
                ((found_group ++ br.1.flatten) ++ br.2) :=
              List.perm_append_comm.append_right br.2
            refine h2.trans ?_
            rw [List.append_assoc]
            exact (hbrperm.append_left found_group).trans hhead

theorem find_all_groups_for_fuel_perm :
    ∀ (fuel : Nat) (tiles : MahjongTiles) (sequence three_same pair : Nat)
      (constraints : List Constraint) (cache : GFCache) (prev : MahjongGroups)
      (r : CResult) (cache' : GFCache),
      find_all_groups_for_fuel fuel tiles sequence three_same pair constraints
        cache prev = .ok (r, cache') →
      ∀ c, ∀ combo ∈ r c, (combo.1.flatten ++ combo.2).Perm tiles := by
  intro fuel
  induction fuel with
  | zero =>
    intro tiles s t p cs cache prev r cache' h
    rw [find_all_groups_for_fuel] at h
    split at h
    · cases h
    · split at h
      · cases h
      · injection h with h
        injection h with h1 h2
        subst h1
        intro c combo hcombo
        simp at hcombo
  | succ fuel ih =>
    intro tiles s t p cs cache prev r cache' h
    rw [find_all_groups_for_fuel] at h
    split at h
    · cases h
    · have hgr : ∀ (gen : List MahjongGroupAndResidue) ns nt np,
          (∀ x ∈ gen, (x.1 ++ x.2.1).Perm tiles) →
          find_group_and_recurse
            (fun ti cs2 ca pr => find_all_groups_for_fuel fuel ti ns nt np cs2 ca pr)
            gen ns nt np cache prev = .ok (r, cache') →
          ∀ c, ∀ combo ∈ r c, (combo.1.flatten ++ combo.2).Perm tiles := by
        intro gen ns nt np hgen hfg
        unfold find_group_and_recurse at hfg
        rcases hlp : fgar_loop
            (fun ti cs2 ca pr => find_all_groups_for_fuel fuel ti ns nt np cs2 ca pr)
            ns nt np prev gen (fun _ => ([], 14)) cache with e | ⟨stf, cachef⟩
        · rw [hlp] at hfg
          cases hfg
        · rw [hlp] at hfg
          injection hfg with hfg
          injection hfg with h1 h2
          subst h1
          intro c combo hcombo
          exact fgar_loop_perm
            (fun ti cs2 ca pr r2 ca2 hh => ih ti ns nt np cs2 ca pr r2 ca2 hh)
            gen _ cache stf cachef hgen (by intro c2 combo2 hmem2; simp at hmem2) hlp
            c combo hcombo
      split at h
      · exact hgr _ _ _ _ (fun x hx => (find_pair_sound x hx).1) h
      · split at h
        · exact hgr _ _ _ _ (fun x hx => (find_sequences_sound x hx).1) h
        · split at h
          · exact hgr _ _ _ _ (fun x hx => (find_three_of_a_kind_sound x hx).1) h
          · injection h with h
            injection h with h1 h2
            subst h1
            intro c combo hcombo
            simp at hcombo

/-- C3: every combination either decomposition entry point returns splits
the input multiset exactly: the groups' tiles together with the leftover
are a permutation of the input, and the total tile count over the groups
plus the leftover size equals the input size. -/
theorem c3_conservation :
    (∀ (tiles : MahjongTiles) (sequence three_same pair : Nat)
      (combos : List MahjongCombination),
      all_groups_for tiles sequence three_same pair = .ok combos →
      ∀ combo ∈ combos,
        (combo.1.flatten ++ combo.2).Perm tiles ∧
        (combo.1.map List.length).sum + combo.2.length = tiles.length) ∧
    (∀ (tiles : MahjongTiles) (sequence three_same pair : Nat)
      (constraints : List Constraint) (r : CResult),
      all_groups_for_with_constraints tiles sequence three_same pair constraints =
        .ok r →
      ∀ c, ∀ combo ∈ r c,
        (combo.1.flatten ++ combo.2).Perm tiles ∧
        (combo.1.map List.length).sum + combo.2.length = tiles.length) := by
  have hlen : ∀ (tiles : MahjongTiles) (combo : MahjongCombination),
      (combo.1.flatten ++ combo.2).Perm tiles →
      (combo.1.map List.length).sum + combo.2.length = tiles.length := by
    intro tiles combo hp
    have := hp.length_eq
    rw [List.length_append, List.length_flatten] at this
    exact this
  constructor
  · intro tiles s t p combos h combo hcombo
    unfold all_groups_for at h
    rcases hf : find_all_groups_for tiles s t p [Constraint.NONE] [] []
      with e | ⟨r0, cacc⟩
    · rw [hf] at h
      cases h
    · rw [hf] at h
      have h' : (if (r0 Constraint.NONE).isEmpty = true then
          (Except.error GFError.keyNotFound : Except GFError (List MahjongCombination))
        else Except.ok (r0 Constraint.NONE)) = Except.ok combos := h
      split at h'
      · cases h'
      · injection h' with h'
        subst h'
        unfold find_all_groups_for at hf
        have hp := find_all_groups_for_fuel_perm _ _ _ _ _ _ _ _ _ _ hf
          Constraint.NONE combo hcombo
        exact ⟨hp, hlen tiles combo hp⟩
  · intro tiles s t p cs r h c combo hcombo
    unfold all_groups_for_with_constraints at h
    split at h
    · cases h
    · rcases hf : find_all_groups_for tiles s t p cs [] [] with e | ⟨r0, cacc⟩
      · rw [hf] at h
        cases h
      · rw [hf] at h
        have h' : (Except.ok r0 : Except GFError CResult) = Except.ok r := h
        injection h' with h'
        subst h'
        unfold find_all_groups_for at hf
        have hp := find_all_groups_for_fuel_perm _ _ _ _ _ _ _ _ _ _ hf c combo hcombo
        exact ⟨hp, hlen tiles combo hp⟩

theorem c3_conservation_witness :
    (([[⟨1, .BAMBOO⟩, ⟨2, .BAMBOO⟩, ⟨3, .BAMBOO⟩]] : MahjongGroups).flatten ++
      ([] : MahjongTiles)).Perm
        [⟨1, .BAMBOO⟩, ⟨2, .BAMBOO⟩, ⟨3, .BAMBOO⟩] ∧
    (([[⟨1, .BAMBOO⟩, ⟨2, .BAMBOO⟩, ⟨3, .BAMBOO⟩]] : MahjongGroups).map
      List.length).sum + ([] : MahjongTiles).length =
      ([⟨1, .BAMBOO⟩, ⟨2, .BAMBOO⟩, ⟨3, .BAMBOO⟩] : MahjongTiles).length :=
  c3_conservation.1 [⟨1, .BAMBOO⟩, ⟨2, .BAMBOO⟩, ⟨3, .BAMBOO⟩] 1 0 0
    single_run_bucket (by decide)
    ([[⟨1, .BAMBOO⟩, ⟨2, .BAMBOO⟩, ⟨3, .BAMBOO⟩]], []) (by decide)

theorem fgar_loop_ok
    (recurse : MahjongTiles → List Constraint → GFCache → MahjongGroups →
      Except GFError (CResult × GFCache))
    (new_sequence new_three_same new_pair : Nat) (previous_context : MahjongGroups)
    (N : Nat)
    (hrec : ∀ ti cs2 ca pr, N ≤ ti.length + 1 →
      ∃ out, recurse ti cs2 ca pr = .ok out) :
    ∀ (found : List MahjongGroupAndResidue),
      (∀ x ∈ found, N ≤ x.2.1.length + 1) →
      ∀ (st : GFState) (cache : GFCache),
        ∃ out, fgar_loop recurse new_sequence new_three_same new_pair
          previous_context found st cache = .ok out := by
  intro found
  induction found with
  | nil => intro _ st cache; exact ⟨(st, cache), rfl⟩
  | cons fg rest ih =>
    obtain ⟨found_group, residue, respected_constraints⟩ := fg
    intro hfound st cache
    have hhead : N ≤ residue.length + 1 := hfound _ (List.mem_cons_self _ _)
    have hrest : ∀ x ∈ rest, N ≤ x.2.1.length + 1 :=
      fun x hx => hfound x (List.mem_cons_of_mem _ hx)
    simp only [fgar_loop]
    split
    · exact ih hrest st cache
    · split
    

      · exact ih hrest _ _
      · obtain ⟨⟨r, cache2⟩, hr⟩ := hrec residue respected_constraints
          (merge_group_tuple previous_context found_group :: cache)
          (merge_group_tuple previous_context found_group) hhead
        rw [hr]
        exact ih hrest _ _

theorem find_all_groups_for_fuel_ok :
    ∀ (fuel : Nat) (tiles : MahjongTiles) (sequence three_same pair : Nat)
      (constraints : List Constraint) (cache : GFCache) (prev : MahjongGroups),
      sequence + three_same + pair = fuel →
      3 * (sequence + three_same) + 2 * pair ≤ tiles.length + 1 →
      ∃ out, find_all_groups_for_fuel fuel tiles sequence three_same pair
        constraints cache prev = .ok out := by
  intro fuel
  induction fuel with
  | zero =>
    intro tiles s t p cs cache prev hsum hsize
    have hs : s = 0 := by omega
    have ht : t = 0 := by omega
    have hp : p = 0 := by omega
    subst hs; subst ht; subst hp
    rw [find_all_groups_for_fuel]
    rw [if_neg (by omega)]
    rw [if_neg (by omega)]
    exact ⟨_, rfl⟩
  | succ fuel ih =>
    intro tiles s t p cs cache prev hsum hsize
    rw [find_all_groups_for_fuel]
    rw [if_neg (by omega)]
    by_cases hp : 0 < p
    · rw [if_pos hp]
      unfold find_group_and_recurse
      have hloop := fgar_loop_ok
        (fun ti cs2 ca pr =>
          find_all_groups_for_fuel fuel ti s t (p - 1) cs2 ca pr)
        s t (p - 1) prev (3 * (s + t) + 2 * (p - 1))
        (fun ti cs2 ca pr hn => ih ti s t (p - 1) cs2 ca pr (by omega) hn)
        (find_pair tiles cs)
        (fun x hx => by
          have hs := find_pair_sound x hx
          have := hs.1.length_eq
          rw [List.length_append] at this
          omega)
        (fun _ => ([], 14)) cache
      obtain ⟨⟨stf, cachef⟩, hl⟩ := hloop
      rw [hl]
      exact ⟨_, rfl⟩
    · rw [if_neg hp]
      by_cases hseq : 0 < s
      · rw [if_pos hseq]
        unfold find_group_and_recurse
        have hloop := fgar_loop_ok
          (fun ti cs2 ca pr =>
            find_all_groups_for_fuel fuel ti (s - 1) t p cs2 ca pr)
          (s - 1) t p prev (3 * ((s - 1) + t) + 2 * p)
          (fun ti cs2 ca pr hn => ih ti (s - 1) t p cs2 ca pr (by omega) hn)
          (find_sequences tiles cs)
          (fun x hx => by
            have hs2 := find_sequences_sound x hx
            have := hs2.1.length_eq
            rw [List.length_append] at this
            omega)
          (fun _ => ([], 14)) cache
        obtain ⟨⟨stf, cachef⟩, hl⟩ := hloop
        rw [hl]
        exact ⟨_, rfl⟩
      · rw [if_neg hseq]
        by_cases htr : 0 < t
        · rw [if_pos htr]
          unfold find_group_and_recurse
          have hloop := fgar_loop_ok
            (fun ti cs2 ca pr =>
              find_all_groups_for_fuel fuel ti s (t - 1) p cs2 ca pr)
            s (t - 1) p prev (3 * (s + (t - 1)) + 2 * p)
            (fun ti cs2 ca pr hn => ih ti s (t - 1) p cs2 ca pr (by omega) hn)
            (find_three_of_a_kind tiles cs)
            (fun x hx => by
              have hs3 := find_three_of_a_kind_sound x hx
              have := hs3.1.length_eq
              rw [List.length_append] at this
              omega)
            (fun _ => ([], 14)) cache
          obtain ⟨⟨stf, cachef⟩, hl⟩ := hloop
          rw [hl]
          exact ⟨_, rfl⟩
        · rw [if_neg htr]
          exact ⟨_, rfl⟩

theorem find_all_groups_for_fuel_error_of_short
    {fuel : Nat} {tiles : MahjongTiles} {sequence three_same pair : Nat}
    {constraints : List Constraint} {cache : GFCache} {prev : MahjongGroups}
    (h : tiles.length + 1 < 3 * (sequence + three_same) + 2 * pair) :
    find_all_groups_for_fuel fuel tiles sequence three_same pair constraints
      cache prev = .error .notEnoughTiles := by
  cases fuel <;> (rw [find_all_groups_for_fuel]; rw [if_pos h])

/-- C5: a decomposition request fails with the insufficient-tiles error
exactly when the multiset holds fewer than
3*(runs+triplets) + 2*pairs − 1 tiles (one fewer tile than needed is
tolerated).  The forward direction of each equivalence also shows that a
large-enough top-level multiset never triggers the error during recursion:
when the bound holds the whole search returns a result.  In particular
requesting 4 triplets and 1 pair from the 5-tile multiset "11122z" fails
with this error. -/
theorem c5_insufficient_tiles :
    (∀ (tiles : MahjongTiles) (sequence three_same pair : Nat)
      (constraints : List Constraint) (cache : GFCache) (prev : MahjongGroups),
      find_all_groups_for tiles sequence three_same pair constraints cache prev =
          .error .notEnoughTiles ↔
        tiles.length + 1 < 3 * (sequence + three_same) + 2 * pair) ∧
    (∀ (tiles : MahjongTiles) (sequence three_same pair : Nat),
      all_groups_for tiles sequence three_same pair = .error .notEnoughTiles ↔
        tiles.length + 1 < 3 * (sequence + three_same) + 2 * pair) ∧
    (∀ (tiles : MahjongTiles) (sequence three_same pair : Nat)
      (constraints : List Constraint), constraints ≠ [] →
      (all_groups_for_with_constraints tiles sequence three_same pair constraints =
          .error .notEnoughTiles ↔
        tiles.length + 1 < 3 * (sequence + three_same) + 2 * pair)) ∧
    all_groups_for
      [⟨1, .HONOR⟩, ⟨1, .HONOR⟩, ⟨1, .HONOR⟩, ⟨2, .HONOR⟩, ⟨2, .HONOR⟩] 0 4 1 =
      .error .notEnoughTiles := by
  have hcore : ∀ (tiles : MahjongTiles) (s t p : Nat) (cs : List Constraint)
      (cache : GFCache) (prev : MahjongGroups),
      find_all_groups_for tiles s t p cs cache prev = .error .notEnoughTiles ↔
        tiles.length + 1 < 3 * (s + t) + 2 * p := by
    intro tiles s t p cs cache prev
    constructor
    · intro herr
      by_contra hnot
      obtain ⟨out, hok⟩ := find_all_groups_for_fuel_ok (s + t + p) tiles s t p cs
        cache prev rfl (by omega)
      unfold find_all_groups_for at herr
      rw [hok] at herr
      cases herr
    · intro hshort
      exact find_all_groups_for_fuel_error_of_short hshort
  refine ⟨hcore, ?_, ?_, ?_⟩
  · intro tiles s t p
    constructor
    · intro herr
      unfold all_groups_for at herr
      rcases hf : find_all_groups_for tiles s t p [Constraint.NONE] [] []
        with e | ⟨r0, cacc⟩
      · rw [hf] at herr
        have h' : (Except.error e : Except GFError (List MahjongCombination)) =
            .error .notEnoughTiles := herr
        injection h' with h'
        subst h'
        exact (hcore tiles s t p [Constraint.NONE] [] []).mp hf
      · rw [hf] at herr
        have h' : (if (r0 Constraint.NONE).isEmpty = true then
            (Except.error GFError.keyNotFound : Except GFError (List MahjongCombination))
          else Except.ok (r0 Constraint.NONE)) = .error .notEnoughTiles := herr
        split at h'
        · injection h' with h'
          cases h'
        · cases h'
    · intro hshort
      unfold all_groups_for
      rw [(hcore tiles s t p [Constraint.NONE] [] []).mpr hshort]
  · intro tiles s t p cs hcs
    constructor
    · intro herr
      unfold all_groups_for_with_constraints at herr
      rw [if_neg (by simpa using hcs)] at herr
      rcases hf : find_all_groups_for tiles s t p cs [] [] with e | ⟨r0, cacc⟩
      · rw [hf] at herr
        have h' : (Except.error e : Except GFError CResult) =
            .error .notEnoughTiles := herr
        injection h' with h'
        subst h'
        exact (hcore tiles s t p cs [] []).mp hf
      · rw [hf] at herr
        cases herr
    · intro hshort
      unfold all_groups_for_with_constraints
      rw [if_neg (by simpa using hcs)]
      rw [(hcore tiles s t p cs [] []).mpr hshort]
  · decide

theorem c5_insufficient_tiles_witness :
    all_groups_for_with_constraints
      [⟨1, .HONOR⟩, ⟨1, .HONOR⟩, ⟨1, .HONOR⟩, ⟨2, .HONOR⟩, ⟨2, .HONOR⟩] 0 4 1
      [Constraint.NONE] = .error .notEnoughTiles ↔
    ([⟨1, .HONOR⟩, ⟨1, .HONOR⟩, ⟨1, .HONOR⟩, ⟨2, .HONOR⟩, ⟨2, .HONOR⟩] :
      MahjongTiles).length + 1 < 3 * (0 + 4) + 2 * 1 :=
  c5_insufficient_tiles.2.2.1
    [⟨1, .HONOR⟩, ⟨1, .HONOR⟩, ⟨1, .HONOR⟩, ⟨2, .HONOR⟩, ⟨2, .HONOR⟩] 0 4 1
    [Constraint.NONE] (by decide)

theorem family_value_not_digit (f : Family) : isTileDigit f.value = false := by
  cases f <;> decide

theorem familyOfChar_value (f : Family) : familyOfChar f.value = some f := by
  cases f <;> decide

theorem isTileDigit_numberChar {n : Nat} (h1 : 1 ≤ n) (h9 : n ≤ 9) :
    isTileDigit (numberChar n) = true := by
  interval_cases n <;> decide

theorem numberChar_toNat {n : Nat} (h1 : 1 ≤ n) (h9 : n ≤ 9) :
    (numberChar n).toNat - 48 = n := by
  interval_cases n <;> decide

theorem parse_tiles_go_block (f : Family) :
    ∀ (nums : List Nat), (∀ n ∈ nums, 1 ≤ n ∧ n ≤ 9) →
      ∀ (cur : List Nat) (parsed : MahjongTiles) (rest : List Char),
      parse_tiles_go cur parsed (nums.map numberChar ++ (f.value :: rest)) =
        parse_tiles_go [] (parsed ++ (cur ++ nums).map (fun n => ⟨n, f⟩)) rest := by
  intro nums
  induction nums with
  | nil =>
    intro _ cur parsed rest
    rw [List.map_nil, List.nil_append, parse_tiles_go]
    rw [family_value_not_digit f]
    simp only [Bool.false_eq_true, if_false, familyOfChar_value f]
    simp
  | cons n ns ih =>
    intro hb cur parsed rest
    have hn := hb n (List.mem_cons_self _ _)
    have hns : ∀ m ∈ ns, 1 ≤ m ∧ m ≤ 9 :=
      fun m hm => hb m (List.mem_cons_of_mem _ hm)
    rw [List.map_cons, List.cons_append, parse_tiles_go]
    rw [isTileDigit_numberChar hn.1 hn.2]
    simp only [if_true]
    rw [numberChar_toNat hn.1 hn.2]
    rw [ih hns (cur ++ [n]) parsed rest]
    simp

theorem hand_str_foldl (hand : MahjongTiles) :
    ∀ (fs : List Family) (rep : List Char),
      fs.foldl (fun rep family =>
        if ((get_tiles_from_family hand family).map (·.number)).isEmpty then rep
        else rep ++ (List.insertionSort (· ≤ ·)
          ((get_tiles_from_family hand family).map (·.number))).map numberChar ++
          [family.value]) rep =
      rep ++ (fs.map (fun family =>
        if ((get_tiles_from_family hand family).map (·.number)).isEmpty then []
        else (List.insertionSort (· ≤ ·)
          ((get_tiles_from_family hand family).map (·.number))).map numberChar ++
          [family.value])).flatten := by
  intro fs
  induction fs with
  | nil => intro rep; simp
  | cons f fs ih =>
    intro rep
    simp only [List.foldl_cons, List.map_cons, List.flatten_cons]
    by_cases he : ((get_tiles_from_family hand f).map (·.number)).isEmpty
    · simp only [he, if_true]
      rw [ih rep]
      simp
    · simp only [he, Bool.false_eq_true, if_false]
      rw [ih]
      simp [List.append_assoc]

theorem parse_blocks (hand : MahjongTiles)
    (hvalid : ∀ t ∈ hand, valid_tile t = true) :
    ∀ (fs : List Family) (parsed : MahjongTiles),
      parse_tiles_go [] parsed
        ((fs.map (fun family =>
          if ((get_tiles_from_family hand family).map (·.number)).isEmpty then []
          else (List.insertionSort (· ≤ ·)
            ((get_tiles_from_family hand family).map (·.number))).map numberChar ++
            [family.value])).flatten) =
      .ok (parsed ++ (fs.map (fun family =>
        (List.insertionSort (· ≤ ·) ((get_tiles_from_family hand family).map (·.number))).map
          (fun n => (⟨n, family⟩ : MahjongTile)))).flatten) := by
  intro fs
  induction fs with
  | nil => intro parsed; simp [parse_tiles_go]
  | cons f fs ih =>
    intro parsed
    simp only [List.map_cons, List.flatten_cons]
    by_cases he : ((get_tiles_from_family hand f).map (·.number)).isEmpty
    · have hnil : (get_tiles_from_family hand f).map (·.number) = [] :=
        List.isEmpty_iff.mp he
      simp only [he, if_true]
      rw [List.nil_append, ih parsed, hnil]
      simp
    · simp only [he, Bool.false_eq_true, if_false]
      have hb : ∀ n ∈ List.insertionSort (· ≤ ·)
          ((get_tiles_from_family hand f).map (·.number)), 1 ≤ n ∧ n ≤ 9 := by
        intro n hn
        have hn' := (List.perm_insertionSort _ _).mem_iff.mp hn
        simp only [List.mem_map] at hn'
        obtain ⟨t, ht, hteq⟩ := hn'
        have htv := hvalid t (List.mem_filter.mp ht).1
        have := valid_tile_bounds t htv
        omega
      rw [List.append_assoc, List.singleton_append]
      rw [parse_tiles_go_block f _ hb [] parsed _]
      rw [ih]
      simp

theorem count_map_mk (f : Family) (m : Nat) :
    ∀ l : List Nat,
      ((l.map (fun n => (⟨n, f⟩ : MahjongTile))).count ⟨m, f⟩) = l.count m := by
  intro l
  induction l with
  | nil => simp
  | cons n ns ih =>
    rw [List.map_cons, List.count_cons, List.count_cons, ih]
    congr 1
    simp [MahjongTile.mk.injEq]

theorem count_map_mk_ne (f : Family) (a : MahjongTile) (hne : ¬ a.family = f) :
    ∀ l : List Nat, (l.map (fun n => (⟨n, f⟩ : MahjongTile))).count a = 0 := by
  intro l
  rw [List.count_eq_zero]
  intro hmem
  rw [List.mem_map] at hmem
  obtain ⟨n, _, hn⟩ := hmem
  apply hne
  rw [← hn]

theorem block_count (hand : MahjongTiles) (f : Family) (a : MahjongTile) :
    ((List.insertionSort (· ≤ ·)
      ((get_tiles_from_family hand f).map (·.number))).map
        (fun n => (⟨n, f⟩ : MahjongTile))).count a =
      if a.family = f then hand.count a else 0 := by
  by_cases hf : a.family = f
  · rw [if_pos hf]
    obtain ⟨m, fam⟩ := a
    simp only at hf
    subst hf
    rw [count_map_mk]
    rw [(List.perm_insertionSort _ _).count_eq]
    exact count_family_number fam m hand
  · rw [if_neg hf]
    exact count_map_mk_ne f a hf _

theorem hand_perm_blocks (hand : MahjongTiles) :
    (([Family.BAMBOO, Family.CHARACTER, Family.CIRCLE, Family.HONOR].map
      (fun family =>
        (List.insertionSort (· ≤ ·)
          ((get_tiles_from_family hand family).map (·.number))).map
            (fun n => (⟨n, family⟩ : MahjongTile)))).flatten).Perm hand := by
  rw [List.perm_iff_count]
  intro a
  simp only [List.map_cons, List.map_nil, List.flatten_cons, List.flatten_nil,
    List.count_append, List.append_nil]
  rw [block_count, block_count, block_count, block_count]
  cases hfa : a.family <;> simp [hfa]

/-- C7: formatting a valid tile to its compact string and re-parsing yields
exactly that tile; formatting a valid hand with the per-family compact
notation and re-parsing yields a permutation (the same multiset) of the
original hand. -/
theorem c7_roundtrip :
    (∀ t : MahjongTile, valid_tile t = true →
      parse_tiles (MahjongTile.str t) = .ok [t]) ∧
    (∀ hand : MahjongTiles, (∀ t ∈ hand, valid_tile t = true) →
      ∃ l, parse_tiles (hand_str hand) = .ok l ∧ l.Perm hand) := by
  constructor
  · intro t hv
    obtain ⟨n, f⟩ := t
    have hb := valid_tile_bounds _ hv
    have hb1 : 1 ≤ n := hb.1
    have hb2 : n ≤ 9 := hb.2
    clear hb hv
    cases f <;> · interval_cases n <;> decide
  · intro hand hvalid
    refine ⟨_, ?_, hand_perm_blocks hand⟩
    show parse_tiles (hand_str hand) = _
    have hsteq : hand_str hand =
        ([Family.BAMBOO, Family.CHARACTER, Family.CIRCLE, Family.HONOR].map
          (fun family =>
            if ((get_tiles_from_family hand family).map (·.number)).isEmpty then []
            else (List.insertionSort (· ≤ ·)
              ((get_tiles_from_family hand family).map (·.number))).map numberChar ++
              [family.value])).flatten := by
      show ([Family.BAMBOO, Family.CHARACTER, Family.CIRCLE, Family.HONOR].foldl
        (fun rep family =>
          if ((get_tiles_from_family hand family).map (·.number)).isEmpty then rep
          else rep ++ (List.insertionSort (· ≤ ·)
            ((get_tiles_from_family hand family).map (·.number))).map numberChar ++
            [family.value]) []) = _
      rw [hand_str_foldl hand _ []]
      rw [List.nil_append]
    rw [hsteq]
    unfold parse_tiles
    rw [parse_blocks hand hvalid]
    rw [List.nil_append]

theorem c7_roundtrip_witness :
    parse_tiles (MahjongTile.str ⟨5, .BAMBOO⟩) = .ok [⟨5, .BAMBOO⟩] ∧
    ∃ l, parse_tiles (hand_str [⟨2, .BAMBOO⟩, ⟨1, .BAMBOO⟩]) = .ok l ∧
      l.Perm [⟨2, .BAMBOO⟩, ⟨1, .BAMBOO⟩] :=
  ⟨c7_roundtrip.1 ⟨5, .BAMBOO⟩ (by decide),
   c7_roundtrip.2 [⟨2, .BAMBOO⟩, ⟨1, .BAMBOO⟩] (by decide)⟩

theorem get_full_tile_acceptance_subset (tiles_in_hand : MahjongTiles)
    (combinations : List MahjongCombination) (other_acceptance : Finset MahjongTile)
    (allowed_tiles : MahjongTiles) (hne : allowed_tiles ≠ []) :
    ∀ t ∈ get_full_tile_acceptance tiles_in_hand combinations other_acceptance
      allowed_tiles, t ∈ allowed_tiles := by
  intro t ht
  have hae : allowed_tiles.isEmpty = false := by
    simpa using hne
  unfold get_full_tile_acceptance at ht
  rw [hae] at ht
  simp only [Bool.not_false, if_true] at ht
  exact (Finset.mem_filter.mp ht).2

/-- C10: whatever acceptance set `_get_full_tile_acceptance` computes, a
non-empty allowed-tiles restriction is applied as a final intersection, so
the result is a subset of the allowed tiles — in particular the half-flush
archetype's acceptance set is contained in its family's tiles plus the
honor tiles. -/
theorem c10_allowed_tiles_restriction :
    (∀ (tiles_in_hand : MahjongTiles) (combinations : List MahjongCombination)
      (other_acceptance : Finset MahjongTile) (allowed_tiles : MahjongTiles),
      allowed_tiles ≠ [] →
      ∀ t ∈ get_full_tile_acceptance tiles_in_hand combinations other_acceptance
        allowed_tiles, t ∈ allowed_tiles) ∧
    (∀ (hand_tiles : MahjongTiles) (precomputed : CResult)
      (result : List MahjongCombination × Finset MahjongTile),
      can_construct_half_flush_from_precomputed hand_tiles precomputed = .ok result →
      ∃ family : Family,
        ∀ t ∈ result.2, t ∈ FAMILY_TILES family ++ HONOR_TILES) := by
  refine ⟨get_full_tile_acceptance_subset, ?_⟩
  intro hand_tiles precomputed result h
  unfold can_construct_half_flush_from_precomputed at h
  rcases hbg : best_groups_from_multiple_constraints
      [Constraint.FLUSH_CHARACTER, Constraint.FLUSH_CIRCLE, Constraint.FLUSH_BAMBOO]
      precomputed with _ | ⟨first, rest⟩
  · rw [hbg] at h
    injection h with h
    subst h
    exact ⟨Family.BAMBOO, by simp⟩
  · rw [hbg] at h
    have h' : (match find_example_tile first with
        | none => (Except.error AcceptanceError.allGroupsEmpty :
            Except AcceptanceError (List MahjongCombination × Finset MahjongTile))
        | some tile => Except.ok (first :: rest,
            get_full_tile_acceptance hand_tiles (first :: rest) ∅
              (FAMILY_TILES tile.family ++ HONOR_TILES))) = Except.ok result := h
    rcases he : find_example_tile first with _ | tile
    · rw [he] at h'
      cases h'
    · rw [he] at h'
      injection h' with h'
      subst h'
      refine ⟨tile.family, ?_⟩
      refine get_full_tile_acceptance_subset _ _ _ _ ?_
      cases tile.family <;> decide

theorem c10_allowed_tiles_restriction_witness :
    (⟨3, .BAMBOO⟩ : MahjongTile) ∈ suit_tiles Family.BAMBOO :=
  c10_allowed_tiles_restriction.1 [] [([[⟨1, .BAMBOO⟩, ⟨2, .BAMBOO⟩]], [])] ∅
    (suit_tiles Family.BAMBOO) (by decide) ⟨3, .BAMBOO⟩ (by decide)

theorem process_fold_sizes {found_group : MahjongGroup} :
    ∀ (combinations : List MahjongCombination)
      (state : List MahjongCombination × Nat),
      (∀ x ∈ state.1, x.2.length = state.2) →
      ∀ x ∈ (List.foldl
        (fun state br =>
          if state.2 < br.2.length then state
          else if br.2.length < state.2 then
            ([(merge_group_tuple br.1 found_group, br.2)], br.2.length)
          else (state.1 ++ [(merge_group_tuple br.1 found_group, br.2)], state.2))
        state combinations).1,
        x.2.length = (List.foldl
          (fun state br =>
            if state.2 < br.2.length then state
            else if br.2.length < state.2 then
              ([(merge_group_tuple br.1 found_group, br.2)], br.2.length)
            else (state.1 ++ [(merge_group_tuple br.1 found_group, br.2)], state.2))
          state combinations).2 := by
  intro combinations
  induction combinations with
  | nil => intro state h x hx; exact h x hx
  | cons br rest ih =>
    intro state h
    simp only [List.foldl_cons]
    refine ih _ ?_
    split
    · exact h
    · split
      · intro y hy
        simp at hy
        rw [hy]
      · rename_i h1 h2
        intro y hy
        rcases List.mem_append.mp hy with hy | hy
        · exact h y hy
        · simp at hy
          rw [hy]
          simp only
          omega

theorem process_combinations_sizes {found_group : MahjongGroup}
    (combinations : List MahjongCombination)
    (bucket : List MahjongCombination) (smallest : Nat)
    (hb : ∀ x ∈ bucket, x.2.length = smallest) :
    ∀ x ∈ (process_combinations bucket smallest combinations found_group).1,
      x.2.length =
        (process_combinations bucket smallest combinations found_group).2 := by
  rw [process_combinations]
  exact process_fold_sizes combinations (bucket, smallest) hb


theorem fgar_loop_sizes
    {recurse : MahjongTiles → List Constraint → GFCache → MahjongGroups →
      Except GFError (CResult × GFCache)}
    {new_sequence new_three_same new_pair : Nat} {previous_context : MahjongGroups}
    (hnz : ¬ (new_sequence = 0 ∧ new_three_same = 0 ∧ new_pair = 0)) :
    ∀ (found : List MahjongGroupAndResidue) (st : GFState) (cache : GFCache)
      (st' : GFState) (cache' : GFCache),
      (∀ c, ∀ x ∈ (st c).1, x.2.length = (st c).2) →
      fgar_loop recurse new_sequence new_three_same new_pair previous_context
        found st cache = .ok (st', cache') →
      ∀ c, ∀ x ∈ (st' c).1, x.2.length = (st' c).2 := by
  intro found
  induction found with
  | nil =>
    intro st cache st' cache' hst hloop
    rw [fgar_loop] at hloop
    injection hloop with hloop
    injection hloop with h1 h2
    subst h1
    exact hst
  | cons fg rest ih =>
    obtain ⟨found_group, residue, respected_constraints⟩ := fg
    intro st cache st' cache' hst hloop
    simp only [fgar_loop] at hloop
    split at hloop
    · exact ih st cache st' cache' hst hloop
    · rcases hr : recurse residue respected_constraints
          (merge_group_tuple previous_context found_group :: cache)
          (merge_group_tuple previous_context found_group) with e | ⟨r, cache2⟩
      · rw [hr] at hloop
        cases hloop
      · rw [hr] at hloop
        refine ih _ _ st' cache' ?_ hloop
        intro c x hx
        exact process_combinations_sizes (r c) (st c).1 (st c).2 (hst c) x hx

theorem find_all_groups_for_sizes
    (tiles : MahjongTiles) (sequence three_same pair : Nat)
    (constraints : List Constraint) (cache : GFCache) (prev : MahjongGroups)
    (r : CResult) (cache' : GFCache)
    (hsum : 2 ≤ sequence + three_same + pair)
    (h : find_all_groups_for tiles sequence three_same pair constraints cache prev =
      .ok (r, cache')) :
    ∀ c, ∀ x ∈ r c, ∀ y ∈ r c, x.2.length = y.2.length := by
  unfold find_all_groups_for at h
  rcases hfuel : sequence + three_same + pair with _ | fuel
  · omega
  · rw [hfuel] at h
    rw [find_all_groups_for_fuel] at h
    split at h
    · cases h
    · have hmain : ∀ (gen : List MahjongGroupAndResidue) ns nt np
          (recurse : MahjongTiles → List Constraint → GFCache → MahjongGroups →
            Except GFError (CResult × GFCache)),
          ¬ (ns = 0 ∧ nt = 0 ∧ np = 0) →
          find_group_and_recurse recurse gen ns nt np cache prev = .ok (r, cache') →
          ∀ c, ∀ x ∈ r c, ∀ y ∈ r c, x.2.length = y.2.length := by
        intro gen ns nt np recurse hnz hfg
        unfold find_group_and_recurse at hfg
        rcases hlp : fgar_loop recurse ns nt np prev gen (fun _ => ([], 14)) cache
          with e | ⟨stf, cachef⟩
        · rw [hlp] at hfg
          cases hfg
        · rw [hlp] at hfg
          injection hfg with hfg
          injection hfg with h1 h2
          subst h1
          intro c x hx y hy
          have hsz := fgar_loop_sizes hnz gen _ cache stf cachef
            (by intro c2 x2 hx2; simp at hx2) hlp
          rw [hsz c x hx, hsz c y hy]
      split at h
      · exact hmain _ _ _ _ _ (by omega) h
      · split at h
        · exact hmain _ _ _ _ _ (by omega) h
        · split at h
          · exact hmain _ _ _ _ _ (by omega) h
          · omega

theorem tile_lt_asymm : ∀ {a b : MahjongTile},
    MahjongTile.lt a b = true → MahjongTile.lt b a = false := by
  intro a b
  obtain ⟨na, fa⟩ := a
  obtain ⟨nb, fb⟩ := b
  cases fa <;> cases fb <;>
    simp [MahjongTile.lt, Family.value] <;> omega

theorem tile_lt_connex : ∀ {a b : MahjongTile}, a ≠ b →
    MahjongTile.lt a b = true ∨ MahjongTile.lt b a = true := by
  intro a b hne
  obtain ⟨na, fa⟩ := a
  obtain ⟨nb, fb⟩ := b
  cases fa <;> cases fb <;>
    simp [MahjongTile.lt, Family.value] <;>
    first
      | omega
      | (intro h; exact absurd (by rw [h]) hne)

theorem tile_lt_trans : ∀ {a b c : MahjongTile},
    MahjongTile.lt a b = true → MahjongTile.lt b c = true →
    MahjongTile.lt a c = true := by
  intro a b c
  obtain ⟨na, fa⟩ := a
  obtain ⟨nb, fb⟩ := b
  obtain ⟨nc, fc⟩ := c
  cases fa <;> cases fb <;> cases fc <;>
    simp [MahjongTile.lt, Family.value] <;> omega

theorem group_lt_asymm : ∀ {a b : MahjongGroup},
    MahjongGroup.lt a b = true → MahjongGroup.lt b a = false := by
  intro a
  induction a with
  | nil => intro b h; cases b <;> simp_all [MahjongGroup.lt]
  | cons x xs ih =>
    intro b h
    cases b with
    | nil => simp_all [MahjongGroup.lt]
    | cons y ys =>
      rw [MahjongGroup.lt] at h ⊢
      by_cases hxy : x = y
      · subst hxy
        rw [if_pos rfl] at h ⊢
        exact ih h
      · rw [if_neg hxy] at h
        rw [if_neg (Ne.symm hxy)]
        exact tile_lt_asymm h

theorem group_lt_connex : ∀ {a b : MahjongGroup}, a ≠ b →
    MahjongGroup.lt a b = true ∨ MahjongGroup.lt b a = true := by
  intro a
  induction a with
  | nil =>
    intro b hne
    cases b with
    | nil => exact absurd rfl hne
    | cons y ys => left; rw [MahjongGroup.lt]
  | cons x xs ih =>
    intro b hne
    cases b with
    | nil => right; rw [MahjongGroup.lt]
    | cons y ys =>
      rw [MahjongGroup.lt, MahjongGroup.lt]
      by_cases hxy : x = y
      · subst hxy
        rw [if_pos rfl, if_pos rfl]
        refine ih ?_
        intro hxs
        exact hne (by rw [hxs])
      · rw [if_neg hxy, if_neg (Ne.symm hxy)]
        exact tile_lt_connex hxy

theorem group_lt_trans : ∀ {a b c : MahjongGroup},
    MahjongGroup.lt a b = true → MahjongGroup.lt b c = true →
    MahjongGroup.lt a c = true := by
  intro a
  induction a with
  | nil =>
    intro b c hab hbc
    cases c with
    | nil =>
      cases b with
      | nil => exact hab
      | cons y ys => simp [MahjongGroup.lt] at hbc
    | cons z zs => rw [MahjongGroup.lt]
  | cons x xs ih =>
    intro b c hab hbc
    cases b with
    | nil => simp [MahjongGroup.lt] at hab
    | cons y ys =>
      cases c with
      | nil => simp [MahjongGroup.lt] at hbc
      | cons z zs =>
        rw [MahjongGroup.lt] at hab hbc ⊢
        by_cases hxy : x = y
        · subst hxy
          rw [if_pos rfl] at hab
          by_cases hyz : x = z
          · subst hyz
            rw [if_pos rfl] at hbc ⊢
            exact ih hab hbc
          · rw [if_neg hyz] at hbc ⊢
            exact hbc
        · rw [if_neg hxy] at hab
          by_cases hyz : y = z
          · subst hyz
            rw [if_neg hxy]
            exact hab
          · rw [if_neg hyz] at hbc
            by_cases hxz : x = z
            · subst hxz
              have h1 := tile_lt_asymm hbc
              rw [h1] at hab
              simp at hab
            · rw [if_neg hxz]
              exact tile_lt_trans hab hbc

instance : IsTotal MahjongGroup (fun a b => MahjongGroup.lt b a = false) := by
  constructor
  intro a b
  cases h : MahjongGroup.lt b a
  · left; rfl
  · right; exact group_lt_asymm h

instance : IsTrans MahjongGroup (fun a b => MahjongGroup.lt b a = false) := by
  constructor
  intro a b c hab hbc
  simp only at hab hbc ⊢
  cases hca : MahjongGroup.lt c a
  · rfl
  · exfalso
    by_cases hbc2 : b = c
    · subst hbc2
      rw [hab] at hca
      simp at hca
    · rcases group_lt_connex hbc2 with h | h
      · have h2 := group_lt_trans h hca
        rw [hab] at h2
        simp at h2
      · rw [hbc] at h
        simp at h

instance : IsAntisymm MahjongGroup (fun a b => MahjongGroup.lt b a = false) := by
  constructor
  intro a b hab hba
  simp only at hab hba
  by_contra hne
  rcases group_lt_connex hne with h | h
  · rw [hba] at h; simp at h
  · rw [hab] at h; simp at h

theorem merge_group_tuple_perm (gt : MahjongGroups) (g : MahjongGroup) :
    List.Perm (merge_group_tuple gt g) (gt ++ [g]) := by
  rw [merge_group_tuple]
  exact List.perm_insertionSort _ _

theorem merge_group_tuple_length (gt : MahjongGroups) (g : MahjongGroup) :
    (merge_group_tuple gt g).length = gt.length + 1 := by
  rw [(merge_group_tuple_perm gt g).length_eq]
  simp

theorem merge_group_tuple_sorted (gt : MahjongGroups) (g : MahjongGroup) :
    List.Sorted (fun a b => MahjongGroup.lt b a = false) (merge_group_tuple gt g) := by
  rw [merge_group_tuple]
  exact List.sorted_insertionSort _ _

theorem merge_group_tuple_inj {gt : MahjongGroups} {g₁ g₂ : MahjongGroup}
    (h : merge_group_tuple gt g₁ = merge_group_tuple gt g₂) : g₁ = g₂ := by
  have hp : List.Perm (gt ++ [g₁]) (gt ++ [g₂]) :=
    ((merge_group_tuple_perm gt g₁).symm.trans (h ▸ merge_group_tuple_perm gt g₂))
  have := (List.perm_append_left_iff gt).mp hp
  simpa using List.perm_singleton.mp this

theorem chain_state_cons (S : MahjongGroups) (e : MahjongGroupAndResidue)
    (es : List MahjongGroupAndResidue) :
    chain_state S (e :: es) = chain_state (merge_group_tuple S e.1) es := rfl

theorem chain_state_append (S : MahjongGroups) (es₁ es₂ : List MahjongGroupAndResidue) :
    chain_state S (es₁ ++ es₂) = chain_state (chain_state S es₁) es₂ := by
  unfold chain_state
  exact List.foldl_append _ _ _ _

theorem chain_state_perm (es : List MahjongGroupAndResidue) :
    ∀ S : MahjongGroups, List.Perm (chain_state S es) (S ++ es.map (·.1)) := by
  induction es with
  | nil => intro S; simp [chain_state]
  | cons e rest ih =>
    intro S
    rw [chain_state_cons]
    refine (ih _).trans ?_
    have h1 : List.Perm (merge_group_tuple S e.1 ++ rest.map (·.1))
        ((S ++ [e.1]) ++ rest.map (·.1)) :=
      (merge_group_tuple_perm S e.1).append_right _
    refine h1.trans ?_
    simp

theorem chain_state_length (es : List MahjongGroupAndResidue) (S : MahjongGroups) :
    (chain_state S es).length = S.length + es.length := by
  rw [(chain_state_perm es S).length_eq]
  simp

theorem chain_state_sorted : ∀ (es : List MahjongGroupAndResidue), es ≠ [] →
    ∀ S : MahjongGroups,
      List.Sorted (fun a b => MahjongGroup.lt b a = false) (chain_state S es)
  | [e], _, S => merge_group_tuple_sorted S e.1
  | e :: e2 :: rest, _, S =>
    chain_state_sorted (e2 :: rest) (by simp) (merge_group_tuple S e.1)

theorem chain_state_eq_of_perm {es₁ es₂ : List MahjongGroupAndResidue}
    (h₁ : es₁ ≠ []) (h₂ : es₂ ≠ [])
    (hp : List.Perm (es₁.map (·.1)) (es₂.map (·.1))) (S : MahjongGroups) :
    chain_state S es₁ = chain_state S es₂ := by
  refine List.eq_of_perm_of_sorted ?_ (chain_state_sorted es₁ h₁ S)
    (chain_state_sorted es₂ h₂ S)
  refine (chain_state_perm es₁ S).trans (.trans ?_ (chain_state_perm es₂ S).symm)
  exact hp.append_left S

theorem yield_group_entry {g : MahjongGroup} {tiles : MahjongTiles}
    {cs : List Constraint} {e : MahjongGroupAndResidue}
    (h : e ∈ yield_group g tiles cs) :
    e = (g, get_group_residue g tiles, get_respected_constraints g cs) ∧
      get_respected_constraints g cs ≠ [] := by
  simp only [yield_group] at h
  split at h
  · simp at h
  · rename_i hne
    simp at h
    exact ⟨h, by simpa using hne⟩

theorem find_pair_entry {tiles : MahjongTiles} {cs : List Constraint}
    {e : MahjongGroupAndResidue} (h : e ∈ find_pair tiles cs) :
    e = (e.1, get_group_residue e.1 tiles, get_respected_constraints e.1 cs) ∧
      get_respected_constraints e.1 cs ≠ [] := by
  rw [find_pair] at h
  rcases List.mem_flatMap.mp h with ⟨family, _, h2⟩
  rcases List.mem_flatMap.mp h2 with ⟨current, _, h3⟩
  simp only [] at h3
  split at h3 <;>
  · rcases yield_group_entry h3 with ⟨he, hne⟩
    subst he
    exact ⟨rfl, hne⟩

theorem find_three_of_a_kind_entry {tiles : MahjongTiles} {cs : List Constraint}
    {e : MahjongGroupAndResidue} (h : e ∈ find_three_of_a_kind tiles cs) :
    e = (e.1, get_group_residue e.1 tiles, get_respected_constraints e.1 cs) ∧
      get_respected_constraints e.1 cs ≠ [] := by
  rw [find_three_of_a_kind] at h
  rcases List.mem_flatMap.mp h with ⟨family, _, h2⟩
  rcases List.mem_flatMap.mp h2 with ⟨current, _, h3⟩
  simp only [] at h3
  rcases List.mem_append.mp h3 with h4 | h4
  · rcases List.mem_append.mp h4 with h5 | h5
    · split at h5
      · rcases yield_group_entry h5 with ⟨he, hne⟩
        subst he
        exact ⟨rfl, hne⟩
      · simp at h5
    · split at h5
      · rcases yield_group_entry h5 with ⟨he, hne⟩
        subst he
        exact ⟨rfl, hne⟩
      · simp at h5
  · rcases yield_group_entry h4 with ⟨he, hne⟩
    subst he
    exact ⟨rfl, hne⟩

theorem seq_candidates_entry {family : Family} {nums : List Nat}
    {tiles : MahjongTiles} {cs : List Constraint} :
    ∀ {l : List Nat} {e : MahjongGroupAndResidue},
      e ∈ seq_candidates family nums tiles cs l →
      e = (e.1, get_group_residue e.1 tiles, get_respected_constraints e.1 cs) ∧
        get_respected_constraints e.1 cs ≠ [] := by
  intro l
  induction l with
  | nil => intro e h; simp [seq_candidates] at h
  | cons current rest ih =>
    intro e h
    rw [seq_candidates] at h
    split at h
    · simp at h
    · rcases List.mem_append.mp h with h4 | h4
      · rcases List.mem_append.mp h4 with h5 | h5
        · rcases List.mem_append.mp h5 with h6 | h6
          · rcases List.mem_append.mp h6 with h7 | h7
            · split at h7
              · rcases yield_group_entry h7 with ⟨he, hne⟩
                subst he
                exact ⟨rfl, hne⟩
              · simp at h7
            · split at h7
              · rcases yield_group_entry h7 with ⟨he, hne⟩
                subst he
                exact ⟨rfl, hne⟩
              · simp at h7
          · split at h6
            · rcases yield_group_entry h6 with ⟨he, hne⟩
              subst he
              exact ⟨rfl, hne⟩
            · simp at h6
        · rcases yield_group_entry h5 with ⟨he, hne⟩
          subst he
          exact ⟨rfl, hne⟩
      · exact ih h4

theorem find_sequences_entry {tiles : MahjongTiles} {cs : List Constraint}
    {e : MahjongGroupAndResidue} (h : e ∈ find_sequences tiles cs) :
    e = (e.1, get_group_residue e.1 tiles, get_respected_constraints e.1 cs) ∧
      get_respected_constraints e.1 cs ≠ [] := by
  rw [find_sequences] at h
  rcases List.mem_flatMap.mp h with ⟨family, _, h2⟩
  exact seq_candidates_entry h2

theorem gf_candidates_entry {tiles : MahjongTiles} {stp : Nat × Nat × Nat}
    {scope : List Constraint} {e : MahjongGroupAndResidue}
    (h : e ∈ gf_candidates tiles stp scope) :
    e = (e.1, get_group_residue e.1 tiles, get_respected_constraints e.1 scope) ∧
      get_respected_constraints e.1 scope ≠ [] := by
  rw [gf_candidates] at h
  split at h
  · exact find_pair_entry h
  · split at h
    · exact find_sequences_entry h
    · split at h
      · exact find_three_of_a_kind_entry h
      · simp at h

theorem chain_res_cons (tiles : MahjongTiles) (e : MahjongGroupAndResidue)
    (es : List MahjongGroupAndResidue) :
    chain_res tiles (e :: es) = chain_res e.2.1 es := rfl

theorem chain_res_append (tiles : MahjongTiles)
    (es₁ es₂ : List MahjongGroupAndResidue) :
    chain_res tiles (es₁ ++ es₂) = chain_res (chain_res tiles es₁) es₂ := by
  unfold chain_res
  exact List.foldl_append _ _ _ _

theorem chain_scope_cons (scope : List Constraint) (e : MahjongGroupAndResidue)
    (es : List MahjongGroupAndResidue) :
    chain_scope scope (e :: es) = chain_scope e.2.2 es := rfl

theorem chain_scope_append (scope : List Constraint)
    (es₁ es₂ : List MahjongGroupAndResidue) :
    chain_scope scope (es₁ ++ es₂) = chain_scope (chain_scope scope es₁) es₂ := by
  unfold chain_scope
  exact List.foldl_append _ _ _ _

theorem valid_chain_cons {tiles : MahjongTiles} {stp : Nat × Nat × Nat}
    {scope : List Constraint} {e : MahjongGroupAndResidue}
    {es : List MahjongGroupAndResidue} :
    valid_chain tiles stp scope (e :: es) ↔
      e ∈ gf_candidates tiles stp scope ∧
        valid_chain e.2.1 (gf_next3 stp) e.2.2 es := Iff.rfl

theorem foldl_erase_perm {l₁ l₂ : List MahjongTile} (hp : List.Perm l₁ l₂) :
    ∀ t : MahjongTiles, List.foldl (fun acc x => acc.erase x) t l₁ =
      List.foldl (fun acc x => acc.erase x) t l₂ := by
  induction hp with
  | nil => intro t; rfl
  | cons x _ ih => intro t; simp only [List.foldl_cons]; exact ih _
  | swap x y l => intro t; simp only [List.foldl_cons]; rw [List.erase_comm]
  | trans _ _ ih1 ih2 => intro t; rw [ih1, ih2]

theorem chain_res_eq_removal : ∀ {es : List MahjongGroupAndResidue}
    {tiles : MahjongTiles} {stp : Nat × Nat × Nat} {scope : List Constraint},
    valid_chain tiles stp scope es →
    chain_res tiles es =
      List.foldl (fun acc x => acc.erase x) tiles (es.map (·.1)).flatten := by
  intro es
  induction es with
  | nil => intro tiles stp scope _; rfl
  | cons e rest ih =>
    intro tiles stp scope hv
    rcases valid_chain_cons.mp hv with ⟨hmem, hrest⟩
    rcases gf_candidates_entry hmem with ⟨he, _⟩
    rw [chain_res_cons, ih hrest]
    have hres : e.2.1 = get_group_residue e.1 tiles := by
      rw [he]
    rw [hres]
    simp only [List.map_cons, List.flatten_cons, List.foldl_append]
    rfl

theorem chain_res_determined {es₁ es₂ : List MahjongGroupAndResidue}
    {tiles : MahjongTiles} {stp : Nat × Nat × Nat} {scope : List Constraint}
    (h₁ : valid_chain tiles stp scope es₁) (h₂ : valid_chain tiles stp scope es₂)
    (hp : List.Perm (es₁.map (·.1)) (es₂.map (·.1))) :
    chain_res tiles es₁ = chain_res tiles es₂ := by
  rw [chain_res_eq_removal h₁, chain_res_eq_removal h₂,
    foldl_erase_perm hp.flatten]

theorem chain_scope_eq_filter : ∀ {es : List MahjongGroupAndResidue}
    {tiles : MahjongTiles} {stp : Nat × Nat × Nat} {scope : List Constraint},
    valid_chain tiles stp scope es →
    chain_scope scope es =
      scope.filter (fun c => (es.map (·.1)).all (fun g => !violates c g)) := by
  intro es
  induction es with
  | nil =>
    intro tiles stp scope _
    simp [chain_scope]
  | cons e rest ih =>
    intro tiles stp scope hv
    rcases valid_chain_cons.mp hv with ⟨hmem, hrest⟩
    rcases gf_candidates_entry hmem with ⟨he, _⟩
    rw [chain_scope_cons, ih hrest]
    have hsc : e.2.2 = get_respected_constraints e.1 scope := by
      rw [he]
    rw [hsc, get_respected_constraints, List.filter_filter]
    simp only [List.map_cons, List.all_cons]
    refine List.filter_congr fun c _ => ?_
    exact Bool.and_comm _ _

theorem chain_scope_determined {es₁ es₂ : List MahjongGroupAndResidue}
    {tiles : MahjongTiles} {stp : Nat × Nat × Nat} {scope : List Constraint}
    (h₁ : valid_chain tiles stp scope es₁) (h₂ : valid_chain tiles stp scope es₂)
    (hp : List.Perm (es₁.map (·.1)) (es₂.map (·.1))) :
    chain_scope scope es₁ = chain_scope scope es₂ := by
  rw [chain_scope_eq_filter h₁, chain_scope_eq_filter h₂]
  refine List.filter_congr ?_
  intro c _
  rw [Bool.eq_iff_iff]
  simp only [List.all_eq_true]
  constructor
  · intro hall g hg
    exact hall g (hp.mem_iff.mpr hg)
  · intro hall g hg
    exact hall g (hp.mem_iff.mp hg)

theorem gf_next3_total {stp : Nat × Nat × Nat} (h : 0 < stp.1 + stp.2.1 + stp.2.2) :
    (gf_next3 stp).1 + (gf_next3 stp).2.1 + (gf_next3 stp).2.2 + 1 =
      stp.1 + stp.2.1 + stp.2.2 := by
  obtain ⟨s, t, p⟩ := stp
  simp only [gf_next3]
  split
  · simp; omega
  · split
    · simp; omega
    · simp at h ⊢
      omega

theorem gf_candidates_zero {tiles : MahjongTiles} {scope : List Constraint} :
    gf_candidates tiles (0, 0, 0) scope = [] := rfl

theorem valid_chain_total_pos {tiles : MahjongTiles} {stp : Nat × Nat × Nat}
    {scope : List Constraint} {e : MahjongGroupAndResidue}
    {es : List MahjongGroupAndResidue}
    (hv : valid_chain tiles stp scope (e :: es)) : 0 < stp.1 + stp.2.1 + stp.2.2 := by
  rcases valid_chain_cons.mp hv with ⟨hmem, _⟩
  by_contra hz
  obtain ⟨s, t, p⟩ := stp
  simp only at hz
  have hs : s = 0 := by omega
  have ht : t = 0 := by omega
  have hp2 : p = 0 := by omega
  subst hs
  subst ht
  subst hp2
  simp [gf_candidates] at hmem

theorem valid_chain_length_le : ∀ {es : List MahjongGroupAndResidue}
    {tiles : MahjongTiles} {stp : Nat × Nat × Nat} {scope : List Constraint},
    valid_chain tiles stp scope es → es.length ≤ stp.1 + stp.2.1 + stp.2.2 := by
  intro es
  induction es with
  | nil => intro _ _ _ _; simp
  | cons e rest ih =>
    intro tiles stp scope hv
    have hpos := valid_chain_total_pos hv
    rcases valid_chain_cons.mp hv with ⟨_, hrest⟩
    have h1 := ih hrest
    have h2 := gf_next3_total hpos
    simp only [List.length_cons]
    omega

theorem valid_chain_append : ∀ {es₁ es₂ : List MahjongGroupAndResidue}
    {tiles : MahjongTiles} {stp : Nat × Nat × Nat} {scope : List Constraint},
    valid_chain tiles stp scope (es₁ ++ es₂) ↔
      (valid_chain tiles stp scope es₁ ∧
        valid_chain (chain_res tiles es₁) (gf_next3^[es₁.length] stp)
          (chain_scope scope es₁) es₂) := by
  intro es₁
  induction es₁ with
  | nil =>
    intro es₂ tiles stp scope
    simp only [List.nil_append, List.length_nil, Function.iterate_zero, id]
    have h1 : valid_chain tiles stp scope [] := trivial
    have h2 : chain_res tiles [] = tiles := rfl
    have h3 : chain_scope scope [] = scope := rfl
    rw [h2, h3]
    exact (and_iff_right h1).symm
  | cons e rest ih =>
    intro es₂ tiles stp scope
    simp only [List.cons_append, valid_chain_cons, chain_res_cons, chain_scope_cons,
      List.length_cons]
    rw [Function.iterate_succ_apply, ih]
    tauto

theorem chain_end_danger_eq : ∀ (es : List MahjongGroupAndResidue)
    (fuel : Nat) (tiles : MahjongTiles) (stp : Nat × Nat × Nat)
    (scope : List Constraint),
    chain_end_danger fuel tiles stp scope es =
      gf_danger (fuel - es.length) (chain_res tiles es)
        (gf_next3^[es.length] stp) (chain_scope scope es) := by
  intro es
  induction es with
  | nil =>
    intro fuel tiles stp scope
    rfl
  | cons e rest ih =>
    intro fuel tiles stp scope
    have h1 : chain_end_danger fuel tiles stp scope (e :: rest) =
        chain_end_danger (fuel - 1) e.2.1 (gf_next3 stp) e.2.2 rest := rfl
    rw [h1, ih]
    have h2 : fuel - 1 - rest.length = fuel - (e :: rest).length := by
      simp only [List.length_cons]
      omega
    have h3 : gf_next3^[rest.length] (gf_next3 stp) = gf_next3^[(e :: rest).length] stp := by
      simp only [List.length_cons]
      exact (Function.iterate_succ_apply _ _ _).symm
    rw [h2, h3]
    rfl

theorem pc_cons (b : List MahjongCombination) (m : Nat)
    (z : MahjongCombination) (rest : List MahjongCombination) (g : MahjongGroup) :
    process_combinations b m (z :: rest) g =
      if m < z.2.length then process_combinations b m rest g
      else if z.2.length < m then
        process_combinations [(merge_group_tuple z.1 g, z.2)] z.2.length rest g
      else process_combinations (b ++ [(merge_group_tuple z.1 g, z.2)]) m rest g := by
  simp only [process_combinations, List.foldl_cons]
  split
  · rfl
  · split
    · rfl
    · rfl

theorem pc_bucket_inv (g : MahjongGroup) :
    ∀ (combos : List MahjongCombination) (b : List MahjongCombination) (m : Nat),
      bucket_inv b m →
      bucket_inv (process_combinations b m combos g).1
        (process_combinations b m combos g).2 := by
  intro combos
  induction combos with
  | nil => intro b m h; exact h
  | cons z rest ih =>
    intro b m h
    have hm14 := h.2.1
    rw [pc_cons]
    split
    · exact ih b m h
    · rename_i h1
      split
      · rename_i h2
        refine ih _ _ ?_
        refine ⟨?_, by omega, by simp⟩
        intro x hx
        simp at hx
        rw [hx]
      · rename_i h2
        refine ih _ _ ?_
        refine ⟨?_, h.2.1, by simp⟩
        intro x hx
        rcases List.mem_append.mp hx with hx | hx
        · exact h.1 x hx
        · simp at hx
          rw [hx]
          simp only
          omega

theorem pc_smallest_mono (g : MahjongGroup) :
    ∀ (combos : List MahjongCombination) (b : List MahjongCombination) (m : Nat),
      (process_combinations b m combos g).2 ≤ m := by
  intro combos
  induction combos with
  | nil => intro b m; exact Nat.le_refl m
  | cons z rest ih =>
    intro b m
    rw [pc_cons]
    split
    · exact ih b m
    · split
      · rename_i h1 h2
        exact Nat.le_trans (ih _ _) (by omega)
      · exact ih _ m

theorem pc_nonempty (g : MahjongGroup) :
    ∀ (combos : List MahjongCombination) (b : List MahjongCombination) (m : Nat),
      b ≠ [] → (process_combinations b m combos g).1 ≠ [] := by
  intro combos
  induction combos with
  | nil => intro b m h; exact h
  | cons z rest ih =>
    intro b m h
    rw [pc_cons]
    split
    · exact ih b m h
    · split
      · exact ih _ _ (by simp)
      · exact ih _ _ (by simp)

theorem pc_preserve (g : MahjongGroup) :
    ∀ (combos : List MahjongCombination) (b : List MahjongCombination) (m : Nat)
      (x : MahjongCombination), bucket_inv b m →
      (x ∈ b ∨ ∃ y ∈ b, y.2.length < x.2.length) →
      (x ∈ (process_combinations b m combos g).1 ∨
        ∃ y ∈ (process_combinations b m combos g).1, y.2.length < x.2.length) := by
  intro combos
  induction combos with
  | nil => intro b m x _ h; exact h
  | cons z rest ih =>
    intro b m x hinv h
    have hm14 := hinv.2.1
    rw [pc_cons]
    split
    · exact ih b m x hinv h
    · rename_i h1
      split
      · rename_i h2
        refine ih _ _ x ⟨?_, by omega, by simp⟩ ?_
        · intro w hw
          simp at hw
          rw [hw]
        · right
          refine ⟨(merge_group_tuple z.1 g, z.2), by simp, ?_⟩
          rcases h with h | hd
          · have := hinv.1 x h
            simp only
            omega
          · rcases hd with ⟨y, hy, hlt⟩
            have := hinv.1 y hy
            simp only
            omega
      · rename_i h2
        refine ih _ _ x ⟨?_, hinv.2.1, by simp⟩ ?_
        · intro w hw
          rcases List.mem_append.mp hw with hw | hw
          · exact hinv.1 w hw
          · simp at hw
            rw [hw]
            simp only
            omega
        · rcases h with h | hd
          · exact Or.inl (List.mem_append.mpr (Or.inl h))
          · rcases hd with ⟨y, hy, hlt⟩
            exact Or.inr ⟨y, List.mem_append.mpr (Or.inl hy), hlt⟩

theorem pc_dominates (g : MahjongGroup)
    (combos : List MahjongCombination) (b : List MahjongCombination) (m : Nat)
    (L : Nat) (hinv : bucket_inv b m) (hb : b ≠ []) (hm : m < L) :
    ∃ y ∈ (process_combinations b m combos g).1, y.2.length < L := by
  have h1 := pc_bucket_inv g combos b m hinv
  have h2 := pc_nonempty g combos b m hb
  have h3 := pc_smallest_mono g combos b m
  rcases List.exists_mem_of_ne_nil _ h2 with ⟨y, hy⟩
  exact ⟨y, hy, by rw [h1.1 y hy]; omega⟩

theorem pc_arrival (g : MahjongGroup) :
    ∀ (combos : List MahjongCombination) (b : List MahjongCombination) (m : Nat)
      (z : MahjongCombination), bucket_inv b m → z ∈ combos →
      ((merge_group_tuple z.1 g, z.2) ∈ (process_combinations b m combos g).1 ∨
        (∃ y ∈ (process_combinations b m combos g).1, y.2.length < z.2.length) ∨
        14 < z.2.length) := by
  intro combos
  induction combos with
  | nil => intro b m z _ h; simp at h
  | cons w rest ih =>
    intro b m z hinv hz
    have hm14 := hinv.2.1
    rw [pc_cons]
    rcases List.mem_cons.mp hz with hzw | hzr
    · subst hzw
      split
      · rename_i h1
        by_cases hb : b = []
        · have h14 := hinv.2.2 hb
          right; right
          omega
        · right; left
          exact pc_dominates g rest b m z.2.length hinv hb h1
      · rename_i h1
        split
        · rename_i h2
          have hinv2 : bucket_inv [(merge_group_tuple z.1 g, z.2)] z.2.length := by
            refine ⟨?_, by omega, by simp⟩
            intro w2 hw
            simp at hw
            rw [hw]
          have hres := pc_preserve g rest [(merge_group_tuple z.1 g, z.2)]
            z.2.length (merge_group_tuple z.1 g, z.2) hinv2 (Or.inl (by simp))
          rcases hres with h | h
          · exact Or.inl h
          · exact Or.inr (Or.inl h)
        · rename_i h2
          have hinv2 : bucket_inv (b ++ [(merge_group_tuple z.1 g, z.2)]) m := by
            refine ⟨?_, hinv.2.1, by simp⟩
            intro w2 hw
            rcases List.mem_append.mp hw with hw | hw
            · exact hinv.1 w2 hw
            · simp at hw
              rw [hw]
              simp only
              omega
          have hres := pc_preserve g rest (b ++ [(merge_group_tuple z.1 g, z.2)])
            m (merge_group_tuple z.1 g, z.2) hinv2
            (Or.inl (List.mem_append.mpr (Or.inr (by simp))))
          rcases hres with h | h
          · exact Or.inl h
          · exact Or.inr (Or.inl h)
    · split
      · exact ih b m z hinv hzr
      · rename_i h1
        split
        · rename_i h2
          have hinv2 : bucket_inv [(merge_group_tuple w.1 g, w.2)] w.2.length := by
            refine ⟨?_, by omega, by simp⟩
            intro w2 hw
            simp at hw
            rw [hw]
          exact ih _ _ z hinv2 hzr
        · rename_i h2
          have hinv2 : bucket_inv (b ++ [(merge_group_tuple w.1 g, w.2)]) m := by
            refine ⟨?_, hinv.2.1, by simp⟩
            intro w2 hw
            rcases List.mem_append.mp hw with hw | hw
            · exact hinv.1 w2 hw
            · simp at hw
              rw [hw]
              simp only
              omega
          exact ih _ _ z hinv2 hzr

theorem abc_cons (st : GFState) (r0 : Constraint) (rest : List Constraint)
    (entry : MahjongCombination) :
    append_base_case st (r0 :: rest) entry =
      append_base_case
        (fun c => if c = r0 then ((st c).1 ++ [entry], (st c).2) else st c)
        rest entry := rfl

theorem abc_preserve (rcs : List Constraint) :
    ∀ (st : GFState) (entry : MahjongCombination) (c : Constraint)
      (x : MahjongCombination), x ∈ (st c).1 →
      x ∈ ((append_base_case st rcs entry) c).1 := by
  induction rcs with
  | nil => intro st entry c x hx; exact hx
  | cons r0 rest ih =>
    intro st entry c x hx
    rw [abc_cons]
    refine ih _ entry c x ?_
    by_cases hc : c = r0
    · subst hc
      simp only [if_pos rfl]
      exact List.mem_append.mpr (Or.inl hx)
    · simp only [if_neg hc]
      exact hx

theorem abc_smallest (rcs : List Constraint) :
    ∀ (st : GFState) (entry : MahjongCombination) (c : Constraint),
      ((append_base_case st rcs entry) c).2 = (st c).2 := by
  induction rcs with
  | nil => intro st entry c; rfl
  | cons r0 rest ih =>
    intro st entry c
    rw [abc_cons, ih]
    by_cases hc : c = r0
    · subst hc
      simp
    · simp [hc]

theorem abc_new (rcs : List Constraint) :
    ∀ (st : GFState) (entry : MahjongCombination) (c : Constraint),
      c ∈ rcs → entry ∈ ((append_base_case st rcs entry) c).1 := by
  induction rcs with
  | nil => intro st entry c hc; simp at hc
  | cons r0 rest ih =>
    intro st entry c hc
    rw [abc_cons]
    rcases List.mem_cons.mp hc with hc | hc
    · subst hc
      refine abc_preserve rest _ entry c entry ?_
      simp only [if_pos rfl]
      simp
    · exact ih _ entry c hc

theorem abc_mem_cases (rcs : List Constraint) :
    ∀ (st : GFState) (entry : MahjongCombination) (c : Constraint)
      (x : MahjongCombination), x ∈ ((append_base_case st rcs entry) c).1 →
      x ∈ (st c).1 ∨ (x = entry ∧ c ∈ rcs) := by
  induction rcs with
  | nil => intro st entry c x hx; exact Or.inl hx
  | cons r0 rest ih =>
    intro st entry c x hx
    rw [abc_cons] at hx
    rcases ih _ entry c x hx with h | h
    · by_cases hc : c = r0
      · subst hc
        simp only [if_pos rfl] at h
        rcases List.mem_append.mp h with h | h
        · exact Or.inl h
        · simp at h
          exact Or.inr ⟨h, by simp⟩
      · simp only [if_neg hc] at h
        exact Or.inl h
    · exact Or.inr ⟨h.1, List.mem_cons.mpr (Or.inr h.2)⟩

theorem fgar_loop_cache
    {recurse : MahjongTiles → List Constraint → GFCache → MahjongGroups →
      Except GFError (CResult × GFCache)}
    {ns nt np fuelc : Nat}
    {tiles : MahjongTiles} {stp : Nat × Nat × Nat} {scope : List Constraint}
    {prev : MahjongGroups} {K0 : GFCache}
    (hrec : recurse_post fuelc (ns, nt, np) recurse)
    (hnext : gf_next3 stp = (ns, nt, np)) :
    ∀ (gen : List MahjongGroupAndResidue) (st : GFState) (K : GFCache)
      (st2 : GFState) (K2 : GFCache),
      (∀ e ∈ gen, e ∈ gf_candidates tiles stp scope) →
      (∀ m ∈ K, m ∉ K0 → ∃ es, valid_chain tiles stp scope es ∧ es ≠ [] ∧
        m = chain_state prev es) →
      fgar_loop recurse ns nt np prev gen st K = .ok (st2, K2) →
      ((∀ m ∈ K, m ∈ K2) ∧
        (∀ m ∈ K2, m ∉ K0 → ∃ es, valid_chain tiles stp scope es ∧ es ≠ [] ∧
          m = chain_state prev es)) := by
  intro gen
  induction gen with
  | nil =>
    intro st K st2 K2 _ hKw hloop
    rw [fgar_loop] at hloop
    injection hloop with hloop
    injection hloop with h1 h2
    subst h2
    exact ⟨fun m hm => hm, hKw⟩
  | cons e rest ih =>
    obtain ⟨fg, residue, rcs⟩ := e
    intro st K st2 K2 hgen hKw hloop
    simp only [fgar_loop] at hloop
    split at hloop
    · exact ih st K st2 K2 (fun e2 he2 => hgen e2 (List.mem_cons_of_mem _ he2)) hKw hloop
    · rename_i hnotin
      have hmem : (fg, residue, rcs) ∈ gf_candidates tiles stp scope :=
        hgen _ (List.mem_cons_self _ _)
      have hw1 : ∃ es, valid_chain tiles stp scope es ∧ es ≠ [] ∧
          merge_group_tuple prev fg = chain_state prev es := by
        refine ⟨[(fg, residue, rcs)], ?_, by simp, rfl⟩
        exact valid_chain_cons.mpr ⟨hmem, trivial⟩
      have hKw2 : ∀ m ∈ (merge_group_tuple prev fg :: K), m ∉ K0 →
          ∃ es, valid_chain tiles stp scope es ∧ es ≠ [] ∧
            m = chain_state prev es := by
        intro m hm hm0
        rcases List.mem_cons.mp hm with hm | hm
        · subst hm
          exact hw1
        · exact hKw m hm hm0
      split at hloop
      · have hres := ih _ (merge_group_tuple prev fg :: K) st2 K2
          (fun e2 he2 => hgen e2 (List.mem_cons_of_mem _ he2)) hKw2 hloop
        exact ⟨fun m hm => hres.1 m (List.mem_cons_of_mem _ hm), hres.2⟩
      · rcases hr : recurse residue rcs (merge_group_tuple prev fg :: K)
            (merge_group_tuple prev fg) with err | rK
        · rw [hr] at hloop
          cases hloop
        · obtain ⟨r, K3⟩ := rK
          rw [hr] at hloop
          have hchild := (hrec residue rcs (merge_group_tuple prev fg :: K)
            (merge_group_tuple prev fg)).1 r K3 hr
          have hKw3 : ∀ m ∈ K3, m ∉ K0 →
              ∃ es, valid_chain tiles stp scope es ∧ es ≠ [] ∧
                m = chain_state prev es := by
            intro m hm hm0
            by_cases hmK : m ∈ (merge_group_tuple prev fg :: K)
            · exact hKw2 m hmK hm0
            · rcases hchild.2.1 m hm hmK with ⟨es, hv, hne, hst⟩
              refine ⟨(fg, residue, rcs) :: es, ?_, by simp, hst⟩
              refine valid_chain_cons.mpr ⟨hmem, ?_⟩
              rw [hnext]
              exact hv
          have hres := ih _ K3 st2 K2
            (fun e2 he2 => hgen e2 (List.mem_cons_of_mem _ he2)) hKw3 hloop
          refine ⟨?_, hres.2⟩
          intro m hm
          exact hres.1 m (hchild.1 m (List.mem_cons_of_mem _ hm))

theorem gf_candidates_pos {tiles : MahjongTiles} {stp : Nat × Nat × Nat}
    {scope : List Constraint} {e : MahjongGroupAndResidue}
    (h : e ∈ gf_candidates tiles stp scope) : 0 < stp.1 + stp.2.1 + stp.2.2 := by
  by_contra hz
  obtain ⟨s, t, p⟩ := stp
  simp only at hz
  have hs : s = 0 := by omega
  have ht : t = 0 := by omega
  have hp2 : p = 0 := by omega
  subst hs
  subst ht
  subst hp2
  simp [gf_candidates] at h

theorem merge_nil (g : MahjongGroup) : merge_group_tuple [] g = [g] := rfl

theorem merge_chain_state {e : MahjongGroupAndResidue}
    (es : List MahjongGroupAndResidue) :
    merge_group_tuple (chain_state [] es) e.1 = chain_state [] (e :: es) := by
  refine List.eq_of_perm_of_sorted ?_ (merge_group_tuple_sorted _ _)
    (chain_state_sorted (e :: es) (by simp) [])
  refine (merge_group_tuple_perm _ _).trans ?_
  refine .trans ?_ (chain_state_perm (e :: es) []).symm
  have h1 := chain_state_perm es []
  simp only [List.nil_append] at h1 ⊢
  refine (h1.append_right [e.1]).trans ?_
  simp only [List.map_cons]
  exact (List.perm_append_singleton _ _)

theorem pc_mem_cases (g : MahjongGroup) :
    ∀ (combos : List MahjongCombination) (b : List MahjongCombination) (m : Nat)
      (x : MahjongCombination), x ∈ (process_combinations b m combos g).1 →
      x ∈ b ∨ ∃ z ∈ combos, x = (merge_group_tuple z.1 g, z.2) := by
  intro combos
  induction combos with
  | nil => intro b m x hx; exact Or.inl hx
  | cons w rest ih =>
    intro b m x hx
    rw [pc_cons] at hx
    split at hx
    · rcases ih b m x hx with h | ⟨z, hz, he⟩
      · exact Or.inl h
      · exact Or.inr ⟨z, List.mem_cons_of_mem _ hz, he⟩
    · split at hx
      · rcases ih _ _ x hx with h | ⟨z, hz, he⟩
        · simp at h
          exact Or.inr ⟨w, List.mem_cons_self _ _, h⟩
        · exact Or.inr ⟨z, List.mem_cons_of_mem _ hz, he⟩
      · rcases ih _ _ x hx with h | ⟨z, hz, he⟩
        · rcases List.mem_append.mp h with h | h
          · exact Or.inl h
          · simp at h
            exact Or.inr ⟨w, List.mem_cons_self _ _, h⟩
        · exact Or.inr ⟨z, List.mem_cons_of_mem _ hz, he⟩

theorem fgar_loop_sound
    {recurse : MahjongTiles → List Constraint → GFCache → MahjongGroups →
      Except GFError (CResult × GFCache)}
    {ns nt np fuelc : Nat}
    {tiles : MahjongTiles} {stp : Nat × Nat × Nat} {scope : List Constraint}
    {prev : MahjongGroups}
    (hrec : recurse_post fuelc (ns, nt, np) recurse)
    (hnext : gf_next3 stp = (ns, nt, np)) :
    ∀ (gen : List MahjongGroupAndResidue) (st : GFState) (K : GFCache)
      (st2 : GFState) (K2 : GFCache),
      (∀ e ∈ gen, e ∈ gf_candidates tiles stp scope) →
      fgar_loop recurse ns nt np prev gen st K = .ok (st2, K2) →
      ∀ c x, x ∈ (st2 c).1 → x ∈ (st c).1 ∨
        ∃ es, valid_chain tiles stp scope es ∧ es ≠ [] ∧
          es.length = stp.1 + stp.2.1 + stp.2.2 ∧ c ∈ chain_scope scope es ∧
          x = chain_combo tiles es := by
  intro gen
  induction gen with
  | nil =>
    intro st K st2 K2 _ hloop c x hx
    rw [fgar_loop] at hloop
    injection hloop with hloop
    injection hloop with h1 h2
    subst h1
    exact Or.inl hx
  | cons e rest ih =>
    obtain ⟨fg, residue, rcs⟩ := e
    intro st K st2 K2 hgen hloop c x hx
    simp only [fgar_loop] at hloop
    split at hloop
    · exact ih st K st2 K2 (fun e2 he2 => hgen e2 (List.mem_cons_of_mem _ he2)) hloop c x hx
    · rename_i hnotin
      have hmem : (fg, residue, rcs) ∈ gf_candidates tiles stp scope :=
        hgen _ (List.mem_cons_self _ _)
      have hpos : 0 < stp.1 + stp.2.1 + stp.2.2 := gf_candidates_pos hmem
      split at hloop
      · rename_i hz
        obtain ⟨hz1, hz2, hz3⟩ := hz
        have htot : stp.1 + stp.2.1 + stp.2.2 = 1 := by
          have h1 := gf_next3_total hpos
          rw [hnext, hz1, hz2, hz3] at h1
          simp at h1
          omega
        rcases ih _ _ st2 K2 (fun e2 he2 => hgen e2 (List.mem_cons_of_mem _ he2))
            hloop c x hx with h | h
        · rcases abc_mem_cases rcs st ([fg], residue) c x h with h2 | ⟨h2, h3⟩
          · exact Or.inl h2
          · right
            refine ⟨[(fg, residue, rcs)], valid_chain_cons.mpr ⟨hmem, trivial⟩,
              by simp, by simp [htot], h3, ?_⟩
            rw [h2]
            rfl
        · exact Or.inr h
      · rcases hr : recurse residue rcs (merge_group_tuple prev fg :: K)
            (merge_group_tuple prev fg) with err | rK
        · rw [hr] at hloop
          cases hloop
        · obtain ⟨r, K3⟩ := rK
          rw [hr] at hloop
          have hchild := (hrec residue rcs (merge_group_tuple prev fg :: K)
            (merge_group_tuple prev fg)).1 r K3 hr
          rcases ih _ _ st2 K2 (fun e2 he2 => hgen e2 (List.mem_cons_of_mem _ he2))
              hloop c x hx with h | h
          · rcases pc_mem_cases fg (r c) (st c).1 (st c).2 x h with h2 | ⟨z, hz, he⟩
            · exact Or.inl h2
            · right
              rcases hchild.2.2.1 c z hz with ⟨es, hv, hne, hlen, hsc, hcombo⟩
              refine ⟨(fg, residue, rcs) :: es, ?_, by simp, ?_, hsc, ?_⟩
              · refine valid_chain_cons.mpr ⟨hmem, ?_⟩
                rw [hnext]
                exact hv
              · simp only [List.length_cons, hlen]
                have h1 := gf_next3_total hpos
                rw [hnext] at h1
                simp only at h1 ⊢
                omega
              · rw [he, hcombo]
                unfold chain_combo
                have h1 := merge_chain_state (e := (fg, residue, rcs)) es
                simp only at h1
                rw [h1]
                rfl
          · exact Or.inr h

theorem fgar_loop_cache_mono
    {recurse : MahjongTiles → List Constraint → GFCache → MahjongGroups →
      Except GFError (CResult × GFCache)}
    {ns nt np fuelc : Nat} {stpc : Nat × Nat × Nat}
    {prev : MahjongGroups}
    (hrec : recurse_post fuelc stpc recurse) :
    ∀ (gen : List MahjongGroupAndResidue) (st : GFState) (K : GFCache)
      (st2 : GFState) (K2 : GFCache),
      fgar_loop recurse ns nt np prev gen st K = .ok (st2, K2) →
      ∀ m ∈ K, m ∈ K2 := by
  intro gen
  induction gen with
  | nil =>
    intro st K st2 K2 hloop
    rw [fgar_loop] at hloop
    injection hloop with hloop
    injection hloop with h1 h2
    subst h2
    exact fun m hm => hm
  | cons e rest ih =>
    obtain ⟨fg, residue, rcs⟩ := e
    intro st K st2 K2 hloop
    simp only [fgar_loop] at hloop
    split at hloop
    · exact ih st K st2 K2 hloop
    · split at hloop
      · intro m hm
        exact ih _ _ st2 K2 hloop m (List.mem_cons_of_mem _ hm)
      · rcases hr : recurse residue rcs (merge_group_tuple prev fg :: K)
            (merge_group_tuple prev fg) with err | rK
        · rw [hr] at hloop
          cases hloop
        · obtain ⟨r, K3⟩ := rK
          rw [hr] at hloop
          have hchild := (hrec residue rcs (merge_group_tuple prev fg :: K)
            (merge_group_tuple prev fg)).1 r K3 hr
          intro m hm
          exact ih _ K3 st2 K2 hloop m (hchild.1 m (List.mem_cons_of_mem _ hm))

theorem state_eq_groups_perm {S : MahjongGroups}
    {es₁ es₂ : List MahjongGroupAndResidue}
    (h : chain_state S es₁ = chain_state S es₂) :
    List.Perm (es₁.map (·.1)) (es₂.map (·.1)) := by
  have h1 := chain_state_perm es₁ S
  have h2 := chain_state_perm es₂ S
  rw [h] at h1
  exact (List.perm_append_left_iff S).mp (h1.symm.trans h2)

theorem preserve_merge_step
    {tiles : MahjongTiles} {stp : Nat × Nat × Nat} {scope : List Constraint}
    {prev : MahjongGroups} {K0 : GFCache} {st : GFState} {r : CResult}
    {fg : MahjongGroup} {c : Constraint} {x : MahjongCombination}
    (hstinv : ∀ c2, bucket_inv (st c2).1 (st c2).2)
    (hg2 : 2 ≤ stp.1 + stp.2.1 + stp.2.2)
    (hh : handled tiles stp scope prev K0 ((st c).1)
      (2 ≤ stp.1 + stp.2.1 + stp.2.2) c x) :
    handled tiles stp scope prev K0 ((merge_recursive_results st r fg c).1)
      (2 ≤ stp.1 + stp.2.1 + stp.2.2) c x := by
  have hb := hstinv c
  rcases hh with hcv | hin | ⟨hg, hdom | h14⟩
  · exact Or.inl hcv
  · rcases pc_preserve fg (r c) (st c).1 (st c).2 x hb (Or.inl hin) with h | h
    · exact Or.inr (Or.inl h)
    · exact Or.inr (Or.inr ⟨hg2, Or.inl h⟩)
  · rcases hdom with ⟨y, hy, hlt⟩
    have hbne : (st c).1 ≠ [] := by
      intro hnil
      rw [hnil] at hy
      simp at hy
    have hsm : (st c).2 < x.2.length := by
      have := hb.1 y hy
      omega
    right; right
    exact ⟨hg, Or.inl (pc_dominates fg (r c) (st c).1 (st c).2 x.2.length hb hbne hsm)⟩
  · exact Or.inr (Or.inr ⟨hg, Or.inr h14⟩)

theorem preserve_abc_step
    {tiles : MahjongTiles} {stp : Nat × Nat × Nat} {scope : List Constraint}
    {prev : MahjongGroups} {K0 : GFCache} {st : GFState} {rcs : List Constraint}
    {entry : MahjongCombination} {guard : Prop} {c : Constraint}
    {x : MahjongCombination}
    (hh : handled tiles stp scope prev K0 ((st c).1) guard c x) :
    handled tiles stp scope prev K0 ((append_base_case st rcs entry c).1)
      guard c x := by
  rcases hh with hcv | hin | ⟨hg, hdom | h14⟩
  · exact Or.inl hcv
  · exact Or.inr (Or.inl (abc_preserve rcs st entry c x hin))
  · rcases hdom with ⟨y, hy, hlt⟩
    exact Or.inr (Or.inr ⟨hg, Or.inl ⟨y, abc_preserve rcs st entry c y hy, hlt⟩⟩)
  · exact Or.inr (Or.inr ⟨hg, Or.inr h14⟩)

theorem lift_child_handled
    {tiles : MahjongTiles} {stp : Nat × Nat × Nat} {scope : List Constraint}
    {prev : MahjongGroups} {K0 K : GFCache} {st : GFState} {r : CResult}
    {fg : MahjongGroup} {residue : MahjongTiles} {rcs : List Constraint}
    {c : Constraint} {F2 : List MahjongGroupAndResidue}
    (hmem : (fg, residue, rcs) ∈ gf_candidates tiles stp scope)
    (hguard : 2 ≤ stp.1 + stp.2.1 + stp.2.2)
    (hstinv : ∀ c2, bucket_inv (st c2).1 (st c2).2)
    (hKc : ∀ c2 F, valid_chain tiles stp scope F →
      F.length = stp.1 + stp.2.1 + stp.2.2 → c2 ∈ chain_scope scope F →
      (∃ j, 1 ≤ j ∧ j ≤ F.length ∧ chain_state prev (F.take j) ∈ K ∧
        chain_state prev (F.take j) ∉ K0) →
      handled tiles stp scope prev K0 ((st c2).1) (2 ≤ stp.1 + stp.2.1 + stp.2.2)
        c2 (chain_combo tiles F))
    (hlenF2 : F2.length = (gf_next3 stp).1 + (gf_next3 stp).2.1 + (gf_next3 stp).2.2)
    (hch : handled residue (gf_next3 stp) rcs (merge_group_tuple prev fg)
      (merge_group_tuple prev fg :: K) (r c)
      (2 ≤ (gf_next3 stp).1 + (gf_next3 stp).2.1 + (gf_next3 stp).2.2) c
      (chain_combo residue F2)) :
    handled tiles stp scope prev K0
      ((merge_recursive_results st r fg c).1) (2 ≤ stp.1 + stp.2.1 + stp.2.2) c
      (chain_combo tiles ((fg, residue, rcs) :: F2)) := by
  have hpos : 0 < stp.1 + stp.2.1 + stp.2.2 := gf_candidates_pos hmem
  have htot := gf_next3_total hpos
  have hF2ne : F2 ≠ [] := by
    intro hnil
    rw [hnil] at hlenF2
    simp at hlenF2
    omega
  have hsnd : (chain_combo tiles ((fg, residue, rcs) :: F2)).2 =
      (chain_combo residue F2).2 := rfl
  have hfst : (chain_combo tiles ((fg, residue, rcs) :: F2)).1 =
      merge_group_tuple (chain_combo residue F2).1 fg := by
    have h1 := merge_chain_state (e := (fg, residue, rcs)) F2
    simp only at h1
    rw [chain_combo, chain_combo]
    simp only
    rw [h1]
  rcases hch with hcv | hin | ⟨hgc, hdom | h14⟩
  · -- reachable through the memo inside the child: lift the chains
    rcases hcv with ⟨es₁, es₂, hne1, hfull, hstate, hsc2, hxeq⟩
    have hlstate : (chain_state (merge_group_tuple prev fg) es₁).length =
        (merge_group_tuple prev fg).length + es₁.length :=
      chain_state_length es₁ _
    have hstK : chain_state (merge_group_tuple prev fg) es₁ ∈ K := by
      rcases List.mem_cons.mp hstate with h | h
      · exfalso
        have : es₁.length = 0 := by
          have := congrArg List.length h
          rw [hlstate] at this
          omega
        exact hne1 (List.length_eq_zero.mp this)
      · exact h
    have hes12ne : es₁ ++ es₂ ≠ [] := by
      intro hnil
      rcases List.append_eq_nil.mp hnil with ⟨h1, _⟩
      exact hne1 h1
    -- the two child chains denote the same combination, hence so do the
    -- lifted parent chains
    have hgp : List.Perm (F2.map (·.1)) ((es₁ ++ es₂).map (·.1)) := by
      have := congrArg Prod.fst hxeq
      simp only [chain_combo] at this
      exact state_eq_groups_perm this
    have hpcombo : chain_combo tiles ((fg, residue, rcs) :: (es₁ ++ es₂)) =
        chain_combo tiles ((fg, residue, rcs) :: F2) := by
      rw [chain_combo, chain_combo]
      have h1 : chain_state [] ((fg, residue, rcs) :: (es₁ ++ es₂)) =
          chain_state [] ((fg, residue, rcs) :: F2) := by
        refine chain_state_eq_of_perm (by simp) (by simp) ?_ []
        simp only [List.map_cons]
        exact (hgp.symm).cons _
      rw [h1]
      have h2 : chain_res tiles ((fg, residue, rcs) :: (es₁ ++ es₂)) =
          chain_res tiles ((fg, residue, rcs) :: F2) := by
        rw [chain_res_cons, chain_res_cons]
        have := congrArg Prod.snd hxeq
        simp only [chain_combo] at this
        exact this.symm
      rw [h2]
    have hvF : valid_chain tiles stp scope ((fg, residue, rcs) :: (es₁ ++ es₂)) :=
      valid_chain_cons.mpr ⟨hmem, hfull.1⟩
    have hlenF : ((fg, residue, rcs) :: (es₁ ++ es₂)).length =
        stp.1 + stp.2.1 + stp.2.2 := by
      simp only [List.length_cons, hfull.2]
      omega
    have hscF : c ∈ chain_scope scope ((fg, residue, rcs) :: (es₁ ++ es₂)) := hsc2
    by_cases h0 : chain_state (merge_group_tuple prev fg) es₁ ∈ K0
    · left
      refine ⟨(fg, residue, rcs) :: es₁, es₂, by simp, ?_, ?_, ?_, ?_⟩
      · rw [List.cons_append]
        exact ⟨hvF, hlenF⟩
      · rw [chain_state_cons]
        exact h0
      · rw [List.cons_append]
        exact hscF
      · rw [List.cons_append, hpcombo]
    · have hh := hKc c ((fg, residue, rcs) :: (es₁ ++ es₂)) hvF hlenF hscF
        ⟨1 + es₁.length, by omega, by simp only [List.length_cons, List.length_append]; omega, ?_, ?_⟩
      · rw [hpcombo] at hh
        exact preserve_merge_step hstinv hguard hh
      · have ht : ((fg, residue, rcs) :: (es₁ ++ es₂)).take (1 + es₁.length) =
            (fg, residue, rcs) :: es₁ := by
          rw [Nat.add_comm, List.take_succ_cons]
          congr 1
          exact List.take_left es₁ es₂
        rw [ht, chain_state_cons]
        exact hstK
      · have ht : ((fg, residue, rcs) :: (es₁ ++ es₂)).take (1 + es₁.length) =
            (fg, residue, rcs) :: es₁ := by
          rw [Nat.add_comm, List.take_succ_cons]
          congr 1
          exact List.take_left es₁ es₂
        rw [ht, chain_state_cons]
        exact h0
  · -- present in the child bucket: it arrives into the merged bucket
    have harr := pc_arrival fg (r c) (st c).1 (st c).2 (chain_combo residue F2)
      (hstinv c) hin
    rcases harr with h | h | h
    · right; left
      have : (merge_group_tuple (chain_combo residue F2).1 fg,
          (chain_combo residue F2).2) =
          chain_combo tiles ((fg, residue, rcs) :: F2) := by
        rw [← hfst, ← hsnd]
      rw [this] at h
      exact h
    · right; right
      refine ⟨hguard, Or.inl ?_⟩
      rcases h with ⟨y, hy, hlt⟩
      exact ⟨y, hy, by rw [hsnd]; exact hlt⟩
    · right; right
      exact ⟨hguard, Or.inr (by rw [hsnd]; exact h)⟩
  · -- dominated inside the child: the dominator arrives
    rcases hdom with ⟨y, hy, hlt⟩
    have harr := pc_arrival fg (r c) (st c).1 (st c).2 y (hstinv c) hy
    right; right
    refine ⟨hguard, ?_⟩
    rcases harr with h | h | h
    · exact Or.inl ⟨(merge_group_tuple y.1 fg, y.2), h, by rw [hsnd]; exact hlt⟩
    · rcases h with ⟨z, hz, hlt2⟩
      exact Or.inl ⟨z, hz, by rw [hsnd]; omega⟩
    · exact Or.inr (by rw [hsnd]; omega)
  · -- past the 14 default inside the child
    right; right
    exact ⟨hguard, Or.inr (by rw [hsnd]; exact h14)⟩

theorem fgar_loop_complete_rec
    {recurse : MahjongTiles → List Constraint → GFCache → MahjongGroups →
      Except GFError (CResult × GFCache)}
    {ns nt np fuelc : Nat}
    {tiles : MahjongTiles} {stp : Nat × Nat × Nat} {scope : List Constraint}
    {prev : MahjongGroups} {K0 : GFCache}
    (hrec : recurse_post fuelc (ns, nt, np) recurse)
    (hnext : gf_next3 stp = (ns, nt, np))
    (hnz : ¬(ns = 0 ∧ nt = 0 ∧ np = 0)) :
    ∀ (gen : List MahjongGroupAndResidue) (st : GFState) (K : GFCache)
      (st2 : GFState) (K2 : GFCache),
      (∀ e ∈ gen, e ∈ gf_candidates tiles stp scope) →
      (∀ c2, bucket_inv (st c2).1 (st c2).2) →
      (∀ c2 F, valid_chain tiles stp scope F →
        F.length = stp.1 + stp.2.1 + stp.2.2 → c2 ∈ chain_scope scope F →
        (∃ j, 1 ≤ j ∧ j ≤ F.length ∧ chain_state prev (F.take j) ∈ K ∧
          chain_state prev (F.take j) ∉ K0) →
        handled tiles stp scope prev K0 ((st c2).1)
          (2 ≤ stp.1 + stp.2.1 + stp.2.2) c2 (chain_combo tiles F)) →
      fgar_loop recurse ns nt np prev gen st K = .ok (st2, K2) →
      (∀ c2 F, valid_chain tiles stp scope F →
        F.length = stp.1 + stp.2.1 + stp.2.2 → c2 ∈ chain_scope scope F →
        ((∃ e F3, F = e :: F3 ∧ e ∈ gen) ∨
          (∃ j, 1 ≤ j ∧ j ≤ F.length ∧ chain_state prev (F.take j) ∈ K2 ∧
            chain_state prev (F.take j) ∉ K0)) →
        handled tiles stp scope prev K0 ((st2 c2).1)
          (2 ≤ stp.1 + stp.2.1 + stp.2.2) c2 (chain_combo tiles F)) := by
  intro gen
  induction gen with
  | nil =>
    intro st K st2 K2 _ _ hKc hloop c2 F hv hlen hsc hant
    rw [fgar_loop] at hloop
    injection hloop with hloop
    injection hloop with h1 h2
    subst h1
    subst h2
    rcases hant with ⟨e, F3, _, he⟩ | hant
    · simp at he
    · exact hKc c2 F hv hlen hsc hant
  | cons e rest ih =>
    obtain ⟨fg, residue, rcs⟩ := e
    intro st K st2 K2 hgen hstinv hKc hloop c2 F hv hlen hsc hant
    have hmem : (fg, residue, rcs) ∈ gf_candidates tiles stp scope :=
      hgen _ (List.mem_cons_self _ _)
    have hpos : 0 < stp.1 + stp.2.1 + stp.2.2 := gf_candidates_pos hmem
    have htot := gf_next3_total hpos
    have hguard : 2 ≤ stp.1 + stp.2.1 + stp.2.2 := by
      rw [hnext] at htot
      simp only at htot
      omega
    simp only [fgar_loop] at hloop
    split at hloop
    · -- the candidate's state is already memoized: skip
      rename_i hin
      have hmono := fgar_loop_cache_mono hrec rest st K st2 K2 hloop
      have hres := ih st K st2 K2
        (fun e2 he2 => hgen e2 (List.mem_cons_of_mem _ he2)) hstinv hKc hloop
      rcases hant with ⟨e2, F3, hF, he2⟩ | hant
      · rcases List.mem_cons.mp he2 with he2 | he2
        · -- head is the skipped candidate
          subst he2
          subst hF
          by_cases h0 : merge_group_tuple prev fg ∈ K0
          · left
            refine ⟨[(fg, residue, rcs)], F3, by simp, by simpa using ⟨hv, hlen⟩,
              by simpa using h0, by simpa using hsc, by simp⟩
          · refine hres c2 _ hv hlen hsc (Or.inr ⟨1, by omega, ?_, ?_, ?_⟩)
            · simp only [List.length_cons]
              omega
            · have ht : (((fg, residue, rcs) : MahjongGroupAndResidue) :: F3).take 1 =
                  [(fg, residue, rcs)] := rfl
              rw [ht]
              exact hmono _ hin
            · have ht : (((fg, residue, rcs) : MahjongGroupAndResidue) :: F3).take 1 =
                  [(fg, residue, rcs)] := rfl
              rw [ht]
              exact h0
        · exact hres c2 F hv hlen hsc (Or.inl ⟨e2, F3, hF, he2⟩)
      · exact hres c2 F hv hlen hsc (Or.inr hant)
    · rename_i hnotin
      rcases hr : recurse residue rcs (merge_group_tuple prev fg :: K)
            (merge_group_tuple prev fg) with err | rK
      · rw [hr] at hloop
        cases hloop
      · obtain ⟨r, K3⟩ := rK
        rw [hr] at hloop
        have hchild := (hrec residue rcs (merge_group_tuple prev fg :: K)
          (merge_group_tuple prev fg)).1 r K3 hr
        have hstinv2 : ∀ c3, bucket_inv ((merge_recursive_results st r fg) c3).1
            ((merge_recursive_results st r fg) c3).2 := by
          intro c3
          exact pc_bucket_inv fg (r c3) (st c3).1 (st c3).2 (hstinv c3)
        -- any full chain with head equal to the processed candidate is
        -- handled in the merged state, via the child's completeness
        have hheadcase : ∀ c3 (F3 : List MahjongGroupAndResidue),
            valid_chain residue (gf_next3 stp) rcs F3 →
            F3.length = (gf_next3 stp).1 + (gf_next3 stp).2.1 + (gf_next3 stp).2.2 →
            c3 ∈ chain_scope rcs F3 →
            handled tiles stp scope prev K0
              (((merge_recursive_results st r fg) c3).1)
              (2 ≤ stp.1 + stp.2.1 + stp.2.2) c3
              (chain_combo tiles ((fg, residue, rcs) :: F3)) := by
          intro c3 F3 hv3 hlen3 hsc3
          have hF3ne : F3 ≠ [] := by
            intro hnil
            rw [hnil, hnext] at hlen3
            simp at hlen3
            omega
          have hch := hchild.2.2.2.1 c3 F3 (by rw [← hnext]; exact hv3)
            (by rw [← hnext]; exact hlen3) hF3ne hsc3
          rw [← hnext] at hch
          have hcombo : chain_combo residue F3 =
              chain_combo (((fg, residue, rcs) : MahjongGroupAndResidue).2.1) F3 := rfl
          exact lift_child_handled hmem hguard hstinv hKc hlen3 hch
        -- the strengthened cache hypothesis for the remaining candidates
        have hKc3 : ∀ c3 F4, valid_chain tiles stp scope F4 →
            F4.length = stp.1 + stp.2.1 + stp.2.2 → c3 ∈ chain_scope scope F4 →
            (∃ j, 1 ≤ j ∧ j ≤ F4.length ∧ chain_state prev (F4.take j) ∈ K3 ∧
              chain_state prev (F4.take j) ∉ K0) →
            handled tiles stp scope prev K0
              (((merge_recursive_results st r fg) c3).1)
              (2 ≤ stp.1 + stp.2.1 + stp.2.2) c3 (chain_combo tiles F4) := by
          intro c3 F4 hv4 hlen4 hsc4 ⟨j, hj1, hj2, hjin, hjout⟩
          by_cases hq : chain_state prev (F4.take j) ∈ (merge_group_tuple prev fg :: K)
          · rcases List.mem_cons.mp hq with hq | hq
            · -- the prefix state is exactly the new candidate's state
              have hlenq := chain_state_length (F4.take j) prev
              have hlentake : (F4.take j).length = j := by
                rw [List.length_take]
                omega
              have hj : j = 1 := by
                have := congrArg List.length hq
                rw [hlenq, hlentake, merge_group_tuple_length] at this
                omega
              subst hj
              rcases F4 with _ | ⟨headF, F5⟩
              · simp at hlen4
                omega
              · have htake : (headF :: F5).take 1 = [headF] := rfl
                rw [htake] at hq
                have hhead : headF.1 = fg := by
                  have : chain_state prev [headF] = merge_group_tuple prev headF.1 := rfl
                  rw [this] at hq
                  exact merge_group_tuple_inj hq
                rcases valid_chain_cons.mp hv4 with ⟨hmem4, hrest4⟩
                have hentry := gf_candidates_entry hmem4
                have hentry2 := gf_candidates_entry hmem
                have hheadeq : headF = (fg, residue, rcs) := by
                  have h1 := hentry.1
                  rw [hhead] at h1
                  have h2 := hentry2.1
                  simp only at h2
                  rw [h1, ← h2]
                subst hheadeq
                refine hheadcase c3 F5 hrest4 ?_ hsc4
                simp only [List.length_cons] at hlen4
                rw [hnext] at htot ⊢
                simp only at htot ⊢
                omega
            · -- the prefix state was already in the loop cache
              exact preserve_merge_step hstinv hguard
                (hKc c3 F4 hv4 hlen4 hsc4 ⟨j, hj1, hj2, hq, hjout⟩)
          · -- the prefix state was added inside the child call: transport
            -- the chain through the child's chain witness
            have hq3 : chain_state prev (F4.take j) ∈ K3 := hjin
            rcases hchild.2.1 _ hq3 hq with ⟨es2, hves2, hes2ne, hstate2⟩
            rw [← hnext] at hves2
            set P := F4.take j with hP
            have hlentake : P.length = j := by
              rw [hP, List.length_take]
              omega
            have hPne : P ≠ [] := by
              intro hnil
              rw [hnil] at hlentake
              simp at hlentake
              omega
            have hEes : chain_state prev ((fg, residue, rcs) :: es2) =
                chain_state prev P := by
              rw [chain_state_cons]
              exact hstate2.symm
            have hgp : List.Perm (((fg, residue, rcs) :: es2).map (·.1))
                (P.map (·.1)) := state_eq_groups_perm hEes
            have hvE : valid_chain tiles stp scope ((fg, residue, rcs) :: es2) :=
              valid_chain_cons.mpr ⟨hmem, hves2⟩
            have hFsplit : P ++ F4.drop j = F4 := by
              rw [hP]
              exact List.take_append_drop j F4
            have hvP : valid_chain tiles stp scope P := by
              have := valid_chain_append.mp (hFsplit ▸ hv4)
              exact this.1
            have hvdrop : valid_chain (chain_res tiles P) (gf_next3^[P.length] stp)
                (chain_scope scope P) (F4.drop j) := by
              have := valid_chain_append.mp (hFsplit ▸ hv4)
              exact this.2
            have hresP : chain_res tiles ((fg, residue, rcs) :: es2) =
                chain_res tiles P := chain_res_determined hvE hvP hgp
            have hscP : chain_scope scope ((fg, residue, rcs) :: es2) =
                chain_scope scope P := chain_scope_determined hvE hvP hgp
            have hlenE : ((fg, residue, rcs) :: es2).length = P.length := by
              have := hgp.length_eq
              simpa using this
            -- the transported chain
            have hvF4 : valid_chain tiles stp scope
                (((fg, residue, rcs) :: es2) ++ F4.drop j) := by
              refine valid_chain_append.mpr ⟨hvE, ?_⟩
              rw [hresP, hscP, hlenE]
              exact hvdrop
            have hlenF4 : (((fg, residue, rcs) :: es2) ++ F4.drop j).length =
                stp.1 + stp.2.1 + stp.2.2 := by
              rw [List.length_append, hlenE, ← List.length_append, hFsplit]
              exact hlen4
            have hscF4 : c3 ∈ chain_scope scope
                (((fg, residue, rcs) :: es2) ++ F4.drop j) := by
              rw [chain_scope_append, hscP, ← chain_scope_append, hFsplit]
              exact hsc4
            have hcomboF4 : chain_combo tiles
                (((fg, residue, rcs) :: es2) ++ F4.drop j) =
                chain_combo tiles F4 := by
              rw [chain_combo, chain_combo]
              have h1 : chain_state [] (((fg, residue, rcs) :: es2) ++ F4.drop j) =
                  chain_state [] F4 := by
                refine chain_state_eq_of_perm (by simp) ?_ ?_ []
                · intro hnil
                  rw [hnil] at hlen4
                  simp at hlen4
                  omega
                · conv_rhs => rw [← hFsplit]
                  simp only [List.map_append]
                  exact hgp.append_right _
              have h2 : chain_res tiles (((fg, residue, rcs) :: es2) ++ F4.drop j) =
                  chain_res tiles F4 := by
                rw [chain_res_append, hresP, ← chain_res_append, hFsplit]
              rw [h1, h2]
            -- handle the transported chain through its head
            have hth : valid_chain residue (gf_next3 stp) rcs
                (es2 ++ F4.drop j) := by
              have := valid_chain_cons.mp hvF4
              simpa using this.2
            have hres4 := hheadcase c3 (es2 ++ F4.drop j) hth ?_ ?_
            · have : ((fg, residue, rcs) : MahjongGroupAndResidue) ::
                  (es2 ++ F4.drop j) =
                  ((fg, residue, rcs) :: es2) ++ F4.drop j := by simp
              rw [this, hcomboF4] at hres4
              exact hres4
            · have h5 : (((fg, residue, rcs) :: es2) ++ F4.drop j).length =
                  1 + (es2 ++ F4.drop j).length := by
                simp only [List.length_cons, List.length_append]
                omega
              rw [hlenF4] at h5
              rw [hnext] at htot ⊢
              simp only at htot ⊢
              omega
            · have : chain_scope scope (((fg, residue, rcs) :: es2) ++ F4.drop j) =
                  chain_scope rcs (es2 ++ F4.drop j) := rfl
              rw [this] at hscF4
              exact hscF4
        have hres := ih _ K3 st2 K2
          (fun e2 he2 => hgen e2 (List.mem_cons_of_mem _ he2)) hstinv2 hKc3 hloop
        have hmono := fgar_loop_cache_mono hrec rest _ K3 st2 K2 hloop
        rcases hant with ⟨e2, F3, hF, he2⟩ | hant
        · rcases List.mem_cons.mp he2 with he2 | he2
          · subst he2
            subst hF
            by_cases h0 : merge_group_tuple prev fg ∈ K0
            · left
              refine ⟨[(fg, residue, rcs)], F3, by simp, by simpa using ⟨hv, hlen⟩,
                by simpa using h0, by simpa using hsc, by simp⟩
            · refine hres c2 _ hv hlen hsc (Or.inr ⟨1, by omega, ?_, ?_, ?_⟩)
              · simp only [List.length_cons]
                omega
              · have ht : (((fg, residue, rcs) : MahjongGroupAndResidue) :: F3).take 1 =
                    [(fg, residue, rcs)] := rfl
                rw [ht]
                refine hmono _ ?_
                exact hchild.1 _ (List.mem_cons_self _ _)
              · have ht : (((fg, residue, rcs) : MahjongGroupAndResidue) :: F3).take 1 =
                    [(fg, residue, rcs)] := rfl
                rw [ht]
                exact h0
          · exact hres c2 F hv hlen hsc (Or.inl ⟨e2, F3, hF, he2⟩)
        · exact hres c2 F hv hlen hsc (Or.inr hant)

theorem fgar_loop_cache_mono_base
    {recurse : MahjongTiles → List Constraint → GFCache → MahjongGroups →
      Except GFError (CResult × GFCache)} {prev : MahjongGroups} :
    ∀ (gen : List MahjongGroupAndResidue) (st : GFState) (K : GFCache)
      (st2 : GFState) (K2 : GFCache),
      fgar_loop recurse 0 0 0 prev gen st K = .ok (st2, K2) →
      ∀ m ∈ K, m ∈ K2 := by
  intro gen
  induction gen with
  | nil =>
    intro st K st2 K2 hloop
    rw [fgar_loop] at hloop
    injection hloop with hloop
    injection hloop with h1 h2
    subst h2
    exact fun m hm => hm
  | cons e rest ih =>
    obtain ⟨fg, residue, rcs⟩ := e
    intro st K st2 K2 hloop
    simp only [fgar_loop] at hloop
    split at hloop
    · exact ih st K st2 K2 hloop
    · rw [if_pos (by simp)] at hloop
      intro m hm
      exact ih _ _ st2 K2 hloop m (List.mem_cons_of_mem _ hm)

theorem fgar_loop_complete_base
    {recurse : MahjongTiles → List Constraint → GFCache → MahjongGroups →
      Except GFError (CResult × GFCache)}
    {ns nt np : Nat}
    {tiles : MahjongTiles} {stp : Nat × Nat × Nat} {scope : List Constraint}
    {prev : MahjongGroups} {K0 : GFCache}
    (hz : ns = 0 ∧ nt = 0 ∧ np = 0)
    (hnext : gf_next3 stp = (ns, nt, np)) :
    ∀ (gen : List MahjongGroupAndResidue) (st : GFState) (K : GFCache)
      (st2 : GFState) (K2 : GFCache),
      (∀ e ∈ gen, e ∈ gf_candidates tiles stp scope) →
      (∀ c2 F, valid_chain tiles stp scope F →
        F.length = stp.1 + stp.2.1 + stp.2.2 → c2 ∈ chain_scope scope F →
        (∃ j, 1 ≤ j ∧ j ≤ F.length ∧ chain_state prev (F.take j) ∈ K ∧
          chain_state prev (F.take j) ∉ K0) →
        handled tiles stp scope prev K0 ((st c2).1)
          (2 ≤ stp.1 + stp.2.1 + stp.2.2) c2 (chain_combo tiles F)) →
      fgar_loop recurse ns nt np prev gen st K = .ok (st2, K2) →
      (∀ c2 F, valid_chain tiles stp scope F →
        F.length = stp.1 + stp.2.1 + stp.2.2 → c2 ∈ chain_scope scope F →
        ((∃ e F3, F = e :: F3 ∧ e ∈ gen) ∨
          (∃ j, 1 ≤ j ∧ j ≤ F.length ∧ chain_state prev (F.take j) ∈ K2 ∧
            chain_state prev (F.take j) ∉ K0)) →
        handled tiles stp scope prev K0 ((st2 c2).1)
          (2 ≤ stp.1 + stp.2.1 + stp.2.2) c2 (chain_combo tiles F)) := by
  obtain ⟨hz1, hz2, hz3⟩ := hz
  subst hz1
  subst hz2
  subst hz3
  intro gen
  induction gen with
  | nil =>
    intro st K st2 K2 _ hKc hloop c2 F hv hlen hsc hant
    rw [fgar_loop] at hloop
    injection hloop with hloop
    injection hloop with h1 h2
    subst h1
    subst h2
    rcases hant with ⟨e, F3, _, he⟩ | hant
    · simp at he
    · exact hKc c2 F hv hlen hsc hant
  | cons e rest ih =>
    obtain ⟨fg, residue, rcs⟩ := e
    intro st K st2 K2 hgen hKc hloop c2 F hv hlen hsc hant
    have hmem : (fg, residue, rcs) ∈ gf_candidates tiles stp scope :=
      hgen _ (List.mem_cons_self _ _)
    have hpos : 0 < stp.1 + stp.2.1 + stp.2.2 := gf_candidates_pos hmem
    have htot := gf_next3_total hpos
    have htot1 : stp.1 + stp.2.1 + stp.2.2 = 1 := by
      rw [hnext] at htot
      simp only at htot
      omega
    simp only [fgar_loop] at hloop
    split at hloop
    · -- skip
      rename_i hin
      have hres := ih st K st2 K2
        (fun e2 he2 => hgen e2 (List.mem_cons_of_mem _ he2)) hKc hloop
      rcases hant with ⟨e2, F3, hF, he2⟩ | hant
      · rcases List.mem_cons.mp he2 with he2 | he2
        · subst he2
          subst hF
          by_cases h0 : merge_group_tuple prev fg ∈ K0
          · left
            refine ⟨[(fg, residue, rcs)], F3, by simp, by simpa using ⟨hv, hlen⟩,
              by simpa using h0, by simpa using hsc, by simp⟩
          · have hmono := fgar_loop_cache_mono_base rest st K st2 K2 hloop
            exact hres c2 _ hv hlen hsc (Or.inr ⟨1, by omega,
              by simp only [List.length_cons]; omega,
              by rw [show (((fg, residue, rcs) : MahjongGroupAndResidue) :: F3).take 1 =
                  [(fg, residue, rcs)] from rfl]; exact hmono _ hin,
              by rw [show (((fg, residue, rcs) : MahjongGroupAndResidue) :: F3).take 1 =
                  [(fg, residue, rcs)] from rfl]; exact h0⟩)
        · exact hres c2 F hv hlen hsc (Or.inl ⟨e2, F3, hF, he2⟩)
      · exact hres c2 F hv hlen hsc (Or.inr hant)
    · rename_i hnotin
      rw [if_pos (by simp)] at hloop
      have hKc2 : ∀ c3 F4, valid_chain tiles stp scope F4 →
          F4.length = stp.1 + stp.2.1 + stp.2.2 → c3 ∈ chain_scope scope F4 →
          (∃ j, 1 ≤ j ∧ j ≤ F4.length ∧
            chain_state prev (F4.take j) ∈ (merge_group_tuple prev fg :: K) ∧
            chain_state prev (F4.take j) ∉ K0) →
          handled tiles stp scope prev K0
            ((append_base_case st rcs ([fg], residue) c3).1)
            (2 ≤ stp.1 + stp.2.1 + stp.2.2) c3 (chain_combo tiles F4) := by
        intro c3 F4 hv4 hlen4 hsc4 ⟨j, hj1, hj2, hjin, hjout⟩
        rcases List.mem_cons.mp hjin with hq | hq
        · -- the prefix is the newly appended candidate state
          have hlenq := chain_state_length (F4.take j) prev
          have hlentake : (F4.take j).length = j := by
            rw [List.length_take]
            omega
          have hj : j = 1 := by
            have := congrArg List.length hq
            rw [hlenq, hlentake, merge_group_tuple_length] at this
            omega
          subst hj
          rcases F4 with _ | ⟨headF, F5⟩
          · simp at hlen4
            omega
          · have htake : (headF :: F5).take 1 = [headF] := rfl
            rw [htake] at hq
            have hhead : headF.1 = fg := by
              have hq2 : chain_state prev [headF] = merge_group_tuple prev headF.1 := rfl
              rw [hq2] at hq
              exact merge_group_tuple_inj hq
            rcases valid_chain_cons.mp hv4 with ⟨hmem4, _⟩
            have hentry := gf_candidates_entry hmem4
            have hentry2 := gf_candidates_entry hmem
            have hheadeq : headF = (fg, residue, rcs) := by
              have h1 := hentry.1
              rw [hhead] at h1
              have h2 := hentry2.1
              simp only at h2
              rw [h1, ← h2]
            subst hheadeq
            have hF5 : F5 = [] := by
              simp only [List.length_cons, htot1] at hlen4
              exact List.length_eq_zero.mp (by omega)
            subst hF5
            right; left
            have hcombo : chain_combo tiles [((fg, residue, rcs) : MahjongGroupAndResidue)] =
                ([fg], residue) := rfl
            rw [hcombo]
            refine abc_new rcs st ([fg], residue) c3 ?_
            simpa using hsc4
        · exact preserve_abc_step (hKc c3 F4 hv4 hlen4 hsc4 ⟨j, hj1, hj2, hq, hjout⟩)
      have hres := ih _ (merge_group_tuple prev fg :: K) st2 K2
        (fun e2 he2 => hgen e2 (List.mem_cons_of_mem _ he2)) hKc2 hloop
      rcases hant with ⟨e2, F3, hF, he2⟩ | hant
      · rcases List.mem_cons.mp he2 with he2 | he2
        · subst he2
          subst hF
          by_cases h0 : merge_group_tuple prev fg ∈ K0
          · left
            refine ⟨[(fg, residue, rcs)], F3, by simp, by simpa using ⟨hv, hlen⟩,
              by simpa using h0, by simpa using hsc, by simp⟩
          · refine hres c2 _ hv hlen hsc (Or.inr ⟨1, by omega,
              by simp only [List.length_cons]; omega, ?_, ?_⟩)
            · rw [show (((fg, residue, rcs) : MahjongGroupAndResidue) :: F3).take 1 =
                  [(fg, residue, rcs)] from rfl]
              have hmono := fgar_loop_cache_mono_base rest _ _ st2 K2 hloop
              exact hmono _ (List.mem_cons_self _ _)
            · rw [show (((fg, residue, rcs) : MahjongGroupAndResidue) :: F3).take 1 =
                  [(fg, residue, rcs)] from rfl]
              exact h0
        · exact hres c2 F hv hlen hsc (Or.inl ⟨e2, F3, hF, he2⟩)
      · exact hres c2 F hv hlen hsc (Or.inr hant)

theorem gf_next3_iterate_congr {stp : Nat × Nat × Nat} {n₁ n₂ : Nat}
    (h : n₁ = n₂) : gf_next3^[n₁] stp = gf_next3^[n₂] stp := by
  rw [h]

theorem ced_determined {es₁ es₂ : List MahjongGroupAndResidue}
    {tiles : MahjongTiles} {stp : Nat × Nat × Nat} {scope : List Constraint}
    {fuel : Nat}
    (h₁ : valid_chain tiles stp scope es₁) (h₂ : valid_chain tiles stp scope es₂)
    (hp : List.Perm (es₁.map (·.1)) (es₂.map (·.1))) :
    chain_end_danger fuel tiles stp scope es₁ ↔
      chain_end_danger fuel tiles stp scope es₂ := by
  rw [chain_end_danger_eq, chain_end_danger_eq]
  have hlen : es₁.length = es₂.length := by
    have := hp.length_eq
    simpa using this
  rw [chain_res_determined h₁ h₂ hp, chain_scope_determined h₁ h₂ hp, hlen]

theorem fgar_loop_base_ok
    {recurse : MahjongTiles → List Constraint → GFCache → MahjongGroups →
      Except GFError (CResult × GFCache)} {prev : MahjongGroups} :
    ∀ (gen : List MahjongGroupAndResidue) (st : GFState) (K : GFCache),
      ∃ st2 K2, fgar_loop recurse 0 0 0 prev gen st K = .ok (st2, K2) := by
  intro gen
  induction gen with
  | nil =>
    intro st K
    exact ⟨st, K, rfl⟩
  | cons e rest ih =>
    obtain ⟨fg, residue, rcs⟩ := e
    intro st K
    rw [fgar_loop]
    split
    · exact ih st K
    · rw [if_pos ⟨rfl, rfl, rfl⟩]
      exact ih _ _

theorem fgar_loop_cons_eq
    {recurse : MahjongTiles → List Constraint → GFCache → MahjongGroups →
      Except GFError (CResult × GFCache)}
    {ns nt np : Nat} {prev : MahjongGroups} {fg : MahjongGroup}
    {residue : MahjongTiles} {rcs : List Constraint}
    {rest : List MahjongGroupAndResidue} {st : GFState} {K : GFCache} :
    fgar_loop recurse ns nt np prev ((fg, residue, rcs) :: rest) st K =
      if merge_group_tuple prev fg ∈ K then
        fgar_loop recurse ns nt np prev rest st K
      else if ns = 0 ∧ nt = 0 ∧ np = 0 then
        fgar_loop recurse ns nt np prev rest
          (append_base_case st rcs ([fg], residue)) (merge_group_tuple prev fg :: K)
      else
        match recurse residue rcs (merge_group_tuple prev fg :: K)
            (merge_group_tuple prev fg) with
        | .error e => .error e
        | .ok (r, K3) =>
          fgar_loop recurse ns nt np prev rest
            (merge_recursive_results st r fg) K3 := rfl

theorem fgar_loop_error_rec
    {recurse : MahjongTiles → List Constraint → GFCache → MahjongGroups →
      Except GFError (CResult × GFCache)}
    {ns nt np fuelc : Nat}
    {tiles : MahjongTiles} {stp : Nat × Nat × Nat} {scope : List Constraint}
    {prev : MahjongGroups}
    (hrec : recurse_post fuelc (ns, nt, np) recurse)
    (hnext : gf_next3 stp = (ns, nt, np))
    (hnz : ¬ (ns = 0 ∧ nt = 0 ∧ np = 0)) :
    ∀ (gen : List MahjongGroupAndResidue) (st : GFState) (K : GFCache),
      (∀ e ∈ gen, e ∈ gf_candidates tiles stp scope) →
      cache_safe (fuelc + 1) tiles stp scope prev K →
      (((∃ e ∈ gen, gf_danger fuelc e.2.1 (gf_next3 stp) e.2.2) →
        fgar_loop recurse ns nt np prev gen st K = .error .notEnoughTiles) ∧
       (∀ err, fgar_loop recurse ns nt np prev gen st K = .error err →
         err = GFError.notEnoughTiles ∧
           ∃ e ∈ gen, gf_danger fuelc e.2.1 (gf_next3 stp) e.2.2) ∧
       (∀ st2 K2, fgar_loop recurse ns nt np prev gen st K = .ok (st2, K2) →
         cache_safe (fuelc + 1) tiles stp scope prev K2)) := by
  intro gen
  induction gen with
  | nil =>
    intro st K _ hsafe
    refine ⟨?_, ?_, ?_⟩
    · intro hd
      simp at hd
    · intro err herr
      rw [fgar_loop] at herr
      cases herr
    · intro st2 K2 hloop
      rw [fgar_loop] at hloop
      injection hloop with hloop
      injection hloop with h1 h2
      subst h2
      exact hsafe
  | cons e rest ih =>
    obtain ⟨fg, residue, rcs⟩ := e
    intro st K hgen hsafe
    have hmem : (fg, residue, rcs) ∈ gf_candidates tiles stp scope :=
      hgen _ (List.mem_cons_self _ _)
    have hced1 : chain_end_danger (fuelc + 1) tiles stp scope
        [((fg, residue, rcs) : MahjongGroupAndResidue)] =
        gf_danger fuelc residue (gf_next3 stp) rcs := rfl
    by_cases hin : merge_group_tuple prev fg ∈ K
    · have hskip : fgar_loop recurse ns nt np prev
          ((fg, residue, rcs) :: rest) st K =
          fgar_loop recurse ns nt np prev rest st K := by
        rw [fgar_loop_cons_eq, if_pos hin]
      have hnd : ¬ gf_danger fuelc residue (gf_next3 stp) rcs := by
        have h1 := hsafe [(fg, residue, rcs)]
          (valid_chain_cons.mpr ⟨hmem, trivial⟩) (by simp)
          (by rw [show chain_state prev [((fg, residue, rcs) : MahjongGroupAndResidue)] =
            merge_group_tuple prev fg from rfl]; exact hin)
        rw [hced1] at h1
        exact h1
      have hres := ih st K (fun e2 he2 => hgen e2 (List.mem_cons_of_mem _ he2)) hsafe
      refine ⟨?_, ?_, ?_⟩
      · intro hd
        rcases hd with ⟨e2, he2, hde2⟩
        rcases List.mem_cons.mp he2 with he2 | he2
        · exfalso
          apply hnd
          rw [he2] at hde2
          exact hde2
        · rw [hskip]
          exact hres.1 ⟨e2, he2, hde2⟩
      · intro err herr
        rw [hskip] at herr
        rcases hres.2.1 err herr with ⟨he, e2, hmem2, hd2⟩
        exact ⟨he, e2, List.mem_cons_of_mem _ hmem2, hd2⟩
      · intro st2 K2 hloop
        rw [hskip] at hloop
        exact hres.2.2 st2 K2 hloop
    · have hchsafe : cache_safe fuelc residue (ns, nt, np) rcs
          (merge_group_tuple prev fg) (merge_group_tuple prev fg :: K) := by
        intro es2 hv2 hne2 hin2
        rcases List.mem_cons.mp hin2 with h | h
        · exfalso
          have hl := chain_state_length es2 (merge_group_tuple prev fg)
          have h2 := congrArg List.length h
          rw [hl] at h2
          have h3 : es2.length = 0 := by omega
          exact hne2 (List.length_eq_zero.mp h3)
        · have hv3 : valid_chain tiles stp scope ((fg, residue, rcs) :: es2) :=
            valid_chain_cons.mpr ⟨hmem, by rw [hnext]; exact hv2⟩
          have hns := hsafe ((fg, residue, rcs) :: es2) hv3 (by simp)
            (by rw [chain_state_cons]; exact h)
          intro hced
          apply hns
          show chain_end_danger fuelc residue (gf_next3 stp) rcs es2
          rw [hnext]
          exact hced
      have hchild := hrec residue rcs (merge_group_tuple prev fg :: K)
        (merge_group_tuple prev fg)
      rcases hr : recurse residue rcs (merge_group_tuple prev fg :: K)
          (merge_group_tuple prev fg) with err | rK
      · have hF3 := (hchild.2 hchsafe).2 err hr
        have hloopeq : fgar_loop recurse ns nt np prev
            ((fg, residue, rcs) :: rest) st K = .error err := by
          rw [fgar_loop_cons_eq, if_neg hin, if_neg hnz, hr]
        refine ⟨?_, ?_, ?_⟩
        · intro _
          rw [hloopeq, hF3.1]
        · intro err2 herr2
          rw [hloopeq] at herr2
          injection herr2 with herr2
          subst herr2
          refine ⟨hF3.1, (fg, residue, rcs), List.mem_cons_self _ _, ?_⟩
          rw [← hnext] at hF3
          exact hF3.2
        · intro st2 K2 hloop
          rw [hloopeq] at hloop
          cases hloop
      · obtain ⟨r, K3⟩ := rK
        have hok := hchild.1 r K3 hr
        have hnd : ¬ gf_danger fuelc residue (gf_next3 stp) rcs := by
          intro hd
          have := (hchild.2 hchsafe).1 (by rw [hnext] at hd; exact hd)
          rw [hr] at this
          cases this
        have hloopeq : fgar_loop recurse ns nt np prev
            ((fg, residue, rcs) :: rest) st K =
            fgar_loop recurse ns nt np prev rest
              (merge_recursive_results st r fg) K3 := by
          rw [fgar_loop_cons_eq, if_neg hin, if_neg hnz, hr]
        have hsafe3 : cache_safe (fuelc + 1) tiles stp scope prev K3 := by
          intro es hv hne hin3
          by_cases hes : chain_state prev es ∈ (merge_group_tuple prev fg :: K)
          · rcases List.mem_cons.mp hes with h | h
            · -- the state is the processed candidate's own state
              have hl := chain_state_length es prev
              have h2 := congrArg List.length h
              rw [hl, merge_group_tuple_length] at h2
              have h3 : es.length = 1 := by omega
              rcases es with _ | ⟨headF, es4⟩
              · simp at h3
              · have h4 : es4 = [] := by
                  simp at h3
                  exact h3
                subst h4
                have hq2 : chain_state prev [headF] =
                    merge_group_tuple prev headF.1 := rfl
                rw [hq2] at h
                have hhead : headF.1 = fg := merge_group_tuple_inj h
                rcases valid_chain_cons.mp hv with ⟨hmem4, _⟩
                have hentry := gf_candidates_entry hmem4
                have hentry2 := gf_candidates_entry hmem
                have hheadeq : headF = (fg, residue, rcs) := by
                  have h5 := hentry.1
                  rw [hhead] at h5
                  have h6 := hentry2.1
                  simp only at h6
                  rw [h5, ← h6]
                subst hheadeq
                rw [hced1]
                exact hnd
            · exact hsafe es hv hne h
          · -- added inside the child: transported through its witness chain
            rcases hok.2.1 _ hin3 hes with ⟨es2, hves2, hes2ne, hstate2⟩
            have hnced2 := hok.2.2.2.2 hchsafe es2 hves2 hes2ne
              (by rw [hstate2] at hin3; exact hin3)
              (by rw [hstate2] at hes; exact hes)
            have hv3 : valid_chain tiles stp scope ((fg, residue, rcs) :: es2) :=
              valid_chain_cons.mpr ⟨hmem, by rw [hnext]; exact hves2⟩
            have hEes : chain_state prev ((fg, residue, rcs) :: es2) =
                chain_state prev es := by
              rw [chain_state_cons]
              exact hstate2.symm
            have hgp := state_eq_groups_perm hEes
            have hiff := @ced_determined _ _ _ _ _ (fuelc + 1) hv3 hv hgp
            intro hced
            apply hnced2
            have hced2 := hiff.mpr hced
            show chain_end_danger fuelc residue (ns, nt, np) rcs es2
            rw [← hnext]
            exact hced2
        have hres := ih (merge_recursive_results st r fg) K3
          (fun e2 he2 => hgen e2 (List.mem_cons_of_mem _ he2)) hsafe3
        refine ⟨?_, ?_, ?_⟩
        · intro hd
          rcases hd with ⟨e2, he2, hde2⟩
          rcases List.mem_cons.mp he2 with he2 | he2
          · exfalso
            apply hnd
            rw [he2] at hde2
            exact hde2
          · rw [hloopeq]
            exact hres.1 ⟨e2, he2, hde2⟩
        · intro err2 herr2
          rw [hloopeq] at herr2
          rcases hres.2.1 err2 herr2 with ⟨he, e2, hmem2, hd2⟩
          exact ⟨he, e2, List.mem_cons_of_mem _ hmem2, hd2⟩
        · intro st2 K2 hloop
          rw [hloopeq] at hloop
          exact hres.2.2 st2 K2 hloop

theorem main_post_to_recurse_post {fuel : Nat} (h : main_post fuel)
    (stpc : Nat × Nat × Nat) :
    stpc.1 + stpc.2.1 + stpc.2.2 ≤ fuel →
    recurse_post fuel stpc
      (fun ti cs ca pr =>
        find_all_groups_for_fuel fuel ti stpc.1 stpc.2.1 stpc.2.2 cs ca pr) := by
  intro hle ti cs ca pr
  exact h ti stpc cs ca pr hle

theorem gf_danger_zero : ∀ (fuel : Nat) (ti : MahjongTiles) (cs : List Constraint),
    ¬ gf_danger fuel ti (0, 0, 0) cs := by
  intro fuel ti cs hd
  cases fuel with
  | zero =>
    rw [gf_danger] at hd
    simp at hd
  | succ f =>
    rw [gf_danger] at hd
    rcases hd with hd | ⟨e, he, _⟩
    · simp at hd
    · rw [show gf_candidates ti (0, 0, 0) cs = [] from rfl] at he
      simp at he

theorem gf_next3_zero : gf_next3 (0, 0, 0) = (0, 0, 0) := rfl

theorem ced_zero {fuel : Nat} {tiles : MahjongTiles} {stp : Nat × Nat × Nat}
    {scope : List Constraint} {es : List MahjongGroupAndResidue}
    (hz : gf_next3 stp = (0, 0, 0)) (hne : es ≠ []) :
    ¬ chain_end_danger fuel tiles stp scope es := by
  rcases es with _ | ⟨e, rest⟩
  · exact absurd rfl hne
  · intro hd
    have h1 : chain_end_danger fuel tiles stp scope (e :: rest) =
        chain_end_danger (fuel - 1) e.2.1 (gf_next3 stp) e.2.2 rest := rfl
    rw [h1, hz, chain_end_danger_eq] at hd
    rw [Function.iterate_fixed gf_next3_zero] at hd
    exact gf_danger_zero _ _ _ hd

theorem st0_bucket_inv : ∀ c : Constraint,
    bucket_inv (((fun _ => ([], 14)) : GFState) c).1
      (((fun _ => ([], 14)) : GFState) c).2 := by
  intro c
  refine ⟨?_, Nat.le_refl 14, fun _ => rfl⟩
  intro x hx
  exact absurd hx (List.not_mem_nil x)

theorem fagf_dispatch
    {fuel : Nat} {tiles : MahjongTiles} {stp : Nat × Nat × Nat}
    {scope : List Constraint} {K0 : GFCache} {prev : MahjongGroups}
    {ns nt np : Nat}
    {recurse : MahjongTiles → List Constraint → GFCache → MahjongGroups →
      Except GFError (CResult × GFCache)}
    (hnext : gf_next3 stp = (ns, nt, np))
    (hrp : recurse_post fuel (ns, nt, np) recurse) :
    ((∀ r K2, find_group_and_recurse recurse (gf_candidates tiles stp scope)
        ns nt np K0 prev = .ok (r, K2) →
      ((∀ m ∈ K0, m ∈ K2) ∧
       (∀ m ∈ K2, m ∉ K0 → ∃ es, valid_chain tiles stp scope es ∧ es ≠ [] ∧
         m = chain_state prev es) ∧
       (∀ c x, x ∈ r c → ∃ es, valid_chain tiles stp scope es ∧ es ≠ [] ∧
         es.length = stp.1 + stp.2.1 + stp.2.2 ∧ c ∈ chain_scope scope es ∧
         x = chain_combo tiles es) ∧
       (∀ c es, valid_chain tiles stp scope es →
         es.length = stp.1 + stp.2.1 + stp.2.2 → es ≠ [] →
         c ∈ chain_scope scope es →
         handled tiles stp scope prev K0 (r c) (2 ≤ stp.1 + stp.2.1 + stp.2.2) c
           (chain_combo tiles es)) ∧
       (cache_safe (fuel + 1) tiles stp scope prev K0 →
         ∀ es, valid_chain tiles stp scope es → es ≠ [] →
           chain_state prev es ∈ K2 → chain_state prev es ∉ K0 →
           ¬ chain_end_danger (fuel + 1) tiles stp scope es))) ∧
     (cache_safe (fuel + 1) tiles stp scope prev K0 →
      (((∃ e ∈ gf_candidates tiles stp scope,
          gf_danger fuel e.2.1 (gf_next3 stp) e.2.2) →
        find_group_and_recurse recurse (gf_candidates tiles stp scope)
          ns nt np K0 prev = .error .notEnoughTiles) ∧
       (∀ err, find_group_and_recurse recurse (gf_candidates tiles stp scope)
          ns nt np K0 prev = .error err →
         err = GFError.notEnoughTiles ∧
           ∃ e ∈ gf_candidates tiles stp scope,
             gf_danger fuel e.2.1 (gf_next3 stp) e.2.2)))) := by
  have hKw0 : ∀ m ∈ K0, m ∉ K0 → ∃ es, valid_chain tiles stp scope es ∧ es ≠ [] ∧
      m = chain_state prev es := fun m hm hm0 => absurd hm hm0
  have hKc0 : ∀ c F, valid_chain tiles stp scope F →
      F.length = stp.1 + stp.2.1 + stp.2.2 → c ∈ chain_scope scope F →
      (∃ j, 1 ≤ j ∧ j ≤ F.length ∧ chain_state prev (F.take j) ∈ K0 ∧
        chain_state prev (F.take j) ∉ K0) →
      handled tiles stp scope prev K0
        ((((fun _ => ([], 14)) : GFState) c).1)
        (2 ≤ stp.1 + stp.2.1 + stp.2.2) c (chain_combo tiles F) := by
    intro c F _ _ _ hj
    rcases hj with ⟨j, _, _, hin, hout⟩
    exact absurd hin hout
  constructor
  · intro r K2 hcall
    unfold find_group_and_recurse at hcall
    rcases hlp : fgar_loop recurse ns nt np prev (gf_candidates tiles stp scope)
        (fun _ => ([], 14)) K0 with e2 | stK
    · rw [hlp] at hcall
      cases hcall
    · obtain ⟨stf, Kf⟩ := stK
      rw [hlp] at hcall
      injection hcall with hcall
      injection hcall with hr hK
      rw [hK] at hlp
      have hcache := fgar_loop_cache hrp hnext (gf_candidates tiles stp scope)
        (fun _ => ([], 14)) K0 stf K2 (fun e2 he2 => he2) hKw0 hlp
      refine ⟨hcache.1, hcache.2, ?_, ?_, ?_⟩
      · intro c x hx
        have hx2 : x ∈ (stf c).1 := by
          rw [← hr] at hx
          exact hx
        rcases fgar_loop_sound hrp hnext (gf_candidates tiles stp scope)
            (fun _ => ([], 14)) K0 stf K2 (fun e2 he2 => he2) hlp c x hx2 with h | h
        · simp at h
        · exact h
      · intro c es hv hlen hne hsc
        have hhd : handled tiles stp scope prev K0 ((stf c).1)
            (2 ≤ stp.1 + stp.2.1 + stp.2.2) c (chain_combo tiles es) := by
          have hant : (∃ e F3, es = e :: F3 ∧ e ∈ gf_candidates tiles stp scope) ∨
              (∃ j, 1 ≤ j ∧ j ≤ es.length ∧
                chain_state prev (es.take j) ∈ K2 ∧
                chain_state prev (es.take j) ∉ K0) := by
            left
            rcases es with _ | ⟨e, es3⟩
            · exact absurd rfl hne
            · exact ⟨e, es3, rfl, (valid_chain_cons.mp hv).1⟩
          by_cases hz : ns = 0 ∧ nt = 0 ∧ np = 0
          · exact fgar_loop_complete_base hz hnext (gf_candidates tiles stp scope)
              (fun _ => ([], 14)) K0 stf K2 (fun e2 he2 => he2) hKc0 hlp
              c es hv hlen hsc hant
          · exact fgar_loop_complete_rec hrp hnext hz (gf_candidates tiles stp scope)
              (fun _ => ([], 14)) K0 stf K2 (fun e2 he2 => he2) st0_bucket_inv
              hKc0 hlp c es hv hlen hsc hant
        rw [← hr]
        exact hhd
      · intro hsafe es hv hne hin2 hout2
        by_cases hz : ns = 0 ∧ nt = 0 ∧ np = 0
        · refine ced_zero ?_ hne
          rw [hnext, hz.1, hz.2.1, hz.2.2]
        · have herr := fgar_loop_error_rec hrp hnext hz
            (gf_candidates tiles stp scope) (fun _ => ([], 14)) K0
            (fun e2 he2 => he2) hsafe
          exact herr.2.2 stf K2 hlp es hv hne hin2
  · intro hsafe
    by_cases hz : ns = 0 ∧ nt = 0 ∧ np = 0
    · obtain ⟨hz1, hz2, hz3⟩ := hz
      subst hz1
      subst hz2
      subst hz3
      constructor
      · intro hd
        exfalso
        rcases hd with ⟨e, he, hde⟩
        rw [hnext] at hde
        exact gf_danger_zero fuel e.2.1 e.2.2 hde
      · intro err herr
        exfalso
        unfold find_group_and_recurse at herr
        rcases @fgar_loop_base_ok recurse prev
            (gf_candidates tiles stp scope) (fun _ => ([], 14)) K0 with ⟨st2, K2, hok⟩
        rw [hok] at herr
        cases herr
    · have herr := fgar_loop_error_rec hrp hnext hz
        (gf_candidates tiles stp scope) (fun _ => ([], 14)) K0
        (fun e2 he2 => he2) hsafe
      constructor
      · intro hd
        unfold find_group_and_recurse
        rw [herr.1 hd]
      · intro err herr2
        unfold find_group_and_recurse at herr2
        rcases hlp : fgar_loop recurse ns nt np prev (gf_candidates tiles stp scope)
            (fun _ => ([], 14)) K0 with e2 | stK
        · rw [hlp] at herr2
          injection herr2 with herr2
          subst herr2
          exact herr.2.1 e2 hlp
        · obtain ⟨stf, Kf⟩ := stK
          rw [hlp] at herr2
          cases herr2

theorem fagf_zero_after_checks {tiles : MahjongTiles} {scope : List Constraint}
    {K0 : GFCache} {prev : MahjongGroups} {fuel : Nat} :
    find_all_groups_for_fuel fuel tiles 0 0 0 scope K0 prev =
      .ok (fun _ => [], K0) := by
  cases fuel with
  | zero =>
    rw [find_all_groups_for_fuel]
    rw [if_neg (by omega), if_neg (by simp)]
  | succ f =>
    rw [find_all_groups_for_fuel]
    rw [if_neg (by omega), if_neg (by omega), if_neg (by omega), if_neg (by omega)]

theorem main_post_zero_counts {tiles : MahjongTiles} {scope : List Constraint}
    {K0 : GFCache} {prev : MahjongGroups} {fuel : Nat} :
    ((∀ r K2, find_all_groups_for_fuel fuel tiles 0 0 0 scope K0 prev
        = .ok (r, K2) →
      ((∀ m ∈ K0, m ∈ K2) ∧
       (∀ m ∈ K2, m ∉ K0 → ∃ es, valid_chain tiles (0, 0, 0) scope es ∧ es ≠ [] ∧
         m = chain_state prev es) ∧
       (∀ c x, x ∈ r c → ∃ es, valid_chain tiles (0, 0, 0) scope es ∧ es ≠ [] ∧
         es.length = 0 ∧ c ∈ chain_scope scope es ∧
         x = chain_combo tiles es) ∧
       (∀ c es, valid_chain tiles (0, 0, 0) scope es →
         es.length = 0 → es ≠ [] → c ∈ chain_scope scope es →
         handled tiles (0, 0, 0) scope prev K0 (r c) (2 ≤ 0) c
           (chain_combo tiles es)) ∧
       (cache_safe fuel tiles (0, 0, 0) scope prev K0 →
         ∀ es, valid_chain tiles (0, 0, 0) scope es → es ≠ [] →
           chain_state prev es ∈ K2 → chain_state prev es ∉ K0 →
           ¬ chain_end_danger fuel tiles (0, 0, 0) scope es))) ∧
     (cache_safe fuel tiles (0, 0, 0) scope prev K0 →
      ((gf_danger fuel tiles (0, 0, 0) scope →
        find_all_groups_for_fuel fuel tiles 0 0 0 scope K0 prev =
          .error .notEnoughTiles) ∧
       (∀ err, find_all_groups_for_fuel fuel tiles 0 0 0 scope K0 prev
          = .error err → err = GFError.notEnoughTiles ∧
            gf_danger fuel tiles (0, 0, 0) scope)))) := by
  constructor
  · intro r K2 hcall
    rw [fagf_zero_after_checks] at hcall
    injection hcall with hcall
    injection hcall with hr hK
    refine ⟨?_, ?_, ?_, ?_, ?_⟩
    · intro m hm
      rw [← hK]
      exact hm
    · intro m hm hm0
      rw [← hK] at hm
      exact absurd hm hm0
    · intro c x hx
      rw [← hr] at hx
      exact absurd hx (List.not_mem_nil x)
    · intro c es _ hlen hne _
      exact absurd (List.length_eq_zero.mp hlen) hne
    · intro _ es _ hne hin hout
      rw [← hK] at hin
      exact absurd hin hout
  · intro _
    constructor
    · intro hd
      exact absurd hd (gf_danger_zero fuel tiles scope)
    · intro err herr
      rw [fagf_zero_after_checks] at herr
      cases herr

theorem fagf_main : ∀ fuel : Nat, main_post fuel := by
  intro fuel
  induction fuel with
  | zero =>
    intro tiles stp scope K0 prev hle
    obtain ⟨s, t, p⟩ := stp
    simp only at hle
    have hs : s = 0 := by omega
    have ht : t = 0 := by omega
    have hp : p = 0 := by omega
    subst hs
    subst ht
    subst hp
    exact main_post_zero_counts
  | succ fuel ihf =>
    intro tiles stp scope K0 prev hle
    obtain ⟨s, t, p⟩ := stp
    simp only at hle
    by_cases hl : tiles.length + 1 < 3 * (s + t) + 2 * p
    · have herr : find_all_groups_for_fuel (fuel + 1) tiles s t p scope K0 prev =
          .error .notEnoughTiles := by
        rw [find_all_groups_for_fuel, if_pos hl]
      constructor
      · intro r K2 hcall
        rw [herr] at hcall
        cases hcall
      · intro _
        constructor
        · intro _
          exact herr
        · intro err herr2
          rw [herr] at herr2
          injection herr2 with herr2
          subst herr2
          exact ⟨rfl, Or.inl hl⟩
    · by_cases hp : 0 < p
      · -- pair dispatch
        have hnext : gf_next3 (s, t, p) = (s, t, p - 1) := by
          rw [gf_next3, if_pos hp]
        have hrp := main_post_to_recurse_post ihf (s, t, p - 1)
          (by simp only; omega)
        have hgc : gf_candidates tiles (s, t, p) scope = find_pair tiles scope := by
          rw [gf_candidates, if_pos hp]
        have hcalleq : find_all_groups_for_fuel (fuel + 1) tiles s t p scope K0 prev =
            find_group_and_recurse
              (fun ti cs ca pr =>
                find_all_groups_for_fuel fuel ti s t (p - 1) cs ca pr)
              (find_pair tiles scope) s t (p - 1) K0 prev := by
          rw [find_all_groups_for_fuel, if_neg hl, if_pos hp]
        have hd := @fagf_dispatch _ tiles _ scope K0 prev _ _ _ _ hnext hrp
        constructor
        · intro r K2 hcall
          rw [hcalleq] at hcall
          exact hd.1 r K2 (by rw [hgc]; exact hcall)
        · intro hsafe
          have hF := hd.2 hsafe
          constructor
          · intro hdgr
            rw [gf_danger] at hdgr
            rcases hdgr with hdgr | hdgr
            · exact absurd hdgr hl
            · rw [hcalleq]
              have := hF.1 hdgr
              rw [hgc] at this
              exact this
          · intro err herr2
            rw [hcalleq] at herr2
            rcases hF.2 err (by rw [hgc]; exact herr2) with ⟨he, hex⟩
            refine ⟨he, ?_⟩
            rw [gf_danger]
            right
            rw [hgc] at hex
            rw [hgc]
            exact hex
      · by_cases hs : 0 < s
        · -- sequence dispatch
          have hnext : gf_next3 (s, t, p) = (s - 1, t, p) := by
            rw [gf_next3, if_neg hp, if_pos hs]
          have hrp := main_post_to_recurse_post ihf (s - 1, t, p)
            (by simp only; omega)
          have hgc : gf_candidates tiles (s, t, p) scope =
              find_sequences tiles scope := by
            rw [gf_candidates, if_neg hp, if_pos hs]
          have hcalleq : find_all_groups_for_fuel (fuel + 1) tiles s t p scope K0 prev =
              find_group_and_recurse
                (fun ti cs ca pr =>
                  find_all_groups_for_fuel fuel ti (s - 1) t p cs ca pr)
                (find_sequences tiles scope) (s - 1) t p K0 prev := by
            rw [find_all_groups_for_fuel, if_neg hl, if_neg (by omega), if_pos hs]
          have hd := @fagf_dispatch _ tiles _ scope K0 prev _ _ _ _ hnext hrp
          constructor
          · intro r K2 hcall
            rw [hcalleq] at hcall
            exact hd.1 r K2 (by rw [hgc]; exact hcall)
          · intro hsafe
            have hF := hd.2 hsafe
            constructor
            · intro hdgr
              rw [gf_danger] at hdgr
              rcases hdgr with hdgr | hdgr
              · exact absurd hdgr hl
              · rw [hcalleq]
                have := hF.1 hdgr
                rw [hgc] at this
                exact this
            · intro err herr2
              rw [hcalleq] at herr2
              rcases hF.2 err (by rw [hgc]; exact herr2) with ⟨he, hex⟩
              refine ⟨he, ?_⟩
              rw [gf_danger]
              right
              rw [hgc] at hex
              rw [hgc]
              exact hex
        · by_cases ht : 0 < t
          · -- triplet dispatch
            have hnext : gf_next3 (s, t, p) = (s, t - 1, p) := by
              rw [gf_next3, if_neg hp, if_neg hs]
            have hrp := main_post_to_recurse_post ihf (s, t - 1, p)
              (by simp only; omega)
            have hgc : gf_candidates tiles (s, t, p) scope =
                find_three_of_a_kind tiles scope := by
              rw [gf_candidates, if_neg hp, if_neg hs, if_pos ht]
            have hcalleq : find_all_groups_for_fuel (fuel + 1) tiles s t p scope
                K0 prev =
                find_group_and_recurse
                  (fun ti cs ca pr =>
                    find_all_groups_for_fuel fuel ti s (t - 1) p cs ca pr)
                  (find_three_of_a_kind tiles scope) s (t - 1) p K0 prev := by
              rw [find_all_groups_for_fuel, if_neg hl, if_neg (by omega),
                if_neg (by omega), if_pos ht]
            have hd := @fagf_dispatch _ tiles _ scope K0 prev _ _ _ _ hnext hrp
            constructor
            · intro r K2 hcall
              rw [hcalleq] at hcall
              exact hd.1 r K2 (by rw [hgc]; exact hcall)
            · intro hsafe
              have hF := hd.2 hsafe
              constructor
              · intro hdgr
                rw [gf_danger] at hdgr
                rcases hdgr with hdgr | hdgr
                · exact absurd hdgr hl
                · rw [hcalleq]
                  have := hF.1 hdgr
                  rw [hgc] at this
                  exact this
              · intro err herr2
                rw [hcalleq] at herr2
                rcases hF.2 err (by rw [hgc]; exact herr2) with ⟨he, hex⟩
                refine ⟨he, ?_⟩
                rw [gf_danger]
                right
                rw [hgc] at hex
                rw [hgc]
                exact hex
          · have hs0 : s = 0 := by omega
            have ht0 : t = 0 := by omega
            have hp0 : p = 0 := by omega
            subst hs0
            subst ht0
            subst hp0
            exact main_post_zero_counts

theorem e_handled_merge_step {st : GFState} {r : CResult} {fg : MahjongGroup}
    {c : Constraint} {x : MahjongCombination} {guard : Prop}
    (hstinv : ∀ c2, bucket_inv (st c2).1 (st c2).2) (hg : guard)
    (hh : e_handled ((st c).1) guard x) :
    e_handled ((merge_recursive_results st r fg c).1) guard x := by
  have hb := hstinv c
  rcases hh with hin | ⟨_, hdom | h14⟩
  · rcases pc_preserve fg (r c) (st c).1 (st c).2 x hb (Or.inl hin) with h | h
    · exact Or.inl h
    · exact Or.inr ⟨hg, Or.inl h⟩
  · rcases hdom with ⟨y, hy, hlt⟩
    have hbne : (st c).1 ≠ [] := by
      intro hnil
      rw [hnil] at hy
      simp at hy
    have hsm : (st c).2 < x.2.length := by
      have := hb.1 y hy
      omega
    exact Or.inr ⟨hg, Or.inl (pc_dominates fg (r c) (st c).1 (st c).2 x.2.length hb
      hbne hsm)⟩
  · exact Or.inr ⟨hg, Or.inr h14⟩

theorem e_handled_abc_step {st : GFState} {rcs : List Constraint}
    {entry : MahjongCombination} {c : Constraint} {x : MahjongCombination}
    {guard : Prop} (hh : e_handled ((st c).1) guard x) :
    e_handled ((append_base_case st rcs entry c).1) guard x := by
  rcases hh with hin | ⟨hg, hdom | h14⟩
  · exact Or.inl (abc_preserve rcs st entry c x hin)
  · rcases hdom with ⟨y, hy, hlt⟩
    exact Or.inr ⟨hg, Or.inl ⟨y, abc_preserve rcs st entry c y hy, hlt⟩⟩
  · exact Or.inr ⟨hg, Or.inr h14⟩

theorem exh_loop_cons_eq
    {recurse : MahjongTiles → List Constraint → Except GFError CResult}
    {ns nt np : Nat} {fg : MahjongGroup}
    {residue : MahjongTiles} {rcs : List Constraint}
    {rest : List MahjongGroupAndResidue} {st : GFState} :
    exhaustive_fgar_loop recurse ns nt np ((fg, residue, rcs) :: rest) st =
      if ns = 0 ∧ nt = 0 ∧ np = 0 then
        exhaustive_fgar_loop recurse ns nt np rest
          (append_base_case st rcs ([fg], residue))
      else
        match recurse residue rcs with
        | .error e => .error e
        | .ok r =>
          exhaustive_fgar_loop recurse ns nt np rest
            (merge_recursive_results st r fg) := rfl

theorem exh_loop_sound
    {recurse : MahjongTiles → List Constraint → Except GFError CResult}
    {ns nt np fuelc : Nat}
    {tiles : MahjongTiles} {stp : Nat × Nat × Nat} {scope : List Constraint}
    (hrec : exh_recurse_post fuelc (ns, nt, np) recurse)
    (hnext : gf_next3 stp = (ns, nt, np)) :
    ∀ (gen : List MahjongGroupAndResidue) (st : GFState) (st2 : GFState),
      (∀ e ∈ gen, e ∈ gf_candidates tiles stp scope) →
      exhaustive_fgar_loop recurse ns nt np gen st = .ok st2 →
      ∀ c x, x ∈ (st2 c).1 → x ∈ (st c).1 ∨
        ∃ es, valid_chain tiles stp scope es ∧ es ≠ [] ∧
          es.length = stp.1 + stp.2.1 + stp.2.2 ∧ c ∈ chain_scope scope es ∧
          x = chain_combo tiles es := by
  intro gen
  induction gen with
  | nil =>
    intro st st2 _ hloop c x hx
    rw [exhaustive_fgar_loop] at hloop
    injection hloop with h1
    subst h1
    exact Or.inl hx
  | cons e rest ih =>
    obtain ⟨fg, residue, rcs⟩ := e
    intro st st2 hgen hloop c x hx
    have hmem : (fg, residue, rcs) ∈ gf_candidates tiles stp scope :=
      hgen _ (List.mem_cons_self _ _)
    have hpos : 0 < stp.1 + stp.2.1 + stp.2.2 := gf_candidates_pos hmem
    rw [exh_loop_cons_eq] at hloop
    split at hloop
    · rename_i hz
      obtain ⟨hz1, hz2, hz3⟩ := hz
      have htot : stp.1 + stp.2.1 + stp.2.2 = 1 := by
        have h1 := gf_next3_total hpos
        rw [hnext, hz1, hz2, hz3] at h1
        simp at h1
        omega
      rcases ih _ st2 (fun e2 he2 => hgen e2 (List.mem_cons_of_mem _ he2))
          hloop c x hx with h | h
      · rcases abc_mem_cases rcs st ([fg], residue) c x h with h2 | ⟨h2, h3⟩
        · exact Or.inl h2
        · right
          refine ⟨[(fg, residue, rcs)], valid_chain_cons.mpr ⟨hmem, trivial⟩,
            by simp, by simp [htot], h3, ?_⟩
          rw [h2]
          rfl
      · exact Or.inr h
    · rcases hr : recurse residue rcs with err | r
      · rw [hr] at hloop
        cases hloop
      · rw [hr] at hloop
        have hchild := (hrec residue rcs).1 r hr
        rcases ih _ st2 (fun e2 he2 => hgen e2 (List.mem_cons_of_mem _ he2))
            hloop c x hx with h | h
        · rcases pc_mem_cases fg (r c) (st c).1 (st c).2 x h with h2 | ⟨z, hz, he⟩
          · exact Or.inl h2
          · right
            rcases hchild.1 c z hz with ⟨es, hv, hne, hlen, hsc, hcombo⟩
            refine ⟨(fg, residue, rcs) :: es, ?_, by simp, ?_, hsc, ?_⟩
            · refine valid_chain_cons.mpr ⟨hmem, ?_⟩
              rw [hnext]
              exact hv
            · simp only [List.length_cons, hlen]
              have h1 := gf_next3_total hpos
              rw [hnext] at h1
              simp only at h1 ⊢
              omega
            · rw [he, hcombo]
              unfold chain_combo
              have h1 := merge_chain_state (e := (fg, residue, rcs)) es
              simp only at h1
              rw [h1]
              rfl
        · exact Or.inr h

theorem exh_loop_complete_rec
    {recurse : MahjongTiles → List Constraint → Except GFError CResult}
    {ns nt np fuelc : Nat}
    {tiles : MahjongTiles} {stp : Nat × Nat × Nat} {scope : List Constraint}
    (hrec : exh_recurse_post fuelc (ns, nt, np) recurse)
    (hnext : gf_next3 stp = (ns, nt, np))
    (hnz : ¬ (ns = 0 ∧ nt = 0 ∧ np = 0)) :
    ∀ (gen : List MahjongGroupAndResidue) (st : GFState) (st2 : GFState),
      (∀ e ∈ gen, e ∈ gf_candidates tiles stp scope) →
      (∀ c2, bucket_inv (st c2).1 (st c2).2) →
      exhaustive_fgar_loop recurse ns nt np gen st = .ok st2 →
      ((∀ c2 x, e_handled ((st c2).1) (2 ≤ stp.1 + stp.2.1 + stp.2.2) x →
        e_handled ((st2 c2).1) (2 ≤ stp.1 + stp.2.1 + stp.2.2) x) ∧
       (∀ c2 F, valid_chain tiles stp scope F →
        F.length = stp.1 + stp.2.1 + stp.2.2 → c2 ∈ chain_scope scope F →
        (∃ e F3, F = e :: F3 ∧ e ∈ gen) →
        e_handled ((st2 c2).1) (2 ≤ stp.1 + stp.2.1 + stp.2.2)
          (chain_combo tiles F))) := by
  intro gen
  induction gen with
  | nil =>
    intro st st2 _ _ hloop
    rw [exhaustive_fgar_loop] at hloop
    injection hloop with h1
    subst h1
    refine ⟨fun c2 x h => h, ?_⟩
    intro c2 F _ _ _ hant
    rcases hant with ⟨e, F3, _, he⟩
    simp at he
  | cons e rest ih =>
    obtain ⟨fg, residue, rcs⟩ := e
    intro st st2 hgen hstinv hloop
    have hmem : (fg, residue, rcs) ∈ gf_candidates tiles stp scope :=
      hgen _ (List.mem_cons_self _ _)
    have hpos : 0 < stp.1 + stp.2.1 + stp.2.2 := gf_candidates_pos hmem
    have htot := gf_next3_total hpos
    have hguard : 2 ≤ stp.1 + stp.2.1 + stp.2.2 := by
      rw [hnext] at htot
      simp only at htot
      have h1 : 0 < ns + nt + np := by
        by_contra h2
        exact hnz ⟨by omega, by omega, by omega⟩
      omega
    rw [exh_loop_cons_eq, if_neg hnz] at hloop
    rcases hr : recurse residue rcs with err | r
    · rw [hr] at hloop
      cases hloop
    · rw [hr] at hloop
      have hchild := (hrec residue rcs).1 r hr
      have hstinv2 : ∀ c3, bucket_inv ((merge_recursive_results st r fg) c3).1
          ((merge_recursive_results st r fg) c3).2 := by
        intro c3
        exact pc_bucket_inv fg (r c3) (st c3).1 (st c3).2 (hstinv c3)
      have hres := ih (merge_recursive_results st r fg) st2
        (fun e2 he2 => hgen e2 (List.mem_cons_of_mem _ he2)) hstinv2 hloop
      have hstep : ∀ c2 x, e_handled ((st c2).1) (2 ≤ stp.1 + stp.2.1 + stp.2.2) x →
          e_handled (((merge_recursive_results st r fg) c2).1)
            (2 ≤ stp.1 + stp.2.1 + stp.2.2) x :=
        fun c2 x h => e_handled_merge_step hstinv hguard h
      refine ⟨fun c2 x h => hres.1 c2 x (hstep c2 x h), ?_⟩
      intro c2 F hv hlen hsc hant
      rcases hant with ⟨e2, F3, hF, he2⟩
      rcases List.mem_cons.mp he2 with he2 | he2
      · -- the head is the current candidate
        subst he2
        subst hF
        rcases valid_chain_cons.mp hv with ⟨_, hrest⟩
        have hlen3 : F3.length = (gf_next3 stp).1 + (gf_next3 stp).2.1 +
            (gf_next3 stp).2.2 := by
          simp only [List.length_cons] at hlen
          rw [hnext] at htot ⊢
          simp only at htot ⊢
          omega
        have hF3ne : F3 ≠ [] := by
          intro hnil
          rw [hnil] at hlen3
          rw [hnext] at hlen3
          simp at hlen3
          have h1 : 0 < ns + nt + np := by
            by_contra h2
            exact hnz ⟨by omega, by omega, by omega⟩
          omega
        have hch := hchild.2 c2 F3 (by rw [← hnext]; exact hrest)
          (by rw [← hnext]; exact hlen3) hF3ne hsc
        rw [← hnext] at hch
        -- lift into the merged state
        have hsnd : (chain_combo tiles ((fg, residue, rcs) :: F3)).2 =
            (chain_combo residue F3).2 := rfl
        have hfst : (chain_combo tiles ((fg, residue, rcs) :: F3)).1 =
            merge_group_tuple (chain_combo residue F3).1 fg := by
          have h1 := merge_chain_state (e := (fg, residue, rcs)) F3
          simp only at h1
          rw [chain_combo, chain_combo]
          simp only
          rw [h1]
        have hlift : e_handled (((merge_recursive_results st r fg) c2).1)
            (2 ≤ stp.1 + stp.2.1 + stp.2.2)
            (chain_combo tiles ((fg, residue, rcs) :: F3)) := by
          rcases hch with hin | ⟨_, hdom | h14⟩
          · have harr := pc_arrival fg (r c2) (st c2).1 (st c2).2
              (chain_combo residue F3) (hstinv c2) hin
            rcases harr with h | h | h
            · left
              have heq : (merge_group_tuple (chain_combo residue F3).1 fg,
                  (chain_combo residue F3).2) =
                  chain_combo tiles ((fg, residue, rcs) :: F3) := by
                rw [← hfst, ← hsnd]
              rw [heq] at h
              exact h
            · right
              refine ⟨hguard, Or.inl ?_⟩
              rcases h with ⟨y, hy, hlt⟩
              exact ⟨y, hy, by rw [hsnd]; exact hlt⟩
            · exact Or.inr ⟨hguard, Or.inr (by rw [hsnd]; exact h)⟩
          · rcases hdom with ⟨y, hy, hlt⟩
            have harr := pc_arrival fg (r c2) (st c2).1 (st c2).2 y (hstinv c2) hy
            right
            refine ⟨hguard, ?_⟩
            rcases harr with h | h | h
            · exact Or.inl ⟨(merge_group_tuple y.1 fg, y.2), h,
                by rw [hsnd]; exact hlt⟩
            · rcases h with ⟨z, hz, hlt2⟩
              exact Or.inl ⟨z, hz, by rw [hsnd]; omega⟩
            · exact Or.inr (by rw [hsnd]; omega)
          · exact Or.inr ⟨hguard, Or.inr (by rw [hsnd]; exact h14)⟩
        exact hres.1 c2 _ hlift
      · exact hres.2 c2 F hv hlen hsc ⟨e2, F3, hF, he2⟩

theorem exh_loop_complete_base
    {recurse : MahjongTiles → List Constraint → Except GFError CResult}
    {tiles : MahjongTiles} {stp : Nat × Nat × Nat} {scope : List Constraint}
    (hnext : gf_next3 stp = (0, 0, 0)) :
    ∀ (gen : List MahjongGroupAndResidue) (st : GFState) (st2 : GFState),
      (∀ e ∈ gen, e ∈ gf_candidates tiles stp scope) →
      exhaustive_fgar_loop recurse 0 0 0 gen st = .ok st2 →
      ((∀ c2 x guard, e_handled ((st c2).1) guard x →
        e_handled ((st2 c2).1) guard x) ∧
       (∀ c2 F, valid_chain tiles stp scope F →
        F.length = stp.1 + stp.2.1 + stp.2.2 → c2 ∈ chain_scope scope F →
        (∃ e F3, F = e :: F3 ∧ e ∈ gen) →
        e_handled ((st2 c2).1) (2 ≤ stp.1 + stp.2.1 + stp.2.2)
          (chain_combo tiles F))) := by
  intro gen
  induction gen with
  | nil =>
    intro st st2 _ hloop
    rw [exhaustive_fgar_loop] at hloop
    injection hloop with h1
    subst h1
    refine ⟨fun c2 x guard h => h, ?_⟩
    intro c2 F _ _ _ hant
    rcases hant with ⟨e, F3, _, he⟩
    simp at he
  | cons e rest ih =>
    obtain ⟨fg, residue, rcs⟩ := e
    intro st st2 hgen hloop
    have hmem : (fg, residue, rcs) ∈ gf_candidates tiles stp scope :=
      hgen _ (List.mem_cons_self _ _)
    have hpos : 0 < stp.1 + stp.2.1 + stp.2.2 := gf_candidates_pos hmem
    have htot := gf_next3_total hpos
    have htot1 : stp.1 + stp.2.1 + stp.2.2 = 1 := by
      rw [hnext] at htot
      simp at htot
      omega
    rw [exh_loop_cons_eq, if_pos ⟨rfl, rfl, rfl⟩] at hloop
    have hres := ih (append_base_case st rcs ([fg], residue)) st2
      (fun e2 he2 => hgen e2 (List.mem_cons_of_mem _ he2)) hloop
    have hstep : ∀ c2 x guard, e_handled ((st c2).1) guard x →
        e_handled ((append_base_case st rcs ([fg], residue) c2).1) guard x :=
      fun c2 x guard h => e_handled_abc_step h
    refine ⟨fun c2 x guard h => hres.1 c2 x guard (hstep c2 x guard h), ?_⟩
    intro c2 F hv hlen hsc hant
    rcases hant with ⟨e2, F3, hF, he2⟩
    rcases List.mem_cons.mp he2 with he2 | he2
    · subst he2
      subst hF
      have hF3 : F3 = [] := by
        simp only [List.length_cons, htot1] at hlen
        exact List.length_eq_zero.mp (by omega)
      subst hF3
      have hcombo : chain_combo tiles [((fg, residue, rcs) : MahjongGroupAndResidue)] =
          ([fg], residue) := rfl
      refine hres.1 c2 _ _ ?_
      rw [hcombo]
      left
      refine abc_new rcs st ([fg], residue) c2 ?_
      simpa using hsc
    · exact hres.2 c2 F hv hlen hsc ⟨e2, F3, hF, he2⟩

theorem exh_loop_base_ok
    {recurse : MahjongTiles → List Constraint → Except GFError CResult} :
    ∀ (gen : List MahjongGroupAndResidue) (st : GFState),
      ∃ st2, exhaustive_fgar_loop recurse 0 0 0 gen st = .ok st2 := by
  intro gen
  induction gen with
  | nil =>
    intro st
    exact ⟨st, rfl⟩
  | cons e rest ih =>
    obtain ⟨fg, residue, rcs⟩ := e
    intro st
    rw [exh_loop_cons_eq, if_pos ⟨rfl, rfl, rfl⟩]
    exact ih _

theorem exh_loop_error_rec
    {recurse : MahjongTiles → List Constraint → Except GFError CResult}
    {ns nt np fuelc : Nat} {stp : Nat × Nat × Nat}
    (hrec : exh_recurse_post fuelc (ns, nt, np) recurse)
    (hnext : gf_next3 stp = (ns, nt, np))
    (hnz : ¬ (ns = 0 ∧ nt = 0 ∧ np = 0)) :
    ∀ (gen : List MahjongGroupAndResidue) (st : GFState),
      (((∃ e ∈ gen, gf_danger fuelc e.2.1 (gf_next3 stp) e.2.2) →
        exhaustive_fgar_loop recurse ns nt np gen st = .error .notEnoughTiles) ∧
       (∀ err, exhaustive_fgar_loop recurse ns nt np gen st = .error err →
         err = GFError.notEnoughTiles ∧
           ∃ e ∈ gen, gf_danger fuelc e.2.1 (gf_next3 stp) e.2.2)) := by
  intro gen
  induction gen with
  | nil =>
    intro st
    refine ⟨?_, ?_⟩
    · intro hd
      simp at hd
    · intro err herr
      rw [exhaustive_fgar_loop] at herr
      cases herr
  | cons e rest ih =>
    obtain ⟨fg, residue, rcs⟩ := e
    intro st
    rcases hr : recurse residue rcs with err | r
    · have hF3 := ((hrec residue rcs).2).2 err hr
      have hloopeq : exhaustive_fgar_loop recurse ns nt np
          ((fg, residue, rcs) :: rest) st = .error err := by
        rw [exh_loop_cons_eq, if_neg hnz, hr]
      refine ⟨?_, ?_⟩
      · intro _
        rw [hloopeq, hF3.1]
      · intro err2 herr2
        rw [hloopeq] at herr2
        injection herr2 with herr2
        subst herr2
        refine ⟨hF3.1, (fg, residue, rcs), List.mem_cons_self _ _, ?_⟩
        rw [← hnext] at hF3
        exact hF3.2
    · have hnd : ¬ gf_danger fuelc residue (gf_next3 stp) rcs := by
        intro hd
        have h1 := ((hrec residue rcs).2).1 (by rw [hnext] at hd; exact hd)
        rw [hr] at h1
        cases h1
      have hloopeq : exhaustive_fgar_loop recurse ns nt np
          ((fg, residue, rcs) :: rest) st =
          exhaustive_fgar_loop recurse ns nt np rest
            (merge_recursive_results st r fg) := by
        rw [exh_loop_cons_eq, if_neg hnz, hr]
      have hres := ih (merge_recursive_results st r fg)
      refine ⟨?_, ?_⟩
      · intro hd
        rcases hd with ⟨e2, he2, hde2⟩
        rcases List.mem_cons.mp he2 with he2 | he2
        · exfalso
          apply hnd
          rw [he2] at hde2
          exact hde2
        · rw [hloopeq]
          exact hres.1 ⟨e2, he2, hde2⟩
      · intro err2 herr2
        rw [hloopeq] at herr2
        rcases hres.2 err2 herr2 with ⟨he, e2, hmem2, hd2⟩
        exact ⟨he, e2, List.mem_cons_of_mem _ hmem2, hd2⟩

theorem exh_main_to_recurse_post {fuel : Nat} (h : exh_main_post fuel)
    (stpc : Nat × Nat × Nat) :
    stpc.1 + stpc.2.1 + stpc.2.2 ≤ fuel →
    exh_recurse_post fuel stpc
      (fun ti cs =>
        exhaustive_find_all_groups_for_fuel fuel ti stpc.1 stpc.2.1 stpc.2.2 cs) := by
  intro hle ti cs
  exact ⟨fun r hok => (h ti stpc cs hle).1 r hok, (h ti stpc cs hle).2⟩

theorem exh_fagf_dispatch
    {fuel : Nat} {tiles : MahjongTiles} {stp : Nat × Nat × Nat}
    {scope : List Constraint} {ns nt np : Nat}
    {recurse : MahjongTiles → List Constraint → Except GFError CResult}
    (hnext : gf_next3 stp = (ns, nt, np))
    (hrp : exh_recurse_post fuel (ns, nt, np) recurse) :
    ((∀ r, exhaustive_find_group_and_recurse recurse
        (gf_candidates tiles stp scope) ns nt np = .ok r →
      ((∀ c x, x ∈ r c → ∃ es, valid_chain tiles stp scope es ∧ es ≠ [] ∧
         es.length = stp.1 + stp.2.1 + stp.2.2 ∧ c ∈ chain_scope scope es ∧
         x = chain_combo tiles es) ∧
       (∀ c es, valid_chain tiles stp scope es →
         es.length = stp.1 + stp.2.1 + stp.2.2 → es ≠ [] →
         c ∈ chain_scope scope es →
         e_handled (r c) (2 ≤ stp.1 + stp.2.1 + stp.2.2)
           (chain_combo tiles es)))) ∧
     (((∃ e ∈ gf_candidates tiles stp scope,
         gf_danger fuel e.2.1 (gf_next3 stp) e.2.2) →
       exhaustive_find_group_and_recurse recurse (gf_candidates tiles stp scope)
         ns nt np = .error .notEnoughTiles) ∧
      (∀ err, exhaustive_find_group_and_recurse recurse
         (gf_candidates tiles stp scope) ns nt np = .error err →
        err = GFError.notEnoughTiles ∧
          ∃ e ∈ gf_candidates tiles stp scope,
            gf_danger fuel e.2.1 (gf_next3 stp) e.2.2))) := by
  constructor
  · intro r hcall
    unfold exhaustive_find_group_and_recurse at hcall
    rcases hlp : exhaustive_fgar_loop recurse ns nt np
        (gf_candidates tiles stp scope) (fun _ => ([], 14)) with e2 | stf
    · rw [hlp] at hcall
      cases hcall
    · rw [hlp] at hcall
      injection hcall with hr
      refine ⟨?_, ?_⟩
      · intro c x hx
        have hx2 : x ∈ (stf c).1 := by
          rw [← hr] at hx
          exact hx
        rcases exh_loop_sound hrp hnext (gf_candidates tiles stp scope)
            (fun _ => ([], 14)) stf (fun e2 he2 => he2) hlp c x hx2 with h | h
        · simp at h
        · exact h
      · intro c es hv hlen hne hsc
        have hant : ∃ e F3, es = e :: F3 ∧ e ∈ gf_candidates tiles stp scope := by
          rcases es with _ | ⟨e, es3⟩
          · exact absurd rfl hne
          · exact ⟨e, es3, rfl, (valid_chain_cons.mp hv).1⟩
        have hhd : e_handled ((stf c).1) (2 ≤ stp.1 + stp.2.1 + stp.2.2)
            (chain_combo tiles es) := by
          by_cases hz : ns = 0 ∧ nt = 0 ∧ np = 0
          · obtain ⟨hz1, hz2, hz3⟩ := hz
            subst hz1
            subst hz2
            subst hz3
            exact (exh_loop_complete_base hnext (gf_candidates tiles stp scope)
              (fun _ => ([], 14)) stf (fun e2 he2 => he2) hlp).2 c es hv hlen hsc hant
          · exact (exh_loop_complete_rec hrp hnext hz (gf_candidates tiles stp scope)
              (fun _ => ([], 14)) stf (fun e2 he2 => he2) st0_bucket_inv hlp).2
              c es hv hlen hsc hant
        rw [← hr]
        exact hhd
  · by_cases hz : ns = 0 ∧ nt = 0 ∧ np = 0
    · obtain ⟨hz1, hz2, hz3⟩ := hz
      subst hz1
      subst hz2
      subst hz3
      constructor
      · intro hd
        exfalso
        rcases hd with ⟨e, he, hde⟩
        rw [hnext] at hde
        exact gf_danger_zero fuel e.2.1 e.2.2 hde
      · intro err herr
        exfalso
        unfold exhaustive_find_group_and_recurse at herr
        rcases @exh_loop_base_ok recurse
            (gf_candidates tiles stp scope) (fun _ => ([], 14)) with ⟨st2, hok⟩
        rw [hok] at herr
        cases herr
    · have herr := exh_loop_error_rec hrp hnext hz
        (gf_candidates tiles stp scope) (fun _ => ([], 14))
      constructor
      · intro hd
        unfold exhaustive_find_group_and_recurse
        rw [herr.1 hd]
      · intro err herr2
        unfold exhaustive_find_group_and_recurse at herr2
        rcases hlp : exhaustive_fgar_loop recurse ns nt np
            (gf_candidates tiles stp scope) (fun _ => ([], 14)) with e2 | stf
        · rw [hlp] at herr2
          injection herr2 with herr2
          subst herr2
          exact herr.2 e2 hlp
        · rw [hlp] at herr2
          cases herr2

theorem exh_zero_after_checks {tiles : MahjongTiles} {scope : List Constraint}
    {fuel : Nat} :
    exhaustive_find_all_groups_for_fuel fuel tiles 0 0 0 scope =
      .ok (fun _ => []) := by
  cases fuel with
  | zero =>
    rw [exhaustive_find_all_groups_for_fuel]
    rw [if_neg (by omega), if_neg (by simp)]
  | succ f =>
    rw [exhaustive_find_all_groups_for_fuel]
    rw [if_neg (by omega), if_neg (by omega), if_neg (by omega), if_neg (by omega)]

theorem exh_main_post_zero_counts {tiles : MahjongTiles} {scope : List Constraint}
    {fuel : Nat} :
    ((∀ r, exhaustive_find_all_groups_for_fuel fuel tiles 0 0 0 scope = .ok r →
      ((∀ c x, x ∈ r c → ∃ es, valid_chain tiles (0, 0, 0) scope es ∧ es ≠ [] ∧
         es.length = 0 ∧ c ∈ chain_scope scope es ∧ x = chain_combo tiles es) ∧
       (∀ c es, valid_chain tiles (0, 0, 0) scope es → es.length = 0 → es ≠ [] →
         c ∈ chain_scope scope es →
         e_handled (r c) (2 ≤ 0) (chain_combo tiles es)))) ∧
     ((gf_danger fuel tiles (0, 0, 0) scope →
       exhaustive_find_all_groups_for_fuel fuel tiles 0 0 0 scope =
         .error .notEnoughTiles) ∧
      (∀ err, exhaustive_find_all_groups_for_fuel fuel tiles 0 0 0 scope =
          .error err →
        err = GFError.notEnoughTiles ∧ gf_danger fuel tiles (0, 0, 0) scope))) := by
  constructor
  · intro r hcall
    rw [exh_zero_after_checks] at hcall
    injection hcall with hr
    constructor
    · intro c x hx
      rw [← hr] at hx
      exact absurd hx (List.not_mem_nil x)
    · intro c es _ hlen hne _
      exact absurd (List.length_eq_zero.mp hlen) hne
  · constructor
    · intro hd
      exact absurd hd (gf_danger_zero fuel tiles scope)
    · intro err herr
      rw [exh_zero_after_checks] at herr
      cases herr

theorem exh_main : ∀ fuel : Nat, exh_main_post fuel := by
  intro fuel
  induction fuel with
  | zero =>
    intro tiles stp scope hle
    obtain ⟨s, t, p⟩ := stp
    simp only at hle
    have hs : s = 0 := by omega
    have ht : t = 0 := by omega
    have hp : p = 0 := by omega
    subst hs
    subst ht
    subst hp
    exact exh_main_post_zero_counts
  | succ fuel ihf =>
    intro tiles stp scope hle
    obtain ⟨s, t, p⟩ := stp
    simp only at hle
    by_cases hl : tiles.length + 1 < 3 * (s + t) + 2 * p
    · have herr : exhaustive_find_all_groups_for_fuel (fuel + 1) tiles s t p scope =
          .error .notEnoughTiles := by
        rw [exhaustive_find_all_groups_for_fuel, if_pos hl]
      constructor
      · intro r hcall
        rw [herr] at hcall
        cases hcall
      · constructor
        · intro _
          exact herr
        · intro err herr2
          rw [herr] at herr2
          injection herr2 with herr2
          subst herr2
          exact ⟨rfl, Or.inl hl⟩
    · by_cases hp : 0 < p
      · have hnext : gf_next3 (s, t, p) = (s, t, p - 1) := by
          rw [gf_next3, if_pos hp]
        have hrp := exh_main_to_recurse_post ihf (s, t, p - 1) (by simp only; omega)
        have hgc : gf_candidates tiles (s, t, p) scope = find_pair tiles scope := by
          rw [gf_candidates, if_pos hp]
        have hcalleq : exhaustive_find_all_groups_for_fuel (fuel + 1) tiles s t p
            scope =
            exhaustive_find_group_and_recurse
              (fun ti cs =>
                exhaustive_find_all_groups_for_fuel fuel ti s t (p - 1) cs)
              (find_pair tiles scope) s t (p - 1) := by
          rw [exhaustive_find_all_groups_for_fuel, if_neg hl, if_pos hp]
        have hd := @exh_fagf_dispatch _ tiles _ scope _ _ _ _ hnext hrp
        constructor
        · intro r hcall
          rw [hcalleq] at hcall
          exact hd.1 r (by rw [hgc]; exact hcall)
        · constructor
          · intro hdgr
            rw [gf_danger] at hdgr
            rcases hdgr with hdgr | hdgr
            · exact absurd hdgr hl
            · rw [hcalleq]
              have := hd.2.1 hdgr
              rw [hgc] at this
              exact this
          · intro err herr2
            rw [hcalleq] at herr2
            rcases hd.2.2 err (by rw [hgc]; exact herr2) with ⟨he, hex⟩
            refine ⟨he, ?_⟩
            rw [gf_danger]
            right
            exact hex
      · by_cases hs : 0 < s
        · have hnext : gf_next3 (s, t, p) = (s - 1, t, p) := by
            rw [gf_next3, if_neg hp, if_pos hs]
          have hrp := exh_main_to_recurse_post ihf (s - 1, t, p) (by simp only; omega)
          have hgc : gf_candidates tiles (s, t, p) scope =
              find_sequences tiles scope := by
            rw [gf_candidates, if_neg hp, if_pos hs]
          have hcalleq : exhaustive_find_all_groups_for_fuel (fuel + 1) tiles s t p
              scope =
              exhaustive_find_group_and_recurse
                (fun ti cs =>
                  exhaustive_find_all_groups_for_fuel fuel ti (s - 1) t p cs)
                (find_sequences tiles scope) (s - 1) t p := by
            rw [exhaustive_find_all_groups_for_fuel, if_neg hl, if_neg (by omega),
              if_pos hs]
          have hd := @exh_fagf_dispatch _ tiles _ scope _ _ _ _ hnext hrp
          constructor
          · intro r hcall
            rw [hcalleq] at hcall
            exact hd.1 r (by rw [hgc]; exact hcall)
          · constructor
            · intro hdgr
              rw [gf_danger] at hdgr
              rcases hdgr with hdgr | hdgr
              · exact absurd hdgr hl
              · rw [hcalleq]
                have := hd.2.1 hdgr
                rw [hgc] at this
                exact this
            · intro err herr2
              rw [hcalleq] at herr2
              rcases hd.2.2 err (by rw [hgc]; exact herr2) with ⟨he, hex⟩
              refine ⟨he, ?_⟩
              rw [gf_danger]
              right
              exact hex
        · by_cases ht : 0 < t
          · have hnext : gf_next3 (s, t, p) = (s, t - 1, p) := by
              rw [gf_next3, if_neg hp, if_neg hs]
            have hrp := exh_main_to_recurse_post ihf (s, t - 1, p)
              (by simp only; omega)
            have hgc : gf_candidates tiles (s, t, p) scope =
                find_three_of_a_kind tiles scope := by
              rw [gf_candidates, if_neg hp, if_neg hs, if_pos ht]
            have hcalleq : exhaustive_find_all_groups_for_fuel (fuel + 1) tiles s t p
                scope =
                exhaustive_find_group_and_recurse
                  (fun ti cs =>
                    exhaustive_find_all_groups_for_fuel fuel ti s (t - 1) p cs)
                  (find_three_of_a_kind tiles scope) s (t - 1) p := by
              rw [exhaustive_find_all_groups_for_fuel, if_neg hl, if_neg (by omega),
                if_neg (by omega), if_pos ht]
            have hd := @exh_fagf_dispatch _ tiles _ scope _ _ _ _ hnext hrp
            constructor
            · intro r hcall
              rw [hcalleq] at hcall
              exact hd.1 r (by rw [hgc]; exact hcall)
            · constructor
              · intro hdgr
                rw [gf_danger] at hdgr
                rcases hdgr with hdgr | hdgr
                · exact absurd hdgr hl
                · rw [hcalleq]
                  have := hd.2.1 hdgr
                  rw [hgc] at this
                  exact this
              · intro err herr2
                rw [hcalleq] at herr2
                rcases hd.2.2 err (by rw [hgc]; exact herr2) with ⟨he, hex⟩
                refine ⟨he, ?_⟩
                rw [gf_danger]
                right
                exact hex
          · have hs0 : s = 0 := by omega
            have ht0 : t = 0 := by omega
            have hp0 : p = 0 := by omega
            subst hs0
            subst ht0
            subst hp0
            exact exh_main_post_zero_counts

theorem fgar_loop_binv
    {recurse : MahjongTiles → List Constraint → GFCache → MahjongGroups →
      Except GFError (CResult × GFCache)}
    {ns nt np : Nat} {prev : MahjongGroups}
    (hnz : ¬ (ns = 0 ∧ nt = 0 ∧ np = 0)) :
    ∀ (gen : List MahjongGroupAndResidue) (st : GFState) (K : GFCache)
      (st2 : GFState) (K2 : GFCache),
      (∀ c, bucket_inv (st c).1 (st c).2) →
      fgar_loop recurse ns nt np prev gen st K = .ok (st2, K2) →
      ∀ c, bucket_inv (st2 c).1 (st2 c).2 := by
  intro gen
  induction gen with
  | nil =>
    intro st K st2 K2 hinv hloop
    rw [fgar_loop] at hloop
    injection hloop with hloop
    injection hloop with h1 h2
    subst h1
    exact hinv
  | cons e rest ih =>
    obtain ⟨fg, residue, rcs⟩ := e
    intro st K st2 K2 hinv hloop
    simp only [fgar_loop] at hloop
    split at hloop
    · exact ih st K st2 K2 hinv hloop
    · rcases hr : recurse residue rcs (merge_group_tuple prev fg :: K)
          (merge_group_tuple prev fg) with err | rK
      · rw [hr] at hloop
        cases hloop
      · obtain ⟨r, K3⟩ := rK
        rw [hr] at hloop
        refine ih _ K3 st2 K2 ?_ hloop
        intro c
        exact pc_bucket_inv fg (r c) (st c).1 (st c).2 (hinv c)

theorem exh_loop_binv
    {recurse : MahjongTiles → List Constraint → Except GFError CResult}
    {ns nt np : Nat}
    (hnz : ¬ (ns = 0 ∧ nt = 0 ∧ np = 0)) :
    ∀ (gen : List MahjongGroupAndResidue) (st : GFState) (st2 : GFState),
      (∀ c, bucket_inv (st c).1 (st c).2) →
      exhaustive_fgar_loop recurse ns nt np gen st = .ok st2 →
      ∀ c, bucket_inv (st2 c).1 (st2 c).2 := by
  intro gen
  induction gen with
  | nil =>
    intro st st2 hinv hloop
    rw [exhaustive_fgar_loop] at hloop
    injection hloop with h1
    subst h1
    exact hinv
  | cons e rest ih =>
    obtain ⟨fg, residue, rcs⟩ := e
    intro st st2 hinv hloop
    rw [exh_loop_cons_eq, if_neg hnz] at hloop
    rcases hr : recurse residue rcs with err | r
    · rw [hr] at hloop
      cases hloop
    · rw [hr] at hloop
      refine ih _ st2 ?_ hloop
      intro c
      exact pc_bucket_inv fg (r c) (st c).1 (st c).2 (hinv c)

theorem fagf_W {fuel : Nat} {tiles : MahjongTiles} {s t p : Nat}
    {scope : List Constraint} {K0 : GFCache} {prev : MahjongGroups}
    {r : CResult} {K2 : GFCache}
    (h2 : 2 ≤ s + t + p)
    (hok : find_all_groups_for_fuel fuel tiles s t p scope K0 prev = .ok (r, K2)) :
    ∀ c, (∀ x ∈ r c, ∀ y ∈ r c, x.2.length = y.2.length) ∧
      (∀ x ∈ r c, x.2.length ≤ 14) := by
  cases fuel with
  | zero =>
    rw [find_all_groups_for_fuel] at hok
    split at hok
    · cases hok
    · rw [if_pos (by omega)] at hok
      cases hok
  | succ fuel =>
    rw [find_all_groups_for_fuel] at hok
    split at hok
    · cases hok
    · have hmain : ∀ (gen : List MahjongGroupAndResidue) ns nt np
          (recurse : MahjongTiles → List Constraint → GFCache → MahjongGroups →
            Except GFError (CResult × GFCache)),
          ¬ (ns = 0 ∧ nt = 0 ∧ np = 0) →
          find_group_and_recurse recurse gen ns nt np K0 prev = .ok (r, K2) →
          ∀ c, (∀ x ∈ r c, ∀ y ∈ r c, x.2.length = y.2.length) ∧
            (∀ x ∈ r c, x.2.length ≤ 14) := by
        intro gen ns nt np recurse hnz hfg
        unfold find_group_and_recurse at hfg
        rcases hlp : fgar_loop recurse ns nt np prev gen (fun _ => ([], 14)) K0
            with e | ⟨stf, cachef⟩
        · rw [hlp] at hfg
          cases hfg
        · rw [hlp] at hfg
          injection hfg with hfg
          injection hfg with h1 hK
          intro c
          have hbinv := fgar_loop_binv hnz gen (fun _ => ([], 14)) K0 stf cachef
            st0_bucket_inv hlp c
          constructor
          · intro x hx y hy
            rw [← h1] at hx hy
            rw [hbinv.1 x hx, hbinv.1 y hy]
          · intro x hx
            rw [← h1] at hx
            rw [hbinv.1 x hx]
            exact hbinv.2.1
      split at hok
      · exact hmain _ _ _ _ _ (by omega) hok
      · split at hok
        · exact hmain _ _ _ _ _ (by omega) hok
        · split at hok
          · exact hmain _ _ _ _ _ (by omega) hok
          · omega

theorem exh_W {fuel : Nat} {tiles : MahjongTiles} {s t p : Nat}
    {scope : List Constraint} {r : CResult}
    (h2 : 2 ≤ s + t + p)
    (hok : exhaustive_find_all_groups_for_fuel fuel tiles s t p scope = .ok r) :
    ∀ c, (∀ x ∈ r c, ∀ y ∈ r c, x.2.length = y.2.length) ∧
      (∀ x ∈ r c, x.2.length ≤ 14) := by
  cases fuel with
  | zero =>
    rw [exhaustive_find_all_groups_for_fuel] at hok
    split at hok
    · cases hok
    · rw [if_pos (by omega)] at hok
      cases hok
  | succ fuel =>
    rw [exhaustive_find_all_groups_for_fuel] at hok
    split at hok
    · cases hok
    · have hmain : ∀ (gen : List MahjongGroupAndResidue) ns nt np
          (recurse : MahjongTiles → List Constraint → Except GFError CResult),
          ¬ (ns = 0 ∧ nt = 0 ∧ np = 0) →
          exhaustive_find_group_and_recurse recurse gen ns nt np = .ok r →
          ∀ c, (∀ x ∈ r c, ∀ y ∈ r c, x.2.length = y.2.length) ∧
            (∀ x ∈ r c, x.2.length ≤ 14) := by
        intro gen ns nt np recurse hnz hfg
        unfold exhaustive_find_group_and_recurse at hfg
        rcases hlp : exhaustive_fgar_loop recurse ns nt np gen (fun _ => ([], 14))
            with e | stf
        · rw [hlp] at hfg
          cases hfg
        · rw [hlp] at hfg
          injection hfg with h1
          intro c
          have hbinv := exh_loop_binv hnz gen (fun _ => ([], 14)) stf
            st0_bucket_inv hlp c
          constructor
          · intro x hx y hy
            rw [← h1] at hx hy
            rw [hbinv.1 x hx, hbinv.1 y hy]
          · intro x hx
            rw [← h1] at hx
            rw [hbinv.1 x hx]
            exact hbinv.2.1
      split at hok
      · exact hmain _ _ _ _ _ (by omega) hok
      · split at hok
        · exact hmain _ _ _ _ _ (by omega) hok
        · split at hok
          · exact hmain _ _ _ _ _ (by omega) hok
          · omega

theorem cached_via_nil {tiles : MahjongTiles} {stp : Nat × Nat × Nat}
    {scope : List Constraint} {prev : MahjongGroups} {c : Constraint}
    {x : MahjongCombination} :
    ¬ cached_via tiles stp scope prev [] c x := by
  intro h
  rcases h with ⟨es₁, es₂, _, _, hmem, _⟩
  exact absurd hmem (List.not_mem_nil _)

theorem bucket_set_eq {V : MahjongCombination → Prop}
    {r₁ r₂ : List MahjongCombination}
    (s1 : ∀ x ∈ r₁, V x) (s2 : ∀ x ∈ r₂, V x)
    (c1 : ∀ x, V x → x ∈ r₁ ∨ (∃ y ∈ r₁, y.2.length < x.2.length) ∨
      14 < x.2.length)
    (c2 : ∀ x, V x → x ∈ r₂ ∨ (∃ y ∈ r₂, y.2.length < x.2.length) ∨
      14 < x.2.length)
    (w1 : ∀ x ∈ r₁, ∀ y ∈ r₁, x.2.length = y.2.length)
    (b1 : ∀ x ∈ r₁, x.2.length ≤ 14)
    (w2 : ∀ x ∈ r₂, ∀ y ∈ r₂, x.2.length = y.2.length)
    (b2 : ∀ x ∈ r₂, x.2.length ≤ 14) :
    ∀ x, x ∈ r₁ ↔ x ∈ r₂ := by
  have hdir : ∀ (q₁ q₂ : List MahjongCombination),
      (∀ x ∈ q₁, V x) → (∀ x ∈ q₂, V x) →
      (∀ x, V x → x ∈ q₁ ∨ (∃ y ∈ q₁, y.2.length < x.2.length) ∨
        14 < x.2.length) →
      (∀ x, V x → x ∈ q₂ ∨ (∃ y ∈ q₂, y.2.length < x.2.length) ∨
        14 < x.2.length) →
      (∀ x ∈ q₁, ∀ y ∈ q₁, x.2.length = y.2.length) →
      (∀ x ∈ q₁, x.2.length ≤ 14) →
      ∀ x, x ∈ q₁ → x ∈ q₂ := by
    intro q₁ q₂ hs1 hs2 hc1 hc2 hw1 hb1 x hx
    rcases hc2 x (hs1 x hx) with h | h | h
    · exact h
    · exfalso
      rcases h with ⟨y, hy, hlt⟩
      have hVy := hs2 y hy
      rcases hc1 y hVy with h2 | h2 | h2
      · have := hw1 x hx y h2
        omega
      · rcases h2 with ⟨z, hz, hlt2⟩
        have := hw1 x hx z hz
        omega
      · have := hb1 x hx
        omega
    · exact absurd h (by have := hb1 x hx; omega)
  exact fun x => ⟨hdir r₁ r₂ s1 s2 c1 c2 w1 b1 x, hdir r₂ r₁ s2 s1 c2 c1 w2 b2 x⟩

/-- C1: for every tile multiset, every target counts and every non-empty
constraint list, the memoized decomposition search and the exhaustive
memo-disabled search either fail with the same error, or succeed and
return, for each constraint, the same set of distinct group-combinations. -/

theorem c1_memo_equivalence (tiles : MahjongTiles)
    (sequence three_same pair : Nat) (constraints : List Constraint)
    (h : constraints ≠ []) :
    (∃ e, all_groups_for_with_constraints tiles sequence three_same pair
        constraints = .error e ∧
      exhaustive_find_all_groups_for tiles sequence three_same pair constraints
        = .error e) ∨
    (∃ r₁ r₂, all_groups_for_with_constraints tiles sequence three_same pair
        constraints = .ok r₁ ∧
      exhaustive_find_all_groups_for tiles sequence three_same pair constraints
        = .ok r₂ ∧
      ∀ c, (r₁ c).toFinset = (r₂ c).toFinset) := by
  have hne : constraints.isEmpty = false := by
    rcases constraints with _ | ⟨c0, cs⟩
    · exact absurd rfl h
    · rfl
  have hmp := fagf_main (sequence + three_same + pair) tiles
    (sequence, three_same, pair) constraints [] [] (by simp only; omega)
  have hep := exh_main (sequence + three_same + pair) tiles
    (sequence, three_same, pair) constraints (by simp only; omega)
  have hsafe : cache_safe (sequence + three_same + pair) tiles
      (sequence, three_same, pair) constraints [] [] :=
    fun es _ _ hin => absurd hin (List.not_mem_nil _)
  have hmwc : all_groups_for_with_constraints tiles sequence three_same pair
      constraints =
      match find_all_groups_for_fuel (sequence + three_same + pair) tiles sequence
          three_same pair constraints [] [] with
      | .error e => .error e
      | .ok (r, _) => .ok r := by
    unfold all_groups_for_with_constraints
    rw [if_neg (by rw [hne]; simp)]
    rfl
  rcases hm : find_all_groups_for_fuel (sequence + three_same + pair) tiles
      sequence three_same pair constraints [] [] with err | rK
  · have hF3 := (hmp.2 hsafe).2 err hm
    have hexh := hep.2.1 hF3.2
    left
    refine ⟨.notEnoughTiles, ?_, hexh⟩
    rw [hmwc, hm, hF3.1]
  · obtain ⟨r₁, K2⟩ := rK
    rcases hx : exhaustive_find_all_groups_for_fuel (sequence + three_same + pair)
        tiles sequence three_same pair constraints with err2 | r₂
    · exfalso
      have hd := hep.2.2 err2 hx
      have := (hmp.2 hsafe).1 hd.2
      rw [hm] at this
      cases this
    · right
      have hok := hmp.1 r₁ K2 hm
      have hok2 := hep.1 r₂ hx
      refine ⟨r₁, r₂, by rw [hmwc, hm], hx, ?_⟩
      intro c
      refine Finset.ext ?_
      intro x
      simp only [List.mem_toFinset]
      by_cases hge : 2 ≤ sequence + three_same + pair
      · -- merging levels: both buckets are the minimal decompositions
        have hw1 := fagf_W hge hm c
        have hw2 := exh_W hge hx c
        refine bucket_set_eq
          (V := fun y => ∃ es, valid_chain tiles (sequence, three_same, pair)
            constraints es ∧ es ≠ [] ∧
            es.length = sequence + three_same + pair ∧
            c ∈ chain_scope constraints es ∧ y = chain_combo tiles es)
          ?_ ?_ ?_ ?_ hw1.1 hw1.2 hw2.1 hw2.2 x
        · intro y hy
          exact hok.2.2.1 c y hy
        · intro y hy
          exact hok2.1 c y hy
        · intro y hVy
          rcases hVy with ⟨es, hv, hne2, hlen, hsc, hyc⟩
          have hh := hok.2.2.2.1 c es hv hlen hne2 hsc
          rw [← hyc] at hh
          rcases hh with hcv | hin | ⟨_, hrest⟩
          · exact absurd hcv cached_via_nil
          · exact Or.inl hin
          · exact Or.inr hrest
        · intro y hVy
          rcases hVy with ⟨es, hv, hne2, hlen, hsc, hyc⟩
          have hh := hok2.2 c es hv hlen hne2 hsc
          rw [← hyc] at hh
          rcases hh with hin | ⟨_, hrest⟩
          · exact Or.inl hin
          · exact Or.inr hrest
      · by_cases h1 : sequence + three_same + pair = 1
        · -- the single-requirement base level returns every candidate
          constructor
          · intro hx1
            rcases hok.2.2.1 c x hx1 with ⟨es, hv, hne2, hlen, hsc, hyc⟩
            have hh := hok2.2 c es hv hlen hne2 hsc
            rw [← hyc] at hh
            rcases hh with hin | ⟨hg, _⟩
            · exact hin
            · exfalso
              simp only at hg
              omega
          · intro hx2
            rcases hok2.1 c x hx2 with ⟨es, hv, hne2, hlen, hsc, hyc⟩
            have hh := hok.2.2.2.1 c es hv hlen hne2 hsc
            rw [← hyc] at hh
            rcases hh with hcv | hin | ⟨hg, _⟩
            · exact absurd hcv cached_via_nil
            · exact hin
            · exfalso
              simp only at hg
              omega
        · -- no requirements at all: both buckets are empty
          have hs0 : sequence = 0 := by omega
          have ht0 : three_same = 0 := by omega
          have hp0 : pair = 0 := by omega
          subst hs0
          subst ht0
          subst hp0
          have hz1 : find_all_groups_for_fuel 0 tiles 0 0 0 constraints [] [] =
              .ok (fun _ => [], []) := fagf_zero_after_checks
          rw [hm] at hz1
          injection hz1 with hz1
          injection hz1 with hz1 _
          have hz2 : exhaustive_find_all_groups_for_fuel 0 tiles 0 0 0 constraints =
              .ok (fun _ => []) := exh_zero_after_checks
          rw [hx] at hz2
          injection hz2 with hz2
          constructor
          · intro hx1
            rw [hz1] at hx1
            exact absurd hx1 (List.not_mem_nil x)
          · intro hx2
            rw [hz2] at hx2
            exact absurd hx2 (List.not_mem_nil x)

theorem c1_memo_equivalence_witness :
    (([Constraint.NONE] : List Constraint) ≠ []) ∧
    ((∃ e, all_groups_for_with_constraints [] 1 0 0 [Constraint.NONE]
        = .error e ∧
      exhaustive_find_all_groups_for [] 1 0 0 [Constraint.NONE] = .error e) ∨
    (∃ r₁ r₂, all_groups_for_with_constraints [] 1 0 0 [Constraint.NONE]
        = .ok r₁ ∧
      exhaustive_find_all_groups_for [] 1 0 0 [Constraint.NONE] = .ok r₂ ∧
      ∀ c, (r₁ c).toFinset = (r₂ c).toFinset)) :=
  ⟨by decide, c1_memo_equivalence [] 1 0 0 [Constraint.NONE] (by decide)⟩

theorem fagf_min_leftover {tiles : MahjongTiles} {s t p : Nat}
    {cs : List Constraint} {r0 : CResult} {K2 : GFCache}
    (h2 : 2 ≤ s + t + p)
    (hok : find_all_groups_for tiles s t p cs [] [] = .ok (r0, K2)) :
    ∀ c, ∀ x ∈ r0 c,
      (∃ es, full_chain tiles (s, t, p) cs es ∧ c ∈ chain_scope cs es ∧
        x = chain_combo tiles es) ∧
      (∀ es, full_chain tiles (s, t, p) cs es → c ∈ chain_scope cs es →
        x.2.length ≤ (chain_combo tiles es).2.length) := by
  intro c x hx
  have hok2 : find_all_groups_for_fuel (s + t + p) tiles s t p cs [] [] =
      .ok (r0, K2) := hok
  have hmp := fagf_main (s + t + p) tiles (s, t, p) cs [] [] (by simp only; omega)
  have hF := hmp.1 r0 K2 hok2
  have hW := fagf_W h2 hok2
  constructor
  · rcases hF.2.2.1 c x hx with ⟨es, hv, hne, hlen, hcse, hxe⟩
    exact ⟨es, ⟨hv, hlen⟩, hcse, hxe⟩
  · intro es hfc hcse
    rcases hfc with ⟨hv, hlen⟩
    have hlen2 : es.length = s + t + p := hlen
    have hne : es ≠ [] := by
      intro hnil
      rw [hnil] at hlen2
      simp only [List.length_nil] at hlen2
      omega
    have hh := hF.2.2.2.1 c es hv hlen hne hcse
    rcases hh with hcv | hmem | ⟨_, hdom | h14⟩
    · exact absurd hcv cached_via_nil
    · exact le_of_eq ((hW c).1 x hx _ hmem)
    · rcases hdom with ⟨y, hy, hlt⟩
      have hxy := (hW c).1 x hx y hy
      omega
    · have hx14 := (hW c).2 x hx
      omega

/-- C2 (amended): for requests with at least TWO required groups in total,
every retained decomposition in a constraint bucket has a leftover size
equal to the minimum leftover size among all candidate decompositions the
enumeration generates for that constraint — the retained combination is
itself produced by a full candidate chain, no full candidate chain whose
surviving scope contains the constraint has a strictly smaller leftover,
and no retained decomposition has a strictly larger leftover than another
retained one in the same bucket.  Single-requirement requests reach the
unfiltered base case and violate this. -/
theorem c2_amended_minimal_leftover :
    (∀ (tiles : MahjongTiles) (sequence three_same pair : Nat)
      (combos : List MahjongCombination),
      2 ≤ sequence + three_same + pair →
      all_groups_for tiles sequence three_same pair = .ok combos →
      ∀ x ∈ combos,
        (∃ es, full_chain tiles (sequence, three_same, pair) [Constraint.NONE] es ∧
          Constraint.NONE ∈ chain_scope [Constraint.NONE] es ∧
          x = chain_combo tiles es) ∧
        (∀ es, full_chain tiles (sequence, three_same, pair) [Constraint.NONE] es →
          Constraint.NONE ∈ chain_scope [Constraint.NONE] es →
          x.2.length ≤ (chain_combo tiles es).2.length) ∧
        (∀ y ∈ combos, x.2.length = y.2.length)) ∧
    (∀ (tiles : MahjongTiles) (sequence three_same pair : Nat)
      (constraints : List Constraint) (r : CResult),
      2 ≤ sequence + three_same + pair →
      all_groups_for_with_constraints tiles sequence three_same pair constraints =
        .ok r →
      ∀ c, ∀ x ∈ r c,
        (∃ es, full_chain tiles (sequence, three_same, pair) constraints es ∧
          c ∈ chain_scope constraints es ∧ x = chain_combo tiles es) ∧
        (∀ es, full_chain tiles (sequence, three_same, pair) constraints es →
          c ∈ chain_scope constraints es →
          x.2.length ≤ (chain_combo tiles es).2.length) ∧
        (∀ y ∈ r c, x.2.length = y.2.length)) := by
  constructor
  · intro tiles s t p combos hsum h x hx
    unfold all_groups_for at h
    rcases hf : find_all_groups_for tiles s t p [Constraint.NONE] [] []
      with e | ⟨r0, cacc⟩
    · rw [hf] at h
      cases h
    · rw [hf] at h
      have h' : (if (r0 Constraint.NONE).isEmpty = true then
          (Except.error GFError.keyNotFound :
            Except GFError (List MahjongCombination))
        else Except.ok (r0 Constraint.NONE)) = Except.ok combos := h
      split at h'
      · cases h'
      · injection h' with h'
        subst h'
        have hmin := fagf_min_leftover hsum hf Constraint.NONE x hx
        refine ⟨hmin.1, hmin.2, ?_⟩
        intro y hy
        exact find_all_groups_for_sizes tiles s t p [Constraint.NONE] [] [] r0 cacc
          hsum hf Constraint.NONE x hx y hy
  · intro tiles s t p cs r hsum h c x hx
    unfold all_groups_for_with_constraints at h
    split at h
    · cases h
    · rcases hf : find_all_groups_for tiles s t p cs [] [] with e | ⟨r0, cacc⟩
      · rw [hf] at h
        cases h
      · rw [hf] at h
        have h' : (Except.ok r0 : Except GFError CResult) = Except.ok r := h
        injection h' with h'
        subst h'
        have hmin := fagf_min_leftover hsum hf c x hx
        refine ⟨hmin.1, hmin.2, ?_⟩
        intro y hy
        exact find_all_groups_for_sizes tiles s t p cs [] [] r0 cacc hsum hf
          c x hx y hy

theorem c2_amended_witness :
    (2 ≤ 3 + 0 + 0) ∧
    ((∃ es, full_chain scenario_tiles (3, 0, 0) [Constraint.NONE] es ∧
        Constraint.NONE ∈ chain_scope [Constraint.NONE] es ∧
        (([[⟨1, .BAMBOO⟩, ⟨3, .BAMBOO⟩], [⟨4, .BAMBOO⟩, ⟨6, .BAMBOO⟩],
           [⟨7, .BAMBOO⟩, ⟨9, .BAMBOO⟩]],
          [⟨1, .HONOR⟩, ⟨2, .HONOR⟩, ⟨2, .HONOR⟩, ⟨2, .HONOR⟩]) :
            MahjongCombination) = chain_combo scenario_tiles es) ∧
     (∀ es, full_chain scenario_tiles (3, 0, 0) [Constraint.NONE] es →
        Constraint.NONE ∈ chain_scope [Constraint.NONE] es →
        (([[⟨1, .BAMBOO⟩, ⟨3, .BAMBOO⟩], [⟨4, .BAMBOO⟩, ⟨6, .BAMBOO⟩],
           [⟨7, .BAMBOO⟩, ⟨9, .BAMBOO⟩]],
          [⟨1, .HONOR⟩, ⟨2, .HONOR⟩, ⟨2, .HONOR⟩, ⟨2, .HONOR⟩]) :
            MahjongCombination).2.length ≤
          (chain_combo scenario_tiles es).2.length) ∧
     (∀ y ∈ scenario_result,
        (([[⟨1, .BAMBOO⟩, ⟨3, .BAMBOO⟩], [⟨4, .BAMBOO⟩, ⟨6, .BAMBOO⟩],
           [⟨7, .BAMBOO⟩, ⟨9, .BAMBOO⟩]],
          [⟨1, .HONOR⟩, ⟨2, .HONOR⟩, ⟨2, .HONOR⟩, ⟨2, .HONOR⟩]) :
            MahjongCombination).2.length = y.2.length)) :=
  ⟨by decide, c2_amended_minimal_leftover.1 scenario_tiles 3 0 0 scenario_result
    (by omega) (by decide)
    (([[⟨1, .BAMBOO⟩, ⟨3, .BAMBOO⟩], [⟨4, .BAMBOO⟩, ⟨6, .BAMBOO⟩],
       [⟨7, .BAMBOO⟩, ⟨9, .BAMBOO⟩]],
      [⟨1, .HONOR⟩, ⟨2, .HONOR⟩, ⟨2, .HONOR⟩, ⟨2, .HONOR⟩]) :
        MahjongCombination) (by decide)⟩
